import Mathlib

/-!
OpenSig (Bubble-Protocol/opensig): signature hash chain, signature-data codec, discovery.

A shallow embedding of `src/public/js/opensig.js`.

* JavaScript strings are their sequences of UTF-16 code units (`JSString`), buffers are
  their sequences of byte values (`Bytes`).
* `async` functions are modelled by their settled result: `Except JSError α`, where
  `.error` is a rejected promise or a thrown exception.
* The Crypto Provider (`crypto.subtle.digest`, AES-GCM `encrypt`/`decrypt`,
  `getRandomValues`) and the Ledger Client (`getPastLogs`) are parameters.
-/

namespace OpenSig

/-! ## JavaScript values -/

/-- A JavaScript string: the list of its UTF-16 code units. -/
abbrev JSString := List Nat

/-- The contents of an `ArrayBuffer` or `Uint8Array`: the list of its byte values. -/
abbrev Bytes := List Nat

/-- A string literal of the source, as code units (the literals of the source are ASCII). -/
def lit (s : String) : JSString := s.toList.map Char.toNat

/-- Exceptions the embedded code can raise. -/
inductive JSError where
  | typeError (msg : JSString)
  | error (msg : JSString)
  | operationError
  | blockchainNotSupportedError
  | dataError
  deriving DecidableEq, Repr

deriving instance DecidableEq for Except

/-- A well-formed string: every code unit fits in 16 bits. -/
def IsString (s : JSString) : Prop := ∀ c ∈ s, c < 65536

/-- A well-formed buffer: every element is a byte. -/
def IsBytes (b : Bytes) : Prop := ∀ x ∈ b, x < 256

instance (s : JSString) : Decidable (IsString s) := by unfold IsString; infer_instance

instance (b : Bytes) : Decidable (IsBytes b) := by unfold IsBytes; infer_instance

/-- Relative index of `slice`: a negative index counts from the end, and the
result is clamped to `[0, len]`. -/
def relIndex (len : Nat) (i : Int) : Nat :=
  if i < 0 then ((len : Int) + i).toNat else min i.toNat len

/-- JavaScript `xs.slice(start, stop)` of strings and arrays. -/
def slice {α : Type} (xs : List α) (start stop : Int) : List α :=
  let k := relIndex xs.length start
  let e := relIndex xs.length stop
  (xs.drop k).take (e - k)

/-- JavaScript `xs.slice(start)` of strings and arrays. -/
def sliceFrom {α : Type} (xs : List α) (start : Int) : List α :=
  xs.drop (relIndex xs.length start)

/-- Digit character of `Number.prototype.toString(radix)`: `0`-`9`, then `a`-`z`. -/
def digitChar (d : Nat) : Nat := if d < 10 then 48 + d else 87 + d

/-- Digits of a non-negative integer in the given radix, most significant first. -/
def toStringAux (radix : Nat) : Nat → Nat → JSString
  | 0, n => [digitChar n]
  | fuel + 1, n =>
    if n < radix then [digitChar n]
    else toStringAux radix fuel (n / radix) ++ [digitChar (n % radix)]

/-- JavaScript `n.toString(radix)` for a non-negative integer `n`. -/
def natToString (radix n : Nat) : JSString := toStringAux radix n n

/-- JavaScript `'' + v` for an integer `v` in the 32-bit range, as the bitwise operators
give it, where the string is the plain decimal. -/
def intToString (v : Int) : JSString :=
  if v < 0 then 45 :: natToString 10 v.natAbs else natToString 10 v.toNat

/-- JavaScript `s.padStart(n, c)` with a one-character pad string. -/
def padStart (s : JSString) (n : Nat) (c : Nat) : JSString :=
  List.replicate (n - s.length) c ++ s

/-- White space and line terminators skipped by `parseInt`. -/
def isStrWhiteSpaceChar (c : Nat) : Bool :=
  c == 9 || c == 10 || c == 11 || c == 12 || c == 13 || c == 32 || c == 160 ||
  c == 0x1680 || (decide (0x2000 ≤ c) && decide (c ≤ 0x200A)) || c == 0x2028 ||
  c == 0x2029 || c == 0x202F || c == 0x205F || c == 0x3000 || c == 0xFEFF

/-- Value of a code unit as a hexadecimal digit, either case. -/
def hexValue (c : Nat) : Option Nat :=
  if 48 ≤ c ∧ c ≤ 57 then some (c - 48)
  else if 97 ≤ c ∧ c ≤ 102 then some (c - 87)
  else if 65 ≤ c ∧ c ≤ 70 then some (c - 55)
  else none

/-- The values of the longest prefix of hexadecimal digits. -/
def hexDigits : JSString → List Nat
  | [] => []
  | c :: r =>
    match hexValue c with
    | some d => d :: hexDigits r
    | none => []

/-- The optional sign read by `parseInt`: the factor and the rest of the string. -/
def stripSign : JSString → Int × JSString
  | [] => (1, [])
  | c :: r => if c = 45 then (-1, r) else if c = 43 then (1, r) else (1, c :: r)

/-- The optional `0x` or `0X` that `parseInt` skips when the radix is 16. -/
def strip0x : JSString → JSString
  | a :: b :: r => if a = 48 ∧ (b = 120 ∨ b = 88) then r else a :: b :: r
  | s => s

/-- JavaScript `parseInt(s, 16)`; `none` is `NaN`. Leading white space is skipped, then an
optional sign and an optional `0x`/`0X`, then the longest run of hexadecimal digits is
read. The result is exact up to `2^53`, far above what the at most four characters
the code passes can reach; `-0` is represented by `0`. -/
def parseInt16 (s : JSString) : Option Int :=
  let signed := stripSign (s.dropWhile isStrWhiteSpaceChar)
  match hexDigits (strip0x signed.2) with
  | [] => none
  | ds => some (signed.1 * ((ds.foldl (fun a d => 16 * a + d) 0 : Nat) : Int))

/-- JavaScript `ToUint32` of a number (`none` is `NaN`). -/
def toUint32 : Option Int → Nat
  | none => 0
  | some v => (v % 4294967296).toNat

/-- The signed 32-bit integer with the given bit pattern. -/
def int32OfBits (u : Nat) : Int :=
  if u < 2147483648 then (u : Int) else (u : Int) - 4294967296

/-- The operator `a & b`. -/
def bitAnd (a b : Option Int) : Int := int32OfBits (toUint32 a &&& toUint32 b)

/-- The operator `~a`. -/
def bitNot (a : Option Int) : Int := int32OfBits (4294967295 - toUint32 a)

/-- Conversion of a number to an element of a `Uint8Array` (`NaN` gives 0). -/
def toUint8 : Option Int → Nat
  | none => 0
  | some v => (v % 256).toNat

/-- JavaScript `String.fromCharCode(v)`: the code unit is `ToUint16(v)` (`NaN` gives 0). -/
def fromCharCode : Option Int → Nat
  | none => 0
  | some v => (v % 65536).toNat

/-- Line terminators, which `.` of a regular expression does not match. -/
def isLineTerminator (c : Nat) : Bool :=
  c == 10 || c == 13 || c == 0x2028 || c == 0x2029

/-- The matches of `/.{1,k}/g` in `s` after the pending partial match `cur`: greedy
runs of at most `k` code units that are not line terminators. -/
def matchDotAux (k : Nat) : JSString → JSString → List JSString
  | [], cur => if cur = [] then [] else [cur]
  | c :: r, cur =>
    if isLineTerminator c then
      (if cur = [] then [] else [cur]) ++ matchDotAux k r []
    else if (cur ++ [c]).length = k then (cur ++ [c]) :: matchDotAux k r []
    else matchDotAux k r (cur ++ [c])

/-- JavaScript `s.match(/.{1,k}/g)`; `none` is `null` (no match). -/
def matchDot (k : Nat) (s : JSString) : Option (List JSString) :=
  match matchDotAux k s [] with
  | [] => none
  | ms => some ms

/-- JavaScript `s.replace('0x', '')`: removes the first occurrence of `0x`. -/
def replace0x : JSString → JSString
  | [] => []
  | [c] => [c]
  | a :: b :: r => if a = 48 ∧ b = 120 then r else a :: replace0x (b :: r)

/-! ## Constants -/

/-- Source constant `SIG_DATA_VERSION`, the string `00`. -/
def SIG_DATA_VERSION : JSString := lit "00"

/-- Source constant `SIG_DATA_ENCRYPTED_FLAG`. -/
def SIG_DATA_ENCRYPTED_FLAG : Nat := 128

/-- Source constant `SIG_DATA_TYPE_STRING`. -/
def SIG_DATA_TYPE_STRING : Nat := 0

/-- Source constant `SIG_DATA_TYPE_BYTES`. -/
def SIG_DATA_TYPE_BYTES : Nat := 1

/-! ## Utility functions -/

/-- Source function `_buf2hex(buffer, prefix0x)`. -/
def _buf2hex (buffer : Bytes) (prefix0x : Bool) : JSString :=
  (if prefix0x then lit "0x" else lit "") ++
    (buffer.map (fun x => padStart (natToString 16 x) 2 48)).flatten

/-- Source function `_hexToBuf(hex)`. When the regular expression has no match,
`match` returns `null` and the call of `.map` on it throws a `TypeError`. -/
def _hexToBuf (hex : JSString) : Except JSError Bytes :=
  match matchDot 2 (replace0x hex) with
  | none => .error (.typeError (lit "Cannot read properties of null (reading 'map')"))
  | some ms => .ok (ms.map (fun byte => toUint8 (parseInt16 byte)))

/-- Source function `_concatBuffers(buffer1, buffer2)`. -/
def _concatBuffers (buffer1 buffer2 : Bytes) : Bytes := buffer1 ++ buffer2

/-- Spec: a code unit as exactly four zero-padded lowercase hexadecimal digits. -/
def hex4 (c : Nat) : JSString :=
  [digitChar (c / 4096), digitChar (c / 256 % 16), digitChar (c / 16 % 16), digitChar (c % 16)]

/-- Spec: a byte as two lowercase hexadecimal digits. -/
def hex2 (x : Nat) : JSString := [digitChar (x / 16), digitChar (x % 16)]

/-- Spec: the two bytes of a code unit, high byte first. -/
def bytes2 (c : Nat) : Bytes := [c / 256, c % 256]

/-- Source function `unicodeStrToHex(str)`. -/
def unicodeStrToHex (str : JSString) : JSString :=
  str.foldl (fun result c => result ++ sliceFrom (lit "000" ++ natToString 16 c) (-4)) []

/-- Source function `unicodeHexToStr(str)`. -/
def unicodeHexToStr (str : JSString) : JSString :=
  let hexChars := (matchDot 4 (replace0x str)).getD []
  hexChars.foldl (fun result h => result ++ [fromCharCode (parseInt16 h)]) []

/-! ## Encryption utils

`aesEncrypt key iv plaintext` and `aesDecrypt key iv data` stand for
`crypto.subtle.encrypt` and `crypto.subtle.decrypt` with `AES-GCM`; decryption returns
`none` when the provider rejects (`OperationError`). `iv` in `_encrypt` is the value
returned by `crypto.getRandomValues(new Uint8Array(12))`. -/

/-- Source function `_encrypt(data, key)`. -/
def _encrypt {κ : Type} (aesEncrypt : κ → Bytes → Bytes → Bytes) (iv : Bytes)
    (data : JSString) (key : κ) : Except JSError JSString :=
  match _hexToBuf data with
  | .error e => .error e
  | .ok buf => .ok (_buf2hex (_concatBuffers iv (aesEncrypt key iv buf)) false)

/-- Source function `_decrypt(data, key)`. -/
def _decrypt {κ : Type} (aesDecrypt : κ → Bytes → Bytes → Option Bytes)
    (data : JSString) (key : κ) : Except JSError JSString :=
  match _hexToBuf data with
  | .error e => .error e
  | .ok buf =>
    match aesDecrypt key (slice buf 0 12) (sliceFrom buf 12) with
    | none => .error .operationError
    | some plain => .ok (_buf2hex plain false)

/-! ## Signature data encoders -/

/-- The signature data object `{version, encrypted, type, content}`; an absent
property is `none`. -/
structure SigData where
  version : Option JSString
  encrypted : Option Bool
  type : Option JSString
  content : Option JSString
  deriving DecidableEq, Repr

/-- String conversion of a possibly `undefined` string in a concatenation. -/
def strOrUndefined : Option JSString → JSString
  | none => lit "undefined"
  | some s => s

/-- Source function `_encodeData(data, encryptionKey)`. In the `hex` case the code
calls `data.slice`, and `data` is an object without such a method: a `TypeError`. -/
def _encodeData {κ : Type} (aesEncrypt : κ → Bytes → Bytes → Bytes) (iv : Bytes)
    (data : SigData) (encryptionKey : κ) : Except JSError JSString :=
  if data.content = none ∨ data.content = some [] then .ok (lit "0x")
  else
    let encrypted := data.encrypted = some true
    let type0 : Nat := if encrypted then SIG_DATA_ENCRYPTED_FLAG else 0
    let step : Except JSError (Nat × JSString) :=
      if data.type = some (lit "string") then
        .ok (type0 + SIG_DATA_TYPE_STRING, unicodeStrToHex (data.content.getD []))
      else if data.type = some (lit "hex") then
        .error (.typeError (lit "data.slice is not a function"))
      else
        .error (.error (lit "encodeData: invalid type '" ++ strOrUndefined data.type ++ lit "'"))
    match step with
    | .error e => .error e
    | .ok (type, encData) =>
      let typeStr := sliceFrom (lit "00" ++ natToString 16 type) (-2)
      let pre := lit "0x" ++ SIG_DATA_VERSION ++ typeStr
      if encrypted then
        match _encrypt aesEncrypt iv encData encryptionKey with
        | .error e => .error e
        | .ok encryptedData => .ok (lit "0x" ++ SIG_DATA_VERSION ++ typeStr ++ encryptedData)
      else .ok (pre ++ encData)

/-- Source function `_decodeData(encData, encryptionKey)`; `encData = none` is `null`
or `undefined`. -/
def _decodeData {κ : Type} (aesDecrypt : κ → Bytes → Bytes → Option Bytes)
    (encData : Option JSString) (encryptionKey : κ) : Except JSError SigData :=
  match encData with
  | none => .ok ⟨none, none, some (lit "none"), none⟩
  | some [] => .ok ⟨none, none, some (lit "none"), none⟩
  | some encData =>
    if encData.length < 6 then
      .ok ⟨none, none, some (lit "invalid"), some (lit "data is < 6 bytes")⟩
    else
      let version := slice encData 2 4
      let typeField := parseInt16 (slice encData 4 6)
      let encrypted : Bool := bitAnd typeField (some SIG_DATA_ENCRYPTED_FLAG) ≠ 0
      let type := bitAnd typeField (some (bitNot (some SIG_DATA_ENCRYPTED_FLAG)))
      let sigData0 := sliceFrom encData 6
      let sigData :=
        if encrypted ∧ sigData0.length > 0 then
          match _decrypt aesDecrypt sigData0 encryptionKey with
          | .ok d => d
          | .error _ => lit ""
        else sigData0
      if type = SIG_DATA_TYPE_STRING then
        .ok ⟨some version, some encrypted, some (lit "string"), some (unicodeHexToStr sigData)⟩
      else if type = SIG_DATA_TYPE_BYTES then
        .ok ⟨some version, some encrypted, some (lit "hex"), some (lit "0x" ++ sigData)⟩
      else
        .ok ⟨some version, some encrypted, some (lit "invalid"),
          some (lit "unrecognised type: " ++ intToString type ++ lit " (version=" ++ version ++
            lit ")")⟩

/-! ## Hash chain -/

/-- The hash iterator object: fields `documentHash`, `hashes`, `hashPtr`. -/
structure HashIterator where
  documentHash : Bytes
  hashes : List Bytes
  hashPtr : Int
  deriving DecidableEq, Repr

/-- Element access `xs[i]`; `none` is `undefined`. -/
def index {α : Type} (xs : List α) (i : Int) : Option α :=
  if i < 0 then none else xs[i.toNat]?

namespace HashIterator

/-- Source: `new HashIterator(documentHash)`. -/
def new (documentHash : Bytes) : HashIterator := ⟨documentHash, [], -1⟩

/-- The `for` loop of `next`, with `k` iterations left and loop variable `i`: pushes
`hash(documentHash ∥ hashes[i-1])`. Reading an `undefined` element would make
`_concatBuffers` throw a `TypeError`. -/
def nextLoop (hash : Bytes → Bytes) (documentHash : Bytes) :
    Nat → Int → List Bytes → Except JSError (List Bytes)
  | 0, _, hashes => .ok hashes
  | k + 1, i, hashes =>
    match index hashes (i - 1) with
    | none => .error (.typeError (lit "Cannot read properties of undefined (reading 'byteLength')"))
    | some prev => nextLoop hash documentHash k (i + 1) (hashes ++ [hash (_concatBuffers documentHash prev)])

/-- Source method `next(n)`: the returned slice and the iterator afterwards. The loop
`for (i = hashes.length; i <= hashPtr + n; i++)` runs `max(0, hashPtr + n + 1 - hashes.length)`
times. -/
def next (hash : Bytes → Bytes) (it : HashIterator) (n : Int) :
    Except JSError (List Bytes × HashIterator) :=
  let hashes0 := if it.hashes.length = 0 then it.hashes ++ [hash it.documentHash] else it.hashes
  match nextLoop hash it.documentHash (it.hashPtr + n + 1 - hashes0.length).toNat
      hashes0.length hashes0 with
  | .error e => .error e
  | .ok hashes1 =>
    .ok (slice hashes1 (it.hashPtr + 1) (it.hashPtr + n + 1),
      ⟨it.documentHash, hashes1, it.hashPtr + n⟩)

/-- Source method `currentIndex()`. -/
def currentIndex (it : HashIterator) : Int := it.hashPtr

/-- Source method `indexAt(i)`; `none` is `undefined`. -/
def indexAt (it : HashIterator) (i : Int) : Option Bytes :=
  if i < it.hashes.length then index it.hashes i else none

/-- Source method `indexOf(hash)`: position of the first equal hex string, or `-1`. -/
def indexOf (it : HashIterator) (hash : JSString) : Int :=
  let hs := it.hashes.map (fun h => _buf2hex h true)
  if hash ∈ hs then (hs.indexOf hash : Int) else -1

/-- Source method `reset(n)`. -/
def reset (it : HashIterator) (n : Int) : HashIterator := ⟨it.documentHash, it.hashes, n⟩

/-- Source method `size()`. -/
def size (it : HashIterator) : Int := it.hashPtr

end HashIterator

/-! ## Verifying functions

The Ledger Client is a parameter: `getPastLogs topics` is the list of log events, already
ABI-decoded into their fields, that `web3.eth.getPastLogs` returns for the registry contract
of the network over its full block range when the third topic filter is `topics`. The
function `getBlockchain` is not part of the source files; its result is the parameter
`network`. -/

/-- The network description returned by `getBlockchain()`, with the fields the code
reads. -/
structure Network where
  chain : Nat
  contractAddress : JSString
  creationBlock : Option Nat
  deriving DecidableEq, Repr

/-- A log event of the registry contract with its decoded fields `time`, `signer`,
`signature` and `data` (`none` when the decoder yields `null`). -/
structure LogEvent where
  time : Nat
  signer : JSString
  signature : JSString
  data : Option JSString
  deriving DecidableEq, Repr

/-- The signature object built by `_decodeSignatureEvent`. -/
structure SignatureEvent where
  time : Nat
  signatory : JSString
  signature : JSString
  data : SigData
  deriving DecidableEq, Repr

/-- Source function `_decodeSignatureEvent(event, encryptionKey)`. -/
def _decodeSignatureEvent {κ : Type} (aesDecrypt : κ → Bytes → Bytes → Option Bytes)
    (event : LogEvent) (encryptionKey : κ) : Except JSError SignatureEvent :=
  match _decodeData aesDecrypt event.data encryptionKey with
  | .error e => .error e
  | .ok d => .ok ⟨event.time, event.signer, event.signature, d⟩

/-- JavaScript `Promise.all` of settled promises: the list of results, or the first rejection. -/
def promiseAll {α : Type} : List (Except JSError α) → Except JSError (List α)
  | [] => .ok []
  | .error e :: _ => .error e
  | .ok a :: r =>
    match promiseAll r with
    | .error e => .error e
    | .ok as => .ok (a :: as)

/-- JavaScript `ToNumber` of a one-character string, as used by `Uint8Array.from(str)`. -/
def charToNumber (c : Nat) : Option Int :=
  if 48 ≤ c ∧ c ≤ 57 then some ((c - 48 : Nat) : Int)
  else if isStrWhiteSpaceChar c then some 0
  else none

/-- JavaScript `Uint8Array.from(str)`: one element per character (the strings passed are ASCII). -/
def uint8ArrayFromString (str : JSString) : Bytes :=
  str.map (fun c => toUint8 (charToNumber c))

/-- Source constant `MAX_SIGS_PER_DISCOVERY_ITERATION`. -/
def MAX_SIGS_PER_DISCOVERY_ITERATION : Nat := 10

/-- The variables of `_discoverSignatures` that `_discoverNext` reads and writes, and the
list of topic filters queried so far. -/
structure DiscoveryState where
  hashes : HashIterator
  signatureEvents : List SignatureEvent
  lastSignatureIndex : Int
  queries : List (List JSString)
  deriving DecidableEq, Repr

/-- The object `{hashes, signatures}` returned by `_discoverSignatures`, and the list of
topic filters that were queried. -/
structure DiscoveryResult where
  hashes : HashIterator
  signatures : List SignatureEvent
  queries : List (List JSString)
  deriving DecidableEq, Repr

/-- Source function `_discoverNext(n)` inside `_discoverSignatures`. The recursion of the
source is unbounded; `fuel` bounds the number of calls and `none` means it was
exhausted. -/
def _discoverNext {κ : Type} (hash : Bytes → Bytes)
    (aesDecrypt : κ → Bytes → Bytes → Option Bytes)
    (getPastLogs : List JSString → List LogEvent) (encryptionKey : κ) :
    Nat → DiscoveryState → Int → Option (Except JSError DiscoveryResult)
  | 0, _, _ => none
  | fuel + 1, st, n =>
    match st.hashes.next hash n with
    | .error e => some (.error e)
    | .ok (eSigs, hashes) =>
      let strEsigs := eSigs.map (fun s => _buf2hex s true)
      let events := getPastLogs strEsigs
      match promiseAll (events.map (fun e => _decodeSignatureEvent aesDecrypt e encryptionKey)) with
      | .error e => some (.error e)
      | .ok parsedEvents =>
        let signatureEvents := st.signatureEvents ++ parsedEvents
        let lastSignatureIndex := parsedEvents.foldl (fun last e =>
          let sigNumber := hashes.indexOf e.signature
          if sigNumber > last then sigNumber else last) st.lastSignatureIndex
        if parsedEvents.length ≠ MAX_SIGS_PER_DISCOVERY_ITERATION then
          some (.ok ⟨hashes.reset lastSignatureIndex, signatureEvents, st.queries ++ [strEsigs]⟩)
        else
          _discoverNext hash aesDecrypt getPastLogs encryptionKey fuel
            ⟨hashes, signatureEvents, lastSignatureIndex, st.queries ++ [strEsigs]⟩
            MAX_SIGS_PER_DISCOVERY_ITERATION

/-- Unit in the last place of the double nearest to `v`, for `v` from `2^53` on: the power
of two `u` with `2^52 ≤ v / u < 2^53`. -/
def ulpAux : Nat → Nat → Nat
  | 0, _ => 1
  | fuel + 1, v => if v < 9007199254740992 then 1 else 2 * ulpAux fuel (v / 2)

/-- The Number value of a non-negative integer below `2^1024`: the nearest double, ties to
the even significand. Integers below `2^53` are Number values themselves. -/
def toNumber (v : Nat) : Nat :=
  if v < 9007199254740992 then v
  else
    let u := ulpAux v v
    let q := v / u
    let r := v % u
    if 2 * r > u ∨ (2 * r = u ∧ q % 2 = 1) then (q + 1) * u else q * u

/-- The two decimals with at most `k` significant digits next to `x`, which has `len`
digits, the one closer to `x` first (on a tie the one with the even digit string). -/
def decimalCandidates (x len k : Nat) : List Nat :=
  let p := 10 ^ (len - k)
  let lo := x / p * p
  let hi := lo + p
  if x - lo < hi - x ∨ (x - lo = hi - x ∧ x / p % 2 = 0) then [lo, hi] else [hi, lo]

/-- The value `s × 10^(n-k)` of `Number::toString` for a non-negative integer Number
`x`: the decimal with the fewest significant digits `k` whose Number value is `x`, and among
those the one closest to `x`. -/
def shortestDecimal (x : Nat) : Nat :=
  let len := (natToString 10 x).length
  (((List.range' 1 len).flatMap (decimalCandidates x len)).find?
    (fun v => decide (toNumber v = x))).getD x

/-- JavaScript `'' + x` for a non-negative integer Number `x`, that is
`Number::toString(x, 10)`: plain decimal digits when the decimal has at most 21 digits, and
from `10^21` on exponent notation, `d.ddde+n`. -/
def numberToString (x : Nat) : JSString :=
  let v := shortestDecimal x
  if v < 1000000000000000000000 then natToString 10 v
  else
    let digits := natToString 10 v
    let s := (digits.reverse.dropWhile (fun c => c == 48)).reverse
    let e := natToString 10 (digits.length - 1)
    match s with
    | d :: d1 :: rest => d :: 46 :: d1 :: rest ++ lit "e+" ++ e
    | _ => s ++ lit "e+" ++ e

/-- The seed of the hash chain computed by `_discoverSignatures`:
`hash(_concatBuffers(Uint8Array.from('' + network.network.chain), documentHash))`, for a
chain id `chain` that is a non-negative integer Number. -/
def chainSpecificDocumentHash (hash : Bytes → Bytes) (chain : Nat) (documentHash : Bytes) :
    Bytes :=
  hash (_concatBuffers (uint8ArrayFromString (numberToString chain)) documentHash)

/-- Source function `_discoverSignatures(documentHash, encryptionKey)`. -/
def _discoverSignatures {κ : Type} (hash : Bytes → Bytes)
    (aesDecrypt : κ → Bytes → Bytes → Option Bytes) (network : Option Network)
    (getPastLogs : List JSString → List LogEvent) (fuel : Nat)
    (documentHash : Bytes) (encryptionKey : κ) : Option (Except JSError DiscoveryResult) :=
  match network with
  | none => some (.error .blockchainNotSupportedError)
  | some net =>
    let hashes := HashIterator.new (chainSpecificDocumentHash hash net.chain documentHash)
    _discoverNext hash aesDecrypt getPastLogs encryptionKey fuel ⟨hashes, [], -1, []⟩
      MAX_SIGS_PER_DISCOVERY_ITERATION

/-! ## Signing functions and the Document

The wallet provider and the browser are parameters, collected in `Env`. The encryption key
of a document is `undefined` until it has been derived, so the primitives take an optional
key. `contract.methods.registerSignature(signature, encodedData).encodeABI()` belongs to the
ledger client library; a transaction records its two arguments instead of their ABI
encoding. The `confirmationInformer` of the result, a promise driven by timers, is left
out. -/

/-- The `transactionParameters` passed to `eth_sendTransaction`: `to`, `from`, `value`, and
the arguments of `registerSignature` that make up `data`. -/
structure Transaction where
  toAddress : JSString
  fromAddress : Option JSString
  value : Nat
  signature : JSString
  encodedData : JSString
  deriving DecidableEq, Repr

/-- The object returned by `_publishSignature`: `txHash`, `signatory`, `signature`. -/
structure SignResult where
  txHash : JSString
  signatory : Option JSString
  signature : JSString
  deriving DecidableEq, Repr

/-- The environment of the code: `cryptoAvailable` is `window.crypto && window.crypto.subtle`,
`hash` the SHA-256 digest, `importKey` the raw AES-GCM key import (`none` when it rejects),
`iv` the value of `getRandomValues`, `network` the result of `getBlockchain()`,
`selectedAddress` is `window.ethereum.selectedAddress`, `sendTransaction` the wallet request
`eth_sendTransaction` (its transaction hash, or a rejection) and `getPastLogs` the log
query. -/
structure Env (κ : Type) where
  cryptoAvailable : Bool
  hash : Bytes → Bytes
  importKey : Bytes → Option κ
  aesEncrypt : Option κ → Bytes → Bytes → Bytes
  aesDecrypt : Option κ → Bytes → Bytes → Option Bytes
  iv : Bytes
  network : Option Network
  selectedAddress : Option JSString
  sendTransaction : Transaction → Except JSError JSString
  getPastLogs : List JSString → List LogEvent

/-- Source function `_publishSignature(signatureAsArr, data, encryptionKey)`: its result and
the list of transactions requested from the wallet. -/
def _publishSignature {κ : Type} (env : Env κ) (signatureAsArr : List Bytes) (data : SigData)
    (encryptionKey : Option κ) : Except JSError SignResult × List Transaction :=
  match env.network with
  | none => (.error .blockchainNotSupportedError, [])
  | some network =>
    let signatory := env.selectedAddress
    let signature := _buf2hex ((index signatureAsArr 0).getD []) true
    match _encodeData env.aesEncrypt env.iv data encryptionKey with
    | .error e => (.error e, [])
    | .ok encodedData =>
      let transactionParameters : Transaction :=
        ⟨network.contractAddress, signatory, 0, signature, encodedData⟩
      match env.sendTransaction transactionParameters with
      | .error e => (.error e, [transactionParameters])
      | .ok txHash => (.ok ⟨txHash, signatory, signature⟩, [transactionParameters])

/-- The Document object: fields `documentHash`, `hashes`, `encryptionKey`; `none` is
`undefined`. -/
structure Document (κ : Type) where
  documentHash : Option Bytes
  hashes : Option HashIterator
  encryptionKey : Option κ
  deriving DecidableEq, Repr

namespace Document

/-- Source method `setDocumentHash(hash)`: the settled result and the document
afterwards. The hash is stored before the key import is awaited. -/
def setDocumentHash {κ : Type} (env : Env κ) (doc : Document κ) (hash : Bytes) :
    Except JSError Unit × Document κ :=
  match env.importKey hash with
  | none => (.error .dataError, ⟨some hash, doc.hashes, doc.encryptionKey⟩)
  | some key => (.ok (), ⟨some hash, doc.hashes, some key⟩)

/-- Source: `new Document(hash)`, the object when the constructor returns. The constructor
calls `setDocumentHash(hash)` without awaiting it: the hash is stored, `encryptionKey` is
still undefined, and the key import is pending; once it has settled the state is
`(setDocumentHash env (new κ hash) h).2` for `hash = some h`. -/
def new (κ : Type) (hash : Option Bytes) : Document κ := ⟨hash, none, none⟩

/-- Source method `sign(data)`: the settled result, the document afterwards and the list
of transactions requested from the wallet. -/
def sign {κ : Type} (env : Env κ) (doc : Document κ) (data : SigData) :
    Except JSError SignResult × Document κ × List Transaction :=
  if ¬ env.cryptoAvailable then
    (.error (.error (lit "Browser not supported: missing crypto capability")), doc, [])
  else
    match doc.hashes with
    | none => (.error (.error (lit "Must verify before signing")), doc, [])
    | some hashes =>
      match hashes.next env.hash 1 with
      | .error e =>
        (.error e, ⟨doc.documentHash, some (hashes.reset (hashes.currentIndex - 1)),
          doc.encryptionKey⟩, [])
      | .ok (signature, hashes1) =>
        match _publishSignature env signature data doc.encryptionKey with
        | (.error e, sent) =>
          (.error e, ⟨doc.documentHash, some (hashes1.reset (hashes1.currentIndex - 1)),
            doc.encryptionKey⟩, sent)
        | (.ok result, sent) =>
          (.ok result, ⟨doc.documentHash, some hashes1, doc.encryptionKey⟩, sent)

/-- Source method `verify()`; `fuel` bounds the calls of `_discoverNext` and `none` means
it was exhausted. With `documentHash` undefined, `_concatBuffers` throws a `TypeError`. -/
def verify {κ : Type} (env : Env κ) (fuel : Nat) (doc : Document κ) :
    Option (Except JSError (List SignatureEvent) × Document κ) :=
  if ¬ env.cryptoAvailable then
    some (.error (.error (lit "Browser not supported: missing crypto capability")), doc)
  else
    match env.network, doc.documentHash with
    | none, _ => some (.error .blockchainNotSupportedError, doc)
    | some _, none =>
      some (.error (.typeError (lit "Cannot read properties of undefined (reading 'byteLength')")),
        doc)
    | some _, some documentHash =>
      match _discoverSignatures env.hash env.aesDecrypt env.network env.getPastLogs fuel
          documentHash doc.encryptionKey with
      | none => none
      | some (.error e) => some (.error e, doc)
      | some (.ok result) =>
        some (.ok result.signatures, ⟨doc.documentHash, some result.hashes, doc.encryptionKey⟩)

end Document

/-- States of a Document on which `verify()` has never completed: those reachable from
construction by `setDocumentHash`, by `sign` and by calls of `verify` that failed. -/
inductive NeverVerified {κ : Type} : Document κ → Prop
  | new (hash : Option Bytes) : NeverVerified (Document.new κ hash)
  | setDocumentHash (env : Env κ) (doc : Document κ) (hash : Bytes) :
      NeverVerified doc → NeverVerified (doc.setDocumentHash env hash).2
  | sign (env : Env κ) (doc : Document κ) (data : SigData) :
      NeverVerified doc → NeverVerified (doc.sign env data).2.1
  | verifyFailed (env : Env κ) (fuel : Nat) (doc : Document κ) (e : JSError)
      (doc' : Document κ) :
      NeverVerified doc → doc.verify env fuel = some (.error e, doc') → NeverVerified doc'

/-- Spec: `k` successive calls of `sign`, one for each payload: the results, the document
afterwards and all transactions requested, in order. -/
def signAll {κ : Type} (env : Env κ) :
    Document κ → List SigData →
      List (Except JSError SignResult) × Document κ × List Transaction
  | doc, [] => ([], doc, [])
  | doc, data :: rest =>
    ((doc.sign env data).1 :: (signAll env (doc.sign env data).2.1 rest).1,
      (signAll env (doc.sign env data).2.1 rest).2.1,
      (doc.sign env data).2.2 ++ (signAll env (doc.sign env data).2.1 rest).2.2)

/-! ## Specification-side definitions -/

/-- Spec: pseudonym 0 is `hash(seed)`; each subsequent pseudonym is
`hash(seed ∥ previous)`. -/
def chain (hash : Bytes → Bytes) (seed : Bytes) : Nat → Bytes
  | 0 => hash seed
  | i + 1 => hash (seed ++ chain hash seed i)

/-- The first `len` pseudonyms of the chain. -/
def chainList (hash : Bytes → Bytes) (seed : Bytes) (len : Nat) : List Bytes :=
  (List.range len).map (chain hash seed)

/-- The pseudonym at index `i` as published: the `0x`-prefixed hex of `chain(i)`. -/
def pseudonym (hash : Bytes → Bytes) (seed : Bytes) (i : Nat) : JSString :=
  _buf2hex (chain hash seed i) true

/-- Spec: batch `k` of the discovery, the published forms of `chain(10k), ..., chain(10k+9)`. -/
def batch (hash : Bytes → Bytes) (seed : Bytes) (k : Nat) : List JSString :=
  (List.range' (10 * k) 10).map (pseudonym hash seed)

/-- States of a hash iterator for `seed` reachable from construction by `next` and
`reset` with arbitrary integer arguments. -/
inductive Reachable (hash : Bytes → Bytes) (seed : Bytes) : HashIterator → Prop
  | new : Reachable hash seed (HashIterator.new seed)
  | next (it : HashIterator) (n : Int) (r : List Bytes) (it' : HashIterator) :
      Reachable hash seed it → it.next hash n = .ok (r, it') → Reachable hash seed it'
  | reset (it : HashIterator) (k : Int) : Reachable hash seed it → Reachable hash seed (it.reset k)

/-- States of a hash iterator for `seed` reachable from construction by `next` with any
integer argument and by `reset(index)` with `index` at most the cached length minus 1. -/
inductive ReachableInRange (hash : Bytes → Bytes) (seed : Bytes) : HashIterator → Prop
  | new : ReachableInRange hash seed (HashIterator.new seed)
  | next (it : HashIterator) (n : Int) (r : List Bytes) (it' : HashIterator) :
      ReachableInRange hash seed it → it.next hash n = .ok (r, it') →
      ReachableInRange hash seed it'
  | reset (it : HashIterator) (k : Int) : ReachableInRange hash seed it →
      k ≤ (it.hashes.length : Int) - 1 → ReachableInRange hash seed (it.reset k)

/-! ## Sample instances of the parameters, used to evaluate the code on concrete inputs -/

/-- A sample digest function. -/
def sampleDigest (b : Bytes) : Bytes := [b.sum % 256, b.length % 256]

/-- A sample iterator state: seed `[1, 2]`, three cached pseudonyms, cursor 0. -/
def sampleState : HashIterator := ⟨[1, 2], [[3, 2], [8, 4], [15, 4]], 0⟩

/-- A sample cipher: shifts every byte by the key and the IV, and appends a
one-byte tag. -/
def sampleEncrypt (key : Nat) (iv pt : Bytes) : Bytes :=
  pt.map (fun x => (x + key + iv.sum) % 256) ++ [key % 256]

/-- Decryption of the sample cipher; `none` when the tag does not match. -/
def sampleDecrypt (key : Nat) (iv ct : Bytes) : Option Bytes :=
  if ct.getLast? = some (key % 256) then
    some (ct.dropLast.map (fun x => (x + 256 * (key + iv.sum) - (key + iv.sum)) % 256))
  else none

/-- A sample 12-byte initialisation vector. -/
def sampleIV : Bytes := [1, 2, 3, 4, 5, 6, 7, 8, 9, 10, 11, 12]

/-- A sample network description. -/
def sampleNetwork : Network := ⟨1, lit "0xc0ffee", none⟩

/-- The pseudonym at index `i` of the sample document's chain on the sample network, as
the hex string used as log topic. -/
def samplePseudonym (i : Nat) : JSString :=
  _buf2hex (chain sampleDigest (chainSpecificDocumentHash sampleDigest 1 [7, 7]) i) true

/-- A sample ledger: one signature event for each of the first two pseudonyms of the
sample chain, in reverse order, and one unrelated event. -/
def sampleLedger : List LogEvent :=
  [⟨30, lit "0xb0b", samplePseudonym 1, some (lit "0x000000680069")⟩,
   ⟨20, lit "0xa11ce", lit "0x00", none⟩,
   ⟨10, lit "0xa11ce", samplePseudonym 0, none⟩]

/-- The sample ledger's `getPastLogs`: the events whose topic is in the filter. -/
def sampleGetPastLogs (topics : List JSString) : List LogEvent :=
  sampleLedger.filter (fun e => e.signature ∈ topics)

/-- A sample environment: crypto available, the sample digest and cipher (key 0 when the
key is undefined), the sample network and ledger, and a wallet that accepts every
transaction. -/
def sampleEnv : Env Nat :=
  ⟨true, sampleDigest, fun b => some b.sum, fun k => sampleEncrypt (k.getD 0),
    fun k => sampleDecrypt (k.getD 0), sampleIV, some sampleNetwork, some (lit "0xa11ce"),
    fun _ => .ok (lit "0xfeed"), sampleGetPastLogs⟩

/-- A sample document with identity `[7, 7]` whose key import has settled, not yet verified. -/
def sampleDocument : Document Nat :=
  ((Document.new Nat (some [7, 7])).setDocumentHash sampleEnv [7, 7]).2

/-- A sample string payload. -/
def samplePayload : SigData := ⟨none, some false, some (lit "string"), some (lit "v1")⟩

/-- A sample payload of type `hex`. -/
def sampleHexPayload : SigData := ⟨none, some false, some (lit "hex"), some (lit "0xdeadbeef")⟩

/-- The seed of the sample document's chain on the sample network. -/
def sampleSeed : Bytes := chainSpecificDocumentHash sampleDigest 1 [7, 7]

/-- The sample document after `verify()` on the sample ledger: ten cached pseudonyms,
cursor 1. -/
def sampleVerifiedDocument : Document Nat :=
  ⟨some [7, 7], some ⟨sampleSeed, chainList sampleDigest sampleSeed 10, 1⟩, some 14⟩

/-- A sample ledger with one signature event for each of the first 13 pseudonyms of the
sample chain. -/
def sampleLedger13 : List LogEvent :=
  (List.range 13).map (fun i => ⟨i, lit "0xa11ce", samplePseudonym i, none⟩)

/-- The `getPastLogs` of the 13-event sample ledger. -/
def sampleGetPastLogs13 (topics : List JSString) : List LogEvent :=
  sampleLedger13.filter (fun e => e.signature ∈ topics)

/-- A sample `getPastLogs` that does not apply the topic filter: every response is the
whole sample ledger, the unrelated event included. -/
def sampleGetPastLogsAll (_ : List JSString) : List LogEvent := sampleLedger

/-- A sample `getPastLogs` that does not apply the topic filter: every response is one
event carrying the pseudonym of index 15 of the sample chain. -/
def sampleGetPastLogs15 (_ : List JSString) : List LogEvent :=
  [⟨10, lit "0xa11ce", samplePseudonym 15, none⟩]

/-! ## Hash chain: `next` returns the chain -/

theorem chainList_length (hash : Bytes → Bytes) (seed : Bytes) (len : Nat) :
    (chainList hash seed len).length = len := by
  simp [chainList]

theorem chainList_succ (hash : Bytes → Bytes) (seed : Bytes) (len : Nat) :
    chainList hash seed (len + 1) = chainList hash seed len ++ [chain hash seed len] := by
  simp [chainList, List.range_succ]

theorem index_chainList (hash : Bytes → Bytes) (seed : Bytes) (len : Nat) :
    index (chainList hash seed (len + 1)) (((len + 1 : Nat) : Int) - 1) =
      some (chain hash seed len) := by
  have h : ¬ (((len + 1 : Nat) : Int) - 1 < 0) := by omega
  have h2 : (((len + 1 : Nat) : Int) - 1).toNat = len := by omega
  simp [index, h, h2, chainList]

theorem nextLoop_chainList (hash : Bytes → Bytes) (seed : Bytes) (k : Nat) :
    ∀ len : Nat, HashIterator.nextLoop hash seed k ((len + 1 : Nat) : Int)
      (chainList hash seed (len + 1)) = .ok (chainList hash seed (len + 1 + k)) := by
  induction k with
  | zero => intro len; simp [HashIterator.nextLoop]
  | succ k ih =>
    intro len
    have hstep := ih (len + 1)
    rw [HashIterator.nextLoop, index_chainList]
    simp only []
    have hc : chainList hash seed (len + 1) ++ [hash (_concatBuffers seed (chain hash seed len))]
        = chainList hash seed (len + 1 + 1) := by
      rw [chainList_succ hash seed (len + 1)]; rfl
    rw [hc]
    have hi : (((len + 1 : Nat) : Int) + 1) = ((len + 1 + 1 : Nat) : Int) := by push_cast; ring
    rw [hi, hstep]
    congr 2
    omega

/-- The cache of a reachable iterator is a prefix of the chain of its seed. -/
theorem Reachable.inv {hash : Bytes → Bytes} {seed : Bytes} {it : HashIterator}
    (h : Reachable hash seed it) :
    it.documentHash = seed ∧ it.hashes = chainList hash seed it.hashes.length := by
  induction h with
  | new => simp [HashIterator.new, chainList]
  | next it n r it' _ hnext ih =>
    obtain ⟨hd, hh⟩ := ih
    unfold HashIterator.next at hnext
    by_cases h0 : it.hashes.length = 0
    · have hnil : it.hashes = [] := List.eq_nil_of_length_eq_zero h0
      have h1 : ([] : List Bytes) ++ [hash seed] = chainList hash seed (0 + 1) := by
        simp [chainList, chain, List.range_succ]
      simp only [hnil, hd, List.length_nil, if_true, h1] at hnext
      rw [chainList_length] at hnext
      rw [nextLoop_chainList] at hnext
      simp only [Except.ok.injEq, Prod.mk.injEq] at hnext
      rw [← hnext.2]
      simp [chainList_length]
    · obtain ⟨l, hl⟩ : ∃ l, it.hashes.length = l + 1 := ⟨it.hashes.length - 1, by omega⟩
      rw [hl] at hh
      simp only [h0, if_false, hd] at hnext
      rw [hh, chainList_length, nextLoop_chainList] at hnext
      simp only [Except.ok.injEq, Prod.mk.injEq] at hnext
      rw [← hnext.2]
      simp [chainList_length]
  | reset it k _ ih => exact ih

theorem slice_chainList (hash : Bytes → Bytes) (seed : Bytes) (len q n : Nat)
    (h : q + n ≤ len) :
    slice (chainList hash seed len) (q : Int) ((q + n : Nat) : Int) =
      (List.range' q n).map (chain hash seed) := by
  have h1 : relIndex len (q : Int) = q := by
    unfold relIndex
    have : ¬ ((q : Int) < 0) := by omega
    simp only [this, if_false, Int.toNat_ofNat]; omega
  have h2 : relIndex len ((q + n : Nat) : Int) = q + n := by
    unfold relIndex
    have : ¬ (((q + n : Nat) : Int) < 0) := by omega
    simp only [this, if_false, Int.toNat_ofNat]; omega
  obtain ⟨rest, hrest⟩ : ∃ rest, len = q + (n + rest) := ⟨len - q - n, by omega⟩
  unfold slice
  simp only [chainList_length, h1, h2]
  have hsplit : chainList hash seed len =
      (List.range' 0 q).map (chain hash seed) ++
        ((List.range' q n).map (chain hash seed) ++
          (List.range' (q + n) rest).map (chain hash seed)) := by
    rw [chainList, hrest, List.range_eq_range', ← List.map_append, ← List.map_append]
    congr 1
    have ha : List.range' q n ++ List.range' (q + n) rest = List.range' q (rest + n) :=
      List.range'_append_1 q n rest
    have hb : List.range' 0 q ++ List.range' (0 + q) (rest + n) = List.range' 0 (rest + n + q) :=
      List.range'_append_1 0 q (rest + n)
    rw [ha]
    rw [Nat.zero_add] at hb
    rw [hb]
    congr 1
    omega
  rw [hsplit]
  rw [List.drop_left' (by simp)]
  have : q + n - q = n := by omega
  rw [this, List.take_left' (by simp)]

/-- C1: from every reachable iterator state with cursor `p ≥ -1` and for every `n` (in particular `n ≥ 1`),
`next(n)` returns exactly the `n` pseudonyms `chain(p+1), ..., chain(p+n)` in that order,
and afterwards `currentIndex()` is `p + n`. -/
theorem C1_next_returns_chain (hash : Bytes → Bytes) (seed : Bytes) (it : HashIterator)
    (n : Nat) (hr : Reachable hash seed it) (hp : -1 ≤ it.currentIndex) :
    ∃ it' : HashIterator,
      it.next hash (n : Int) =
        .ok ((List.range' (it.currentIndex + 1).toNat n).map (chain hash seed), it') ∧
      ((List.range' (it.currentIndex + 1).toNat n).map (chain hash seed)).length = n ∧
      it'.currentIndex = it.currentIndex + n := by
  obtain ⟨hd, hh⟩ := hr.inv
  simp only [HashIterator.currentIndex] at hp ⊢
  obtain ⟨q, hq⟩ : ∃ q : Nat, it.hashPtr + 1 = (q : Int) := ⟨(it.hashPtr + 1).toNat, by omega⟩
  have hq' : it.hashPtr + (n : Int) + 1 = ((q + n : Nat) : Int) := by push_cast; omega
  -- the cache after the optional first push is a non-empty prefix of the chain
  obtain ⟨l, hl⟩ : ∃ l : Nat,
      (if it.hashes.length = 0 then it.hashes ++ [hash it.documentHash] else it.hashes) =
        chainList hash seed (l + 1) := by
    by_cases h0 : it.hashes.length = 0
    · refine ⟨0, ?_⟩
      have hnil : it.hashes = [] := List.eq_nil_of_length_eq_zero h0
      simp [hnil, hd, chainList, chain, List.range_succ]
    · refine ⟨it.hashes.length - 1, ?_⟩
      have : it.hashes.length - 1 + 1 = it.hashes.length := by omega
      simp only [h0, if_false, this]
      exact hh
  unfold HashIterator.next
  rw [hd] at hl
  simp only [hd, hl, chainList_length, nextLoop_chainList, hq, hq', Int.toNat_ofNat]
  have hs : ∀ k : Nat, slice (chainList hash seed (l + 1 + (((q + n : Nat) : Int) - ((l + 1 : Nat) : Int)).toNat))
      (q : Int) ((q + n : Nat) : Int) = (List.range' q n).map (chain hash seed) := by
    intro _
    apply slice_chainList
    omega
  rw [hs 0]
  exact ⟨_, rfl, by simp, rfl⟩

theorem C1_next_returns_chain_witness :
    Reachable sampleDigest [1, 2] sampleState ∧ -1 ≤ sampleState.currentIndex ∧
    ∃ it' : HashIterator,
      sampleState.next sampleDigest ((4 : Nat) : Int) =
        .ok ((List.range' (sampleState.currentIndex + 1).toNat 4).map (chain sampleDigest [1, 2]),
          it') ∧
      ((List.range' (sampleState.currentIndex + 1).toNat 4).map
        (chain sampleDigest [1, 2])).length = 4 ∧
      it'.currentIndex = sampleState.currentIndex + (4 : Nat) :=
  have hr : Reachable sampleDigest [1, 2] sampleState :=
    Reachable.reset _ 0
      (Reachable.next (HashIterator.new [1, 2]) 3 [[3, 2], [8, 4], [15, 4]]
        ⟨[1, 2], [[3, 2], [8, 4], [15, 4]], 2⟩ Reachable.new (by decide))
  ⟨hr, by decide, C1_next_returns_chain sampleDigest [1, 2] sampleState 4 hr (by decide)⟩

/-! ## Number formatting and parsing -/

theorem digitChar_facts : ∀ d, d < 16 →
    hexValue (digitChar d) = some d ∧ isStrWhiteSpaceChar (digitChar d) = false ∧
    isLineTerminator (digitChar d) = false ∧ digitChar d ≠ 45 ∧ digitChar d ≠ 43 ∧
    digitChar d ≠ 120 ∧ digitChar d ≠ 88 := by decide

theorem toStringAux_fuel (radix : Nat) (hr : 2 ≤ radix) :
    ∀ fuel1 fuel2 n : Nat, n ≤ fuel1 → n ≤ fuel2 →
      toStringAux radix fuel1 n = toStringAux radix fuel2 n := by
  intro fuel1
  induction fuel1 with
  | zero =>
    intro fuel2 n h1 _
    have hn : n = 0 := by omega
    subst hn
    cases fuel2 with
    | zero => rfl
    | succ f =>
      have hpos : 0 < radix := by omega
      simp [toStringAux, hpos]
  | succ f ih =>
    intro fuel2 n h1 h2
    cases fuel2 with
    | zero =>
      have hn : n = 0 := by omega
      subst hn
      have hpos : 0 < radix := by omega
      simp [toStringAux, hpos]
    | succ g =>
      simp only [toStringAux]
      by_cases hlt : n < radix
      · simp [hlt]
      · simp only [hlt, if_false]
        have hdiv : n / radix < n := Nat.div_lt_self (by omega) (by omega)
        rw [ih g (n / radix) (by omega) (by omega)]

theorem natToString_eq (radix : Nat) (hr : 2 ≤ radix) (n : Nat) :
    natToString radix n =
      if n < radix then [digitChar n]
      else natToString radix (n / radix) ++ [digitChar (n % radix)] := by
  unfold natToString
  cases n with
  | zero =>
    have hpos : 0 < radix := by omega
    simp [toStringAux, hpos]
  | succ m =>
    simp only [toStringAux]
    by_cases hlt : m + 1 < radix
    · simp [hlt]
    · simp only [hlt, if_false]
      have hdiv : (m + 1) / radix < m + 1 := Nat.div_lt_self (by omega) (by omega)
      rw [toStringAux_fuel radix hr m ((m + 1) / radix) ((m + 1) / radix) (by omega) (le_refl _)]

theorem natToString16_byte (x : Nat) (h : x < 256) :
    padStart (natToString 16 x) 2 48 = hex2 x := by
  rw [natToString_eq 16 (by omega)]
  by_cases h1 : x < 16
  · have : x / 16 = 0 := by omega
    have h2 : x % 16 = x := by omega
    simp [h1, padStart, hex2, this, h2, digitChar]
  · have h2 : x / 16 < 16 := by omega
    rw [natToString_eq 16 (by omega)]
    simp [h1, h2, padStart, hex2]

theorem natToString16_unit (c : Nat) (h : c < 65536) :
    sliceFrom (lit "000" ++ natToString 16 c) (-4) = hex4 c := by
  have hl : lit "000" = [48, 48, 48] := by decide
  rw [hl, natToString_eq 16 (by omega)]
  by_cases h1 : c < 16
  · have e1 : c / 4096 = 0 := by omega
    have e2 : c / 256 % 16 = 0 := by omega
    have e3 : c / 16 % 16 = 0 := by omega
    have e4 : c % 16 = c := by omega
    simp [h1, hex4, e1, e2, e3, e4, sliceFrom, relIndex, digitChar]
  · rw [natToString_eq 16 (by omega)]
    by_cases h2 : c / 16 < 16
    · have e1 : c / 4096 = 0 := by omega
      have e2 : c / 256 % 16 = 0 := by omega
      have e3 : c / 16 % 16 = c / 16 := by omega
      simp [h1, h2, hex4, e1, e2, e3, sliceFrom, relIndex, digitChar]
    · rw [natToString_eq 16 (by omega)]
      by_cases h3 : c / 16 / 16 < 16
      · have e1 : c / 4096 = 0 := by omega
        have e2 : c / 256 % 16 = c / 16 / 16 := by omega
        simp [h1, h2, h3, hex4, e1, e2, sliceFrom, relIndex, digitChar]
      · rw [natToString_eq 16 (by omega)]
        have h4 : c / 16 / 16 / 16 < 16 := by omega
        have e1 : c / 4096 = c / 16 / 16 / 16 := by omega
        have e2 : c / 256 % 16 = c / 16 / 16 % 16 := by omega
        simp [h1, h2, h3, h4, hex4, e1, e2, sliceFrom, relIndex]

theorem hexDigits_map_digitChar (ds : List Nat) (h : ∀ d ∈ ds, d < 16) :
    hexDigits (ds.map digitChar) = ds := by
  induction ds with
  | nil => rfl
  | cons d r ih =>
    have hd := (digitChar_facts d (h d (by simp))).1
    simp only [List.map_cons, hexDigits, hd]
    rw [ih (fun x hx => h x (by simp [hx]))]

theorem parseInt16_digits (d : Nat) (r : List Nat) (h : ∀ x ∈ d :: r, x < 16) :
    parseInt16 ((d :: r).map digitChar) =
      some (((d :: r).foldl (fun a x => 16 * a + x) 0 : Nat) : Int) := by
  obtain ⟨_, hw, _, h45, h43, h120, h88⟩ := digitChar_facts d (h d (by simp))
  have hs : strip0x (digitChar d :: r.map digitChar) = digitChar d :: r.map digitChar := by
    cases r with
    | nil => rfl
    | cons e r' =>
      obtain ⟨_, _, _, _, _, g120, g88⟩ := digitChar_facts e (h e (by simp))
      simp [strip0x, g120, g88]
  have hd := hexDigits_map_digitChar (d :: r) h
  simp only [List.map_cons] at hd
  have hsign : stripSign (digitChar d :: r.map digitChar) = (1, digitChar d :: r.map digitChar) := by
    simp [stripSign, h45, h43]
  have hdrop : (digitChar d :: r.map digitChar).dropWhile isStrWhiteSpaceChar =
      digitChar d :: r.map digitChar := by
    simp [List.dropWhile_cons, hw]
  simp only [parseInt16, List.map_cons, hdrop, hsign, hs, hd]
  simp

theorem parseInt16_hex2 (x : Nat) (h : x < 256) : parseInt16 (hex2 x) = some (x : Int) := by
  have := parseInt16_digits (x / 16) [x % 16] (by
    intro y hy
    simp only [List.mem_cons, List.mem_singleton, List.not_mem_nil, or_false] at hy
    rcases hy with rfl | rfl <;> omega)
  simp only [List.map_cons, List.map_nil, List.foldl_cons, List.foldl_nil] at this
  rw [hex2, this]
  congr 2
  omega

theorem parseInt16_hex4 (c : Nat) (h : c < 65536) : parseInt16 (hex4 c) = some (c : Int) := by
  have := parseInt16_digits (c / 4096) [c / 256 % 16, c / 16 % 16, c % 16] (by
    intro y hy
    simp only [List.mem_cons, List.mem_singleton, List.not_mem_nil, or_false] at hy
    rcases hy with rfl | rfl | rfl | rfl <;> omega)
  simp only [List.map_cons, List.map_nil, List.foldl_cons, List.foldl_nil] at this
  rw [hex4, this]
  congr 2
  omega

theorem replace0x_of_not_mem (s : JSString) (h : 120 ∉ s) : replace0x s = s := by
  induction s with
  | nil => rfl
  | cons a r ih =>
    cases r with
    | nil => rfl
    | cons b r' =>
      have hb : b ≠ 120 := by
        intro hb; apply h; simp [hb]
      have hr : 120 ∉ b :: r' := by
        intro hm; apply h; simp only [List.mem_cons] at hm ⊢; right; exact hm
      simp only [replace0x, hb, and_false, if_false]
      rw [ih hr]

theorem matchDotAux_hex4 (c : Nat) (h : c < 65536) (rest : JSString) :
    matchDotAux 4 (hex4 c ++ rest) [] = hex4 c :: matchDotAux 4 rest [] := by
  have f : ∀ d, d < 16 → isLineTerminator (digitChar d) = false :=
    fun d hd => (digitChar_facts d hd).2.2.1
  have h1 := f (c / 4096) (by omega)
  have h2 := f (c / 256 % 16) (by omega)
  have h3 := f (c / 16 % 16) (by omega)
  have h4 := f (c % 16) (by omega)
  simp [hex4, matchDotAux, h1, h2, h3, h4]

theorem matchDotAux_hex2 (x : Nat) (h : x < 256) (rest : JSString) :
    matchDotAux 2 (hex2 x ++ rest) [] = hex2 x :: matchDotAux 2 rest [] := by
  have f : ∀ d, d < 16 → isLineTerminator (digitChar d) = false :=
    fun d hd => (digitChar_facts d hd).2.2.1
  have h1 := f (x / 16) (by omega)
  have h2 := f (x % 16) (by omega)
  simp [hex2, matchDotAux, h1, h2]

theorem matchDotAux_flatMap_hex4 (s : JSString) (h : IsString s) :
    matchDotAux 4 (s.flatMap hex4) [] = s.map hex4 := by
  induction s with
  | nil => simp [matchDotAux]
  | cons c r ih =>
    have hc : c < 65536 := h c (by simp)
    have hr : IsString r := fun x hx => h x (by simp [hx])
    simp only [List.flatMap_cons, List.map_cons]
    rw [matchDotAux_hex4 c hc, ih hr]

theorem matchDotAux_flatMap_hex2 (b : Bytes) (h : IsBytes b) :
    matchDotAux 2 (b.flatMap hex2) [] = b.map hex2 := by
  induction b with
  | nil => simp [matchDotAux]
  | cons c r ih =>
    have hc : c < 256 := h c (by simp)
    have hr : IsBytes r := fun x hx => h x (by simp [hx])
    simp only [List.flatMap_cons, List.map_cons]
    rw [matchDotAux_hex2 c hc, ih hr]

theorem not_mem_flatMap_hex4 (s : JSString) (h : IsString s) : 120 ∉ s.flatMap hex4 := by
  intro hm
  simp only [List.mem_flatMap] at hm
  obtain ⟨c, hc, hx⟩ := hm
  have hc' : c < 65536 := h c hc
  have f : ∀ d, d < 16 → digitChar d ≠ 120 := fun d hd => (digitChar_facts d hd).2.2.2.2.2.1
  simp only [hex4, List.mem_cons, List.mem_singleton, List.not_mem_nil, or_false] at hx
  rcases hx with e | e | e | e
  · exact f _ (by omega) e.symm
  · exact f _ (by omega) e.symm
  · exact f _ (by omega) e.symm
  · exact f _ (by omega) e.symm

theorem not_mem_flatMap_hex2 (b : Bytes) (h : IsBytes b) : 120 ∉ b.flatMap hex2 := by
  intro hm
  simp only [List.mem_flatMap] at hm
  obtain ⟨c, hc, hx⟩ := hm
  have hc' : c < 256 := h c hc
  have f : ∀ d, d < 16 → digitChar d ≠ 120 := fun d hd => (digitChar_facts d hd).2.2.2.2.2.1
  simp only [hex2, List.mem_cons, List.mem_singleton, List.not_mem_nil, or_false] at hx
  rcases hx with e | e
  · exact f _ (by omega) e.symm
  · exact f _ (by omega) e.symm
/-! ## The hexadecimal helpers of the codec -/

theorem foldl_append_eq_flatMap {α β : Type} (f g : α → List β) (s : List α)
    (h : ∀ c ∈ s, f c = g c) (acc : List β) :
    s.foldl (fun result c => result ++ f c) acc = acc ++ s.flatMap g := by
  induction s generalizing acc with
  | nil => simp
  | cons c r ih =>
    simp only [List.foldl_cons, List.flatMap_cons]
    rw [ih (fun x hx => h x (by simp [hx])), h c (by simp), List.append_assoc]

theorem unicodeStrToHex_eq (s : JSString) (h : IsString s) :
    unicodeStrToHex s = s.flatMap hex4 := by
  unfold unicodeStrToHex
  rw [foldl_append_eq_flatMap _ hex4 s (fun c hc => natToString16_unit c (h c hc))]
  simp

theorem matchDot_flatMap_hex4 (s : JSString) (h : IsString s) :
    (matchDot 4 (s.flatMap hex4)).getD [] = s.map hex4 := by
  unfold matchDot
  rw [matchDotAux_flatMap_hex4 s h]
  cases s <;> simp

theorem unicodeHexToStr_flatMap_hex4 (s : JSString) (h : IsString s) :
    unicodeHexToStr (s.flatMap hex4) = s := by
  unfold unicodeHexToStr
  rw [replace0x_of_not_mem _ (not_mem_flatMap_hex4 s h), matchDot_flatMap_hex4 s h]
  simp only []
  have key : ∀ (t : JSString), IsString t → ∀ acc : JSString,
      (t.map hex4).foldl (fun result x => result ++ [fromCharCode (parseInt16 x)]) acc
        = acc ++ t := by
    intro t
    induction t with
    | nil => intro _ acc; simp
    | cons c r ih =>
      intro ht acc
      have hc : c < 65536 := ht c (by simp)
      simp only [List.map_cons, List.foldl_cons]
      rw [ih (fun x hx => ht x (by simp [hx])), parseInt16_hex4 c hc]
      have : fromCharCode (some (c : Int)) = c := by
        simp only [fromCharCode]; omega
      rw [this]; simp
  simpa using key s h []

theorem buf2hex_eq (b : Bytes) (h : IsBytes b) : _buf2hex b false = b.flatMap hex2 := by
  unfold _buf2hex
  have hl : lit "" = [] := rfl
  simp only [hl, List.nil_append, Bool.false_eq_true, if_false]
  induction b with
  | nil => rfl
  | cons x r ih =>
    simp only [List.map_cons, List.flatten_cons, List.flatMap_cons]
    rw [natToString16_byte x (h x (by simp)), ih (fun y hy => h y (by simp [hy]))]

theorem hexToBuf_flatMap_hex2 (b : Bytes) (h : IsBytes b) (hne : b ≠ []) :
    _hexToBuf (b.flatMap hex2) = .ok b := by
  unfold _hexToBuf matchDot
  rw [replace0x_of_not_mem _ (not_mem_flatMap_hex2 b h), matchDotAux_flatMap_hex2 b h]
  cases b with
  | nil => exact absurd rfl hne
  | cons x r =>
    simp only [List.map_cons, Except.ok.injEq]
    have key : ∀ t : Bytes, IsBytes t →
        (t.map hex2).map (fun byte => toUint8 (parseInt16 byte)) = t := by
      intro t
      induction t with
      | nil => intro _; rfl
      | cons y r' ih =>
        intro ht
        have hy : y < 256 := ht y (by simp)
        simp only [List.map_cons]
        rw [ih (fun z hz => ht z (by simp [hz])), parseInt16_hex2 y hy]
        have : toUint8 (some (y : Int)) = y := by
          simp only [toUint8]; omega
        rw [this]
    have := key (x :: r) h
    simpa using this

theorem hex4_eq_hex2 (c : Nat) : hex4 c = hex2 (c / 256) ++ hex2 (c % 256) := by
  have e1 : c / 256 / 16 = c / 4096 := by omega
  have e2 : c / 256 % 16 = c / 256 % 16 := rfl
  have e3 : c % 256 / 16 = c / 16 % 16 := by omega
  have e4 : c % 256 % 16 = c % 16 := by omega
  simp [hex4, hex2, e1, e3, e4]

theorem flatMap_hex4_eq (s : JSString) : s.flatMap hex4 = (s.flatMap bytes2).flatMap hex2 := by
  induction s with
  | nil => rfl
  | cons c r ih =>
    simp only [List.flatMap_cons, List.flatMap_append, ih, hex4_eq_hex2, bytes2]
    simp

theorem isBytes_flatMap_bytes2 (s : JSString) (h : IsString s) : IsBytes (s.flatMap bytes2) := by
  intro x hx
  simp only [List.mem_flatMap] at hx
  obtain ⟨c, hc, hx⟩ := hx
  have := h c hc
  simp only [bytes2, List.mem_cons, List.mem_singleton, List.not_mem_nil, or_false] at hx
  rcases hx with rfl | rfl <;> omega

theorem hexToBuf_flatMap_hex4 (s : JSString) (h : IsString s) (hne : s ≠ []) :
    _hexToBuf (s.flatMap hex4) = .ok (s.flatMap bytes2) := by
  rw [flatMap_hex4_eq]
  apply hexToBuf_flatMap_hex2 _ (isBytes_flatMap_bytes2 s h)
  cases s with
  | nil => exact absurd rfl hne
  | cons c r => simp [bytes2]
/-! ## Encoding -/

theorem typeStr_values :
    sliceFrom (lit "00" ++ natToString 16 (0 + SIG_DATA_TYPE_STRING)) (-2) = lit "00" ∧
    sliceFrom (lit "00" ++ natToString 16 (SIG_DATA_ENCRYPTED_FLAG + SIG_DATA_TYPE_STRING)) (-2)
      = lit "80" := by decide

theorem encodeData_string_plain {κ : Type} (aesEncrypt : κ → Bytes → Bytes → Bytes)
    (iv : Bytes) (key : κ) (v : Option JSString) (s : JSString)
    (hs : IsString s) (hne : s ≠ []) :
    _encodeData aesEncrypt iv ⟨v, some false, some (lit "string"), some s⟩ key =
      .ok (lit "0x" ++ lit "00" ++ lit "00" ++ s.flatMap hex4) := by
  unfold _encodeData
  have h1 : ¬ ((some s : Option JSString) = none ∨ (some s : Option JSString) = some []) := by
    simp [hne]
  have h2 : ¬ ((some false : Option Bool) = some true) := by simp
  simp only [h1, h2, if_false, if_true, typeStr_values.1, Option.getD_some,
    unicodeStrToHex_eq s hs, SIG_DATA_VERSION]

theorem encodeData_string_encrypted {κ : Type} (aesEncrypt : κ → Bytes → Bytes → Bytes)
    (iv : Bytes) (key : κ) (v : Option JSString) (s : JSString)
    (hs : IsString s) (hne : s ≠ []) :
    _encodeData aesEncrypt iv ⟨v, some true, some (lit "string"), some s⟩ key =
      .ok (lit "0x" ++ lit "00" ++ lit "80" ++
        _buf2hex (iv ++ aesEncrypt key iv (s.flatMap bytes2)) false) := by
  unfold _encodeData
  have h1 : ¬ ((some s : Option JSString) = none ∨ (some s : Option JSString) = some []) := by
    simp [hne]
  simp only [h1, if_false, if_true, typeStr_values.2, Option.getD_some,
    unicodeStrToHex_eq s hs, SIG_DATA_VERSION, _encrypt, hexToBuf_flatMap_hex4 s hs hne,
    _concatBuffers]
/-! ## Decoding -/

theorem relIndex_of_le (len k : Nat) (h : k ≤ len) : relIndex len (k : Int) = k := by
  have hk : ¬ ((k : Int) < 0) := by omega
  simp only [relIndex, hk, if_false, Int.toNat_ofNat]
  omega

theorem slice_header {α : Type} (a b c d e f : α) (rest : List α) :
    slice (a :: b :: c :: d :: e :: f :: rest) 2 4 = [c, d] ∧
    slice (a :: b :: c :: d :: e :: f :: rest) 4 6 = [e, f] ∧
    sliceFrom (a :: b :: c :: d :: e :: f :: rest) 6 = rest := by
  have h2 : relIndex (rest.length + 6) 2 = 2 := relIndex_of_le _ 2 (by omega)
  have h4 : relIndex (rest.length + 6) 4 = 4 := relIndex_of_le _ 4 (by omega)
  have h6 : relIndex (rest.length + 6) 6 = 6 := relIndex_of_le _ 6 (by omega)
  simp [slice, sliceFrom, h2, h4, h6]

/-- The body of `_decodeData` on a string of at least six characters. -/
theorem decodeData_cons {κ : Type} (aesDecrypt : κ → Bytes → Bytes → Option Bytes) (key : κ)
    (a b c d e f : Nat) (rest : JSString) :
    _decodeData aesDecrypt (some (a :: b :: c :: d :: e :: f :: rest)) key =
      (let typeField := parseInt16 [e, f]
       let encrypted : Bool := bitAnd typeField (some SIG_DATA_ENCRYPTED_FLAG) ≠ 0
       let type := bitAnd typeField (some (bitNot (some SIG_DATA_ENCRYPTED_FLAG)))
       let sigData :=
        if encrypted ∧ rest.length > 0 then
          match _decrypt aesDecrypt rest key with
          | .ok x => x
          | .error _ => lit ""
        else rest
       if type = SIG_DATA_TYPE_STRING then
        .ok ⟨some [c, d], some encrypted, some (lit "string"), some (unicodeHexToStr sigData)⟩
       else if type = SIG_DATA_TYPE_BYTES then
        .ok ⟨some [c, d], some encrypted, some (lit "hex"), some (lit "0x" ++ sigData)⟩
       else
        .ok ⟨some [c, d], some encrypted, some (lit "invalid"),
          some (lit "unrecognised type: " ++ intToString type ++ lit " (version=" ++ [c, d] ++
            lit ")")⟩) := by
  obtain ⟨h1, h2, h3⟩ := slice_header a b c d e f rest
  have hlen : ¬ ((a :: b :: c :: d :: e :: f :: rest).length < 6) := by simp
  simp only [_decodeData, hlen, if_false, h1, h2, h3]

theorem decodeData_string_plain {κ : Type} (aesDecrypt : κ → Bytes → Bytes → Option Bytes)
    (key : κ) (content : JSString) :
    _decodeData aesDecrypt (some (lit "0x" ++ lit "00" ++ lit "00" ++ content)) key =
      .ok ⟨some (lit "00"), some false, some (lit "string"), some (unicodeHexToStr content)⟩ := by
  have h : lit "0x" ++ lit "00" ++ lit "00" ++ content = 48 :: 120 :: 48 :: 48 :: 48 :: 48 :: content :=
    rfl
  rw [h, decodeData_cons]
  have hp : parseInt16 [48, 48] = some 0 := by decide
  have he : (decide (bitAnd (some 0) (some SIG_DATA_ENCRYPTED_FLAG) ≠ 0)) = false := by decide
  have ht : bitAnd (some 0) (some (bitNot (some SIG_DATA_ENCRYPTED_FLAG))) = SIG_DATA_TYPE_STRING := by
    decide
  simp only [hp, he, ht, if_true, Bool.false_eq_true, false_and, if_false]
  rfl

theorem slice_iv (iv ct : Bytes) (h : iv.length = 12) :
    slice (iv ++ ct) 0 12 = iv ∧ sliceFrom (iv ++ ct) 12 = ct := by
  have h0 : relIndex (iv ++ ct).length 0 = 0 := relIndex_of_le _ 0 (by omega)
  have h12 : relIndex (iv ++ ct).length 12 = 12 :=
    relIndex_of_le _ 12 (by simp only [List.length_append, h]; omega)
  simp only [slice, sliceFrom, h0, h12, List.drop_zero, Nat.sub_zero]
  constructor
  · rw [← h, List.take_left']; rfl
  · rw [← h, List.drop_left']; rfl

theorem decrypt_encrypted {κ : Type} (aesDecrypt : κ → Bytes → Bytes → Option Bytes) (key : κ)
    (iv ct pt : Bytes) (hiv : IsBytes iv) (hlen : iv.length = 12) (hct : IsBytes ct)
    (hpt : IsBytes pt) (hdec : aesDecrypt key iv ct = some pt) :
    _decrypt aesDecrypt (_buf2hex (iv ++ ct) false) key = .ok (pt.flatMap hex2) := by
  have hb : IsBytes (iv ++ ct) := by
    intro x hx
    rcases List.mem_append.mp hx with h | h
    · exact hiv x h
    · exact hct x h
  have hne : iv ++ ct ≠ [] := by
    intro h0
    have := congrArg List.length h0
    simp only [List.length_append, hlen, List.length_nil] at this
    omega
  obtain ⟨s1, s2⟩ := slice_iv iv ct hlen
  simp only [_decrypt, buf2hex_eq _ hb, hexToBuf_flatMap_hex2 _ hb hne, s1, s2, hdec,
    buf2hex_eq _ hpt]
/-! ## Round trip and wire format of string payloads -/

/-- C2: string round trip. For every non-empty string `s`, every key and both values of
the encrypted flag `e`, decoding the encoding of `{type: 'string', content: s, encrypted: e}`
yields type `string`, content `s`, encrypted `e` and version `00`; for `e = true` under
the assumption that the IV is 12 bytes, the ciphertext is a byte buffer and AES-GCM
decryption with the same key and IV inverts encryption. -/
theorem C2_string_round_trip {κ : Type} (aesEncrypt : κ → Bytes → Bytes → Bytes)
    (aesDecrypt : κ → Bytes → Bytes → Option Bytes) (iv : Bytes) (key : κ)
    (v : Option JSString) (s : JSString) (e : Bool) (hs : IsString s) (hne : s ≠ [])
    (hcrypto : e = true → IsBytes iv ∧ iv.length = 12 ∧
      IsBytes (aesEncrypt key iv (s.flatMap bytes2)) ∧
      aesDecrypt key iv (aesEncrypt key iv (s.flatMap bytes2)) = some (s.flatMap bytes2)) :
    ∃ enc : JSString,
      _encodeData aesEncrypt iv ⟨v, some e, some (lit "string"), some s⟩ key = .ok enc ∧
      _decodeData aesDecrypt (some enc) key =
        .ok ⟨some (lit "00"), some e, some (lit "string"), some s⟩ := by
  cases e with
  | false =>
    refine ⟨_, encodeData_string_plain aesEncrypt iv key v s hs hne, ?_⟩
    rw [decodeData_string_plain, unicodeHexToStr_flatMap_hex4 s hs]
  | true =>
    obtain ⟨hiv, hlen, hct, hdec⟩ := hcrypto rfl
    refine ⟨_, encodeData_string_encrypted aesEncrypt iv key v s hs hne, ?_⟩
    have h : ∀ x : JSString, lit "0x" ++ lit "00" ++ lit "80" ++ x =
        48 :: 120 :: 48 :: 48 :: 56 :: 48 :: x := fun _ => rfl
    rw [h, decodeData_cons]
    have hp : parseInt16 [56, 48] = some 128 := by decide
    have he : (decide (bitAnd (some 128) (some SIG_DATA_ENCRYPTED_FLAG) ≠ 0)) = true := by decide
    have ht : bitAnd (some 128) (some (bitNot (some SIG_DATA_ENCRYPTED_FLAG))) =
        SIG_DATA_TYPE_STRING := by decide
    have hpos : (_buf2hex (iv ++ aesEncrypt key iv (s.flatMap bytes2)) false).length > 0 := by
      have hb : IsBytes (iv ++ aesEncrypt key iv (s.flatMap bytes2)) := by
        intro x hx
        rcases List.mem_append.mp hx with h | h
        · exact hiv x h
        · exact hct x h
      rw [buf2hex_eq _ hb]
      cases iv with
      | nil => simp at hlen
      | cons i r => simp [hex2]
    have hd := decrypt_encrypted aesDecrypt key iv _ _ hiv hlen hct
      (isBytes_flatMap_bytes2 s hs) hdec
    simp only [hp, he, ht, if_true, hpos, and_self, hd, ← flatMap_hex4_eq,
      unicodeHexToStr_flatMap_hex4 s hs]
    rfl

theorem C2_string_round_trip_witness :
    IsString (lit "hello") ∧ lit "hello" ≠ [] ∧
    ∃ enc : JSString,
      _encodeData sampleEncrypt sampleIV ⟨none, some true, some (lit "string"),
        some (lit "hello")⟩ 7 = .ok enc ∧
      _decodeData sampleDecrypt (some enc) 7 =
        .ok ⟨some (lit "00"), some true, some (lit "string"), some (lit "hello")⟩ :=
  ⟨by decide, by decide,
    C2_string_round_trip sampleEncrypt sampleDecrypt sampleIV 7 none (lit "hello") true
      (by decide) (by decide) (fun _ => by decide)⟩
/-- C9: wire format of string payloads. For every non-empty string `s`, the unencrypted
encoding is `0x`, `00`, `00` followed by the four zero-padded lowercase hexadecimal digits
of each code unit in order, of total length `6 + 4 * |s|`; the encrypted encoding is `0x`,
`00`, `80` followed by the hex of the 12-byte IV (24 digits) and the hex of the
ciphertext of the content bytes under that IV. -/
theorem C9_string_wire_format {κ : Type} (aesEncrypt : κ → Bytes → Bytes → Bytes)
    (iv : Bytes) (key : κ) (v : Option JSString) (s : JSString)
    (hs : IsString s) (hne : s ≠ []) :
    _encodeData aesEncrypt iv ⟨v, some false, some (lit "string"), some s⟩ key =
      .ok (lit "0x" ++ lit "00" ++ lit "00" ++ s.flatMap hex4) ∧
    (lit "0x" ++ lit "00" ++ lit "00" ++ s.flatMap hex4).length = 6 + 4 * s.length ∧
    (IsBytes iv → iv.length = 12 → IsBytes (aesEncrypt key iv (s.flatMap bytes2)) →
      _encodeData aesEncrypt iv ⟨v, some true, some (lit "string"), some s⟩ key =
        .ok (lit "0x" ++ lit "00" ++ lit "80" ++ iv.flatMap hex2 ++
          (aesEncrypt key iv (s.flatMap bytes2)).flatMap hex2) ∧
      (iv.flatMap hex2).length = 24) := by
  have hlen4 : ∀ t : JSString, (t.flatMap hex4).length = 4 * t.length := by
    intro t
    induction t with
    | nil => rfl
    | cons c r ih => simp only [List.flatMap_cons, List.length_append, ih, hex4, List.length_cons,
        List.length_nil]; omega
  have hlen2 : ∀ t : Bytes, (t.flatMap hex2).length = 2 * t.length := by
    intro t
    induction t with
    | nil => rfl
    | cons c r ih => simp only [List.flatMap_cons, List.length_append, ih, hex2, List.length_cons,
        List.length_nil]; omega
  refine ⟨encodeData_string_plain aesEncrypt iv key v s hs hne, ?_, ?_⟩
  · have h : (lit "0x" ++ lit "00" ++ lit "00").length = 6 := by decide
    rw [List.length_append, h, hlen4]
  · intro hiv hlen hct
    have hb : IsBytes (iv ++ aesEncrypt key iv (s.flatMap bytes2)) := by
      intro x hx
      rcases List.mem_append.mp hx with h | h
      · exact hiv x h
      · exact hct x h
    rw [encodeData_string_encrypted aesEncrypt iv key v s hs hne, buf2hex_eq _ hb,
      List.flatMap_append, hlen2, hlen]
    simp

theorem C9_string_wire_format_witness :
    IsString (lit "hi") ∧ lit "hi" ≠ [] ∧
    _encodeData sampleEncrypt sampleIV ⟨none, some false, some (lit "string"),
      some (lit "hi")⟩ 7 = .ok (lit "0x" ++ lit "00" ++ lit "00" ++ (lit "hi").flatMap hex4) ∧
    (lit "0x" ++ lit "00" ++ lit "00" ++ (lit "hi").flatMap hex4).length = 6 + 4 * (lit "hi").length ∧
    _encodeData sampleEncrypt sampleIV ⟨none, some true, some (lit "string"),
      some (lit "hi")⟩ 7 = .ok (lit "0x" ++ lit "00" ++ lit "80" ++ sampleIV.flatMap hex2 ++
        (sampleEncrypt 7 sampleIV ((lit "hi").flatMap bytes2)).flatMap hex2) ∧
    (sampleIV.flatMap hex2).length = 24 :=
  have h := C9_string_wire_format sampleEncrypt sampleIV 7 none (lit "hi") (by decide) (by decide)
  ⟨by decide, by decide, h.1, h.2.1, h.2.2 (by decide) (by decide) (by decide)⟩

/-! ## Hex payloads, empty payloads, short payloads -/

/-- C3: evaluation of the code on the hex payload `0xdeadbeef`: for both values of the
encrypted flag `_encodeData` throws a `TypeError` (it calls `slice` on the payload object)
instead of returning `0x0001deadbeef`; decoding `0x0001deadbeef` does yield type `hex`
with content `0xdeadbeef`. -/
theorem C3_encode_hex_throws {κ : Type} (aesEncrypt : κ → Bytes → Bytes → Bytes)
    (aesDecrypt : κ → Bytes → Bytes → Option Bytes) (iv : Bytes) (key : κ) (e : Bool) :
    _encodeData aesEncrypt iv ⟨none, some e, some (lit "hex"), some (lit "0xdeadbeef")⟩ key =
      .error (.typeError (lit "data.slice is not a function")) ∧
    _decodeData aesDecrypt (some (lit "0x0001deadbeef")) key =
      .ok ⟨some (lit "00"), some false, some (lit "hex"), some (lit "0xdeadbeef")⟩ := by
  constructor
  · cases e <;> rfl
  · rfl

/-- C4, as stated, fails: the encoding of an empty payload is `0x`, and `_decodeData`
applied to `0x` returns type `invalid`, not type `none`. -/
theorem C4_counterexample :
    _encodeData sampleEncrypt sampleIV ⟨none, some false, some (lit "string"), some (lit "")⟩ 7 =
      .ok (lit "0x") ∧
    _decodeData sampleDecrypt (some (lit "0x")) 7 =
      .ok ⟨none, none, some (lit "invalid"), some (lit "data is < 6 bytes")⟩ ∧
    _decodeData sampleDecrypt (some (lit "0x")) 7 ≠ .ok ⟨none, none, some (lit "none"), none⟩ := by
  decide

/-- C4, amended: for every payload whose content is undefined or the empty string (any
type, any encrypted flag) `_encodeData` returns `0x`, with no version or type bytes;
`_decodeData` returns `{type: 'none'}` for `null`/`undefined` and for the empty string,
and `{type: 'invalid', content: 'data is < 6 bytes'}` for the string `0x`. -/
theorem C4_empty_payload {κ : Type} (aesEncrypt : κ → Bytes → Bytes → Bytes)
    (aesDecrypt : κ → Bytes → Bytes → Option Bytes) (iv : Bytes) (key : κ)
    (v : Option JSString) (e : Option Bool) (t : Option JSString) :
    _encodeData aesEncrypt iv ⟨v, e, t, none⟩ key = .ok (lit "0x") ∧
    _encodeData aesEncrypt iv ⟨v, e, t, some (lit "")⟩ key = .ok (lit "0x") ∧
    _decodeData aesDecrypt none key = .ok ⟨none, none, some (lit "none"), none⟩ ∧
    _decodeData aesDecrypt (some (lit "")) key = .ok ⟨none, none, some (lit "none"), none⟩ ∧
    _decodeData aesDecrypt (some (lit "0x")) key =
      .ok ⟨none, none, some (lit "invalid"), some (lit "data is < 6 bytes")⟩ := by
  refine ⟨?_, ?_, rfl, rfl, rfl⟩
  · simp [_encodeData]
  · have h : lit "" = [] := rfl
    simp [_encodeData, h]

/-- C7, as stated, fails: the 2-byte payload `0x0000` does not decode to type `invalid`
but to an empty string payload. -/
theorem C7_counterexample :
    _decodeData sampleDecrypt (some (lit "0x0000")) 7 =
      .ok ⟨some (lit "00"), some false, some (lit "string"), some (lit "")⟩ ∧
    _decodeData sampleDecrypt (some (lit "0x0000")) 7 ≠
      .ok ⟨none, none, some (lit "invalid"), some (lit "data is < 6 bytes")⟩ := by
  decide

/-- C7, amended: every non-empty encoded string of fewer than 6 characters (`0x` followed
by fewer than 4 hexadecimal digits, that is fewer than 2 bytes) decodes to type `invalid`
with content `data is < 6 bytes`. -/
theorem C7_short_payload_invalid {κ : Type} (aesDecrypt : κ → Bytes → Bytes → Option Bytes)
    (key : κ) (encData : JSString) (hne : encData ≠ []) (hlen : encData.length < 6) :
    _decodeData aesDecrypt (some encData) key =
      .ok ⟨none, none, some (lit "invalid"), some (lit "data is < 6 bytes")⟩ := by
  cases encData with
  | nil => exact absurd rfl hne
  | cons a r => simp only [_decodeData, hlen, if_true]

theorem C7_short_payload_invalid_witness :
    lit "0x00" ≠ [] ∧ (lit "0x00").length < 6 ∧
    _decodeData sampleDecrypt (some (lit "0x00")) 7 =
      .ok ⟨none, none, some (lit "invalid"), some (lit "data is < 6 bytes")⟩ :=
  ⟨by decide, by decide,
    C7_short_payload_invalid sampleDecrypt 7 (lit "0x00") (by decide) (by decide)⟩

/-- C5: decoding is total. For every input, `null`/`undefined` or a string of any length
and any characters, every key and every behaviour of the decryption primitive,
`_decodeData` returns a payload and does not throw. -/
theorem C5_decodeData_total {κ : Type} (aesDecrypt : κ → Bytes → Bytes → Option Bytes)
    (key : κ) (encData : Option JSString) :
    ∃ p : SigData, _decodeData aesDecrypt encData key = .ok p := by
  match encData with
  | none => exact ⟨_, rfl⟩
  | some [] => exact ⟨_, rfl⟩
  | some [_] => exact ⟨_, rfl⟩
  | some [_, _] => exact ⟨_, rfl⟩
  | some [_, _, _] => exact ⟨_, rfl⟩
  | some [_, _, _, _] => exact ⟨_, rfl⟩
  | some [_, _, _, _, _] => exact ⟨_, rfl⟩
  | some (a :: b :: c :: d :: e :: f :: rest) =>
    rw [decodeData_cons]
    simp only []
    split_ifs <;> exact ⟨_, rfl⟩
/-! ## Unrecognised types and failed decryption -/

theorem hexValue_bound (c d : Nat) (h : hexValue c = some d) : c < 103 ∧ d < 16 := by
  unfold hexValue at h
  split_ifs at h with h1 h2 h3 <;> simp only [Option.some.injEq] at h <;> omega

theorem hexValue_facts : ∀ c, c < 103 → (hexValue c).isSome = true →
    isStrWhiteSpaceChar c = false ∧ c ≠ 45 ∧ c ≠ 43 ∧ c ≠ 120 ∧ c ≠ 88 := by
  decide

theorem parseInt16_byte (t0 t1 d1 d2 : Nat) (h1 : hexValue t0 = some d1)
    (h2 : hexValue t1 = some d2) : parseInt16 [t0, t1] = some ((16 * d1 + d2 : Nat) : Int) := by
  obtain ⟨hw, h45, h43, _, _⟩ := hexValue_facts t0 (hexValue_bound t0 d1 h1).1 (by simp [h1])
  obtain ⟨_, _, _, g120, g88⟩ := hexValue_facts t1 (hexValue_bound t1 d2 h2).1 (by simp [h2])
  have hsign : stripSign [t0, t1] = (1, [t0, t1]) := by simp [stripSign, h45, h43]
  have hdrop : [t0, t1].dropWhile isStrWhiteSpaceChar = [t0, t1] := by
    simp [List.dropWhile_cons, hw]
  have hs : strip0x [t0, t1] = [t0, t1] := by simp [strip0x, g120, g88]
  have hd : hexDigits [t0, t1] = [d1, d2] := by simp [hexDigits, h1, h2]
  simp only [parseInt16, hdrop, hsign, hs, hd]
  simp

set_option maxRecDepth 100000 in
theorem bitAnd_byte : ∀ b : Nat, b < 256 →
    (decide (bitAnd (some ((b : Nat) : Int)) (some SIG_DATA_ENCRYPTED_FLAG) ≠ 0) =
      decide (128 ≤ b)) ∧
    bitAnd (some ((b : Nat) : Int)) (some (bitNot (some SIG_DATA_ENCRYPTED_FLAG))) =
      ((b % 128 : Nat) : Int) := by
  decide

/-- C6: for every encoded string of at least 6 characters whose type/flags byte (the
hexadecimal byte at characters 4 and 5) has low 7 bits different from 0 and 1,
`_decodeData` does not throw and returns type `invalid`, the diagnostic content
`unrecognised type: <type> (version=<version>)` and the encrypted field equal to bit 7 of
the byte. -/
theorem C6_unrecognised_type {κ : Type} (aesDecrypt : κ → Bytes → Bytes → Option Bytes)
    (key : κ) (p0 p1 v0 v1 t0 t1 : Nat) (rest : JSString) (d1 d2 : Nat)
    (h1 : hexValue t0 = some d1) (h2 : hexValue t1 = some d2)
    (hn0 : (16 * d1 + d2) % 128 ≠ 0) (hn1 : (16 * d1 + d2) % 128 ≠ 1) :
    _decodeData aesDecrypt (some (p0 :: p1 :: v0 :: v1 :: t0 :: t1 :: rest)) key =
      .ok ⟨some [v0, v1], some (decide (128 ≤ 16 * d1 + d2)), some (lit "invalid"),
        some (lit "unrecognised type: " ++ intToString (((16 * d1 + d2) % 128 : Nat) : Int) ++
          lit " (version=" ++ [v0, v1] ++ lit ")")⟩ := by
  have hb : 16 * d1 + d2 < 256 := by
    have := (hexValue_bound t0 d1 h1).2
    have := (hexValue_bound t1 d2 h2).2
    omega
  obtain ⟨he, ht⟩ := bitAnd_byte (16 * d1 + d2) hb
  rw [decodeData_cons, parseInt16_byte t0 t1 d1 d2 h1 h2]
  have hs : ¬ (((((16 * d1 + d2) % 128 : Nat) : Int)) = ((SIG_DATA_TYPE_STRING : Nat) : Int)) := by
    simp only [SIG_DATA_TYPE_STRING]; omega
  have hx : ¬ (((((16 * d1 + d2) % 128 : Nat) : Int)) = ((SIG_DATA_TYPE_BYTES : Nat) : Int)) := by
    simp only [SIG_DATA_TYPE_BYTES]; omega
  simp only [he, ht, hs, hx, if_false]

theorem C6_unrecognised_type_witness :
    hexValue 70 = some 15 ∧ hexValue 53 = some 5 ∧
    (16 * 15 + 5) % 128 ≠ 0 ∧ (16 * 15 + 5) % 128 ≠ 1 ∧
    _decodeData sampleDecrypt (some (lit "0x00F5zz")) 7 =
      .ok ⟨some (lit "00"), some true, some (lit "invalid"),
        some (lit "unrecognised type: 117 (version=00)")⟩ :=
  ⟨by decide, by decide, by decide, by decide,
    C6_unrecognised_type sampleDecrypt 7 48 120 48 48 70 53 (lit "zz") 15 5
      (by decide) (by decide) (by decide) (by decide)⟩

/-- C8: for every encoded payload whose encrypted flag is set, whose content type is
recognised and whose content is non-empty, if decryption fails then `_decodeData` does
not throw and returns encrypted `true`, the declared type and empty content: the empty
string for type `string`, `0x` for type `hex`. -/
theorem C8_decrypt_failure {κ : Type} (aesDecrypt : κ → Bytes → Bytes → Option Bytes)
    (key : κ) (p0 p1 v0 v1 t0 t1 : Nat) (rest : JSString) (err : JSError)
    (henc : bitAnd (parseInt16 [t0, t1]) (some SIG_DATA_ENCRYPTED_FLAG) ≠ 0)
    (htype : bitAnd (parseInt16 [t0, t1]) (some (bitNot (some SIG_DATA_ENCRYPTED_FLAG))) =
        SIG_DATA_TYPE_STRING ∨
      bitAnd (parseInt16 [t0, t1]) (some (bitNot (some SIG_DATA_ENCRYPTED_FLAG))) =
        SIG_DATA_TYPE_BYTES)
    (hne : rest ≠ []) (hfail : _decrypt aesDecrypt rest key = .error err) :
    _decodeData aesDecrypt (some (p0 :: p1 :: v0 :: v1 :: t0 :: t1 :: rest)) key =
      .ok ⟨some [v0, v1], some true,
        some (if bitAnd (parseInt16 [t0, t1]) (some (bitNot (some SIG_DATA_ENCRYPTED_FLAG))) =
          SIG_DATA_TYPE_STRING then lit "string" else lit "hex"),
        some (if bitAnd (parseInt16 [t0, t1]) (some (bitNot (some SIG_DATA_ENCRYPTED_FLAG))) =
          SIG_DATA_TYPE_STRING then lit "" else lit "0x")⟩ := by
  rw [decodeData_cons]
  have hpos : rest.length > 0 := List.length_pos.mpr hne
  have he : decide (bitAnd (parseInt16 [t0, t1]) (some SIG_DATA_ENCRYPTED_FLAG) ≠ 0) = true := by
    simp [henc]
  simp only [he, hpos, and_self, if_true, hfail]
  have hu : unicodeHexToStr (lit "") = lit "" := rfl
  rcases htype with h | h
  · simp only [h, if_true, hu]
  · have h01 : ¬ (((SIG_DATA_TYPE_BYTES : Nat) : Int) = ((SIG_DATA_TYPE_STRING : Nat) : Int)) := by
      decide
    simp only [h, h01, if_false, if_true]
    rfl

theorem C8_decrypt_failure_witness :
    bitAnd (parseInt16 [56, 48]) (some SIG_DATA_ENCRYPTED_FLAG) ≠ 0 ∧
    _buf2hex (sampleIV ++ sampleEncrypt 7 sampleIV [0, 104, 0, 105]) false ≠ [] ∧
    _decrypt sampleDecrypt (_buf2hex (sampleIV ++ sampleEncrypt 7 sampleIV [0, 104, 0, 105]) false)
      8 = .error .operationError ∧
    _decodeData sampleDecrypt
      (some (lit "0x0080" ++ _buf2hex (sampleIV ++ sampleEncrypt 7 sampleIV [0, 104, 0, 105]) false))
      8 = .ok ⟨some (lit "00"), some true, some (lit "string"), some (lit "")⟩ :=
  ⟨by decide, by decide, by decide,
    C8_decrypt_failure sampleDecrypt 8 48 120 48 48 56 48
      (_buf2hex (sampleIV ++ sampleEncrypt 7 sampleIV [0, 104, 0, 105]) false) .operationError
      (by decide) (Or.inl (by decide)) (by decide) (by decide)⟩
/-! ## Discovery -/

theorem next_chainList (hash : Bytes → Bytes) (seed : Bytes) (len q n : Nat) :
    HashIterator.next hash ⟨seed, chainList hash seed len, (q : Int) - 1⟩ (n : Int) =
      .ok ((List.range' q n).map (chain hash seed),
        ⟨seed, chainList hash seed (max (max len 1) (q + n)), (q : Int) - 1 + n⟩) := by
  obtain ⟨l, hl, hl'⟩ : ∃ l : Nat,
      (if len = 0 then chainList hash seed len ++ [hash seed]
        else chainList hash seed len) = chainList hash seed (l + 1) ∧ l + 1 = max len 1 := by
    by_cases h0 : len = 0
    · refine ⟨0, ?_, by omega⟩
      subst h0
      simp [chainList, chain, List.range_succ]
    · refine ⟨len - 1, ?_, by omega⟩
      have : len - 1 + 1 = len := by omega
      simp only [h0, if_false, this]
  have hq' : (q : Int) - 1 + (n : Int) + 1 = ((q + n : Nat) : Int) := by push_cast; omega
  have hq : (q : Int) - 1 + 1 = (q : Int) := by omega
  unfold HashIterator.next
  simp only [chainList_length]
  simp only [hl, chainList_length, nextLoop_chainList, hq, hq']
  have hlen : l + 1 + (((q + n : Nat) : Int) - ((l + 1 : Nat) : Int)).toNat =
      max (max len 1) (q + n) := by omega
  rw [hlen, slice_chainList hash seed _ q n (by omega)]

theorem decodeSignatureEvent_ok {κ : Type} (aesDecrypt : κ → Bytes → Bytes → Option Bytes)
    (key : κ) (ev : LogEvent) :
    ∃ d : SigData, _decodeSignatureEvent aesDecrypt ev key =
      .ok ⟨ev.time, ev.signer, ev.signature, d⟩ := by
  have h : ∃ p : SigData, _decodeData aesDecrypt ev.data key = .ok p := by
    match ev.data with
    | none => exact ⟨_, rfl⟩
    | some [] => exact ⟨_, rfl⟩
    | some [_] => exact ⟨_, rfl⟩
    | some [_, _] => exact ⟨_, rfl⟩
    | some [_, _, _] => exact ⟨_, rfl⟩
    | some [_, _, _, _] => exact ⟨_, rfl⟩
    | some [_, _, _, _, _] => exact ⟨_, rfl⟩
    | some (a :: b :: c :: d :: e :: f :: rest) =>
      rw [decodeData_cons]
      simp only []
      split_ifs <;> exact ⟨_, rfl⟩
  obtain ⟨p, hp⟩ := h
  exact ⟨p, by simp only [_decodeSignatureEvent, hp]⟩

theorem promiseAll_decode {κ : Type} (aesDecrypt : κ → Bytes → Bytes → Option Bytes)
    (key : κ) (events : List LogEvent) :
    ∃ parsed : List SignatureEvent,
      promiseAll (events.map (fun e => _decodeSignatureEvent aesDecrypt e key)) = .ok parsed ∧
      parsed.map (fun e => e.signature) = events.map (fun e => e.signature) := by
  induction events with
  | nil => exact ⟨[], rfl, rfl⟩
  | cons ev r ih =>
    obtain ⟨parsed, h1, h2⟩ := ih
    obtain ⟨d, hd⟩ := decodeSignatureEvent_ok aesDecrypt key ev
    refine ⟨⟨ev.time, ev.signer, ev.signature, d⟩ :: parsed, ?_, ?_⟩
    · simp only [List.map_cons, hd, promiseAll, h1]
    · simp only [List.map_cons, h2]

theorem indexOf_map_range' (f : Nat → JSString) (k : Nat) :
    ∀ a i : Nat, a ≤ i → i < a + k →
      (∀ j, a ≤ j → j < a + k → f j = f i → j = i) →
      ((List.range' a k).map f).indexOf (f i) = i - a := by
  induction k with
  | zero => intro a i h1 h2; omega
  | succ k ih =>
    intro a i h1 h2 hinj
    rw [List.range'_succ, List.map_cons]
    by_cases hai : a = i
    · subst hai
      rw [List.indexOf_cons]
      simp
    · have hne : f a ≠ f i := fun h => hai (hinj a (le_refl _) (by omega) h)
      have hb : (f a == f i) = false := by simpa using hne
      rw [List.indexOf_cons, hb, ih (a + 1) i (by omega) (by omega)
        (fun j hj1 hj2 => hinj j (by omega) (by omega))]
      simp only [cond_false]
      omega

theorem indexOf_chainList (hash : Bytes → Bytes) (seed : Bytes) (len i : Nat) (p : Int)
    (hi : i < len)
    (hinj : ∀ j, j < len → _buf2hex (chain hash seed j) true = _buf2hex (chain hash seed i) true →
      j = i) :
    HashIterator.indexOf ⟨seed, chainList hash seed len, p⟩
      (_buf2hex (chain hash seed i) true) = (i : Int) := by
  have hmap : (chainList hash seed len).map (fun h => _buf2hex h true) =
      (List.range' 0 len).map (fun j => _buf2hex (chain hash seed j) true) := by
    simp [chainList, List.range_eq_range']
  have hmem : _buf2hex (chain hash seed i) true ∈
      (List.range' 0 len).map (fun j => _buf2hex (chain hash seed j) true) :=
    List.mem_map.mpr ⟨i, by simp [List.mem_range'_1]; omega, rfl⟩
  have hidx := indexOf_map_range' (fun j => _buf2hex (chain hash seed j) true) len 0 i
    (by omega) (by omega) (fun j _ hj2 h => hinj j (by omega) h)
  simp only [HashIterator.indexOf, hmap, hmem, if_true]
  rw [hidx]; simp
theorem filter_batch_perm {α β : Type} [DecidableEq β] (sig : α → β) (f : Nat → β)
    (ledger : List α) (m N a : Nat) (p : α → Bool) (q : Nat → α → Bool)
    (hp : ∀ e, p e = true ↔ sig e ∈ (List.range' a 10).map f)
    (hq : ∀ i e, q i e = true ↔ sig e = f i)
    (hinj : ∀ i j, i < N → j < N → f i = f j → i = j)
    (hcount : ∀ i, i < N → ledger.countP (q i) = if i < m then 1 else 0)
    (ha : a + 10 ≤ N) :
    ((ledger.filter p).map sig).Perm ((List.range' a (min 10 (m - a))).map f) := by
  rw [List.perm_iff_count]
  intro x
  have hnodup : ((List.range' a (min 10 (m - a))).map f).Nodup := by
    apply List.Nodup.map_on _ (List.nodup_range' a _)
    intro i hi j hj hij
    rw [List.mem_range'_1] at hi hj
    exact hinj i j (by omega) (by omega) hij
  rw [List.count_eq_of_nodup hnodup, List.count_eq_countP, List.countP_map, List.countP_filter]
  by_cases hx : x ∈ (List.range' a 10).map f
  · obtain ⟨i, hi, rfl⟩ := List.mem_map.mp hx
    rw [List.mem_range'_1] at hi
    have hcongr : ledger.countP (fun e => ((fun y => y == f i) ∘ sig) e && p e) =
        ledger.countP (q i) := by
      apply List.countP_congr
      intro e _
      simp only [Function.comp, Bool.and_eq_true, beq_iff_eq, hp, hq]
      constructor
      · exact fun h => h.1
      · intro h; exact ⟨h, by rw [h]; exact hx⟩
    rw [hcongr, hcount i (by omega)]
    have hmem : f i ∈ (List.range' a (min 10 (m - a))).map f ↔ i < m := by
      constructor
      · intro h
        obtain ⟨j, hj, hji⟩ := List.mem_map.mp h
        rw [List.mem_range'_1] at hj
        have := hinj j i (by omega) (by omega) hji
        omega
      · intro h
        exact List.mem_map.mpr ⟨i, by rw [List.mem_range'_1]; omega, rfl⟩
    by_cases him : i < m
    · simp [him, hmem.mpr him]
    · have : f i ∉ (List.range' a (min 10 (m - a))).map f := fun h => him (hmem.mp h)
      simp [him, this]
  · have hx' : x ∉ (List.range' a (min 10 (m - a))).map f := by
      intro h
      obtain ⟨j, hj, hjx⟩ := List.mem_map.mp h
      rw [List.mem_range'_1] at hj
      exact hx (List.mem_map.mpr ⟨j, by rw [List.mem_range'_1]; omega, hjx⟩)
    simp only [hx', if_false]
    rw [List.countP_eq_zero]
    intro e _
    simp only [Function.comp, Bool.and_eq_true, beq_iff_eq, hp, not_and]
    intro h
    rw [h]; exact hx

theorem foldl_max_spec {α : Type} (idx : α → Int) (es : List α) :
    ∀ init : Int,
      init ≤ es.foldl (fun last e => if idx e > last then idx e else last) init ∧
      (∀ e ∈ es, idx e ≤ es.foldl (fun last e => if idx e > last then idx e else last) init) ∧
      (es.foldl (fun last e => if idx e > last then idx e else last) init = init ∨
        ∃ e ∈ es, es.foldl (fun last e => if idx e > last then idx e else last) init = idx e) := by
  induction es with
  | nil => intro init; simp
  | cons a r ih =>
    intro init
    simp only [List.foldl_cons]
    obtain ⟨h1, h2, h3⟩ := ih (if idx a > init then idx a else init)
    by_cases hc : idx a > init
    · simp only [hc, if_true] at h1 h2 h3 ⊢
      refine ⟨by omega, ?_, ?_⟩
      · intro e he
        rcases List.mem_cons.mp he with rfl | he
        · exact h1
        · exact h2 e he
      · rcases h3 with h | ⟨e, he, h⟩
        · right; exact ⟨a, by simp, h⟩
        · right; exact ⟨e, by simp [he], h⟩
    · simp only [hc, if_false] at h1 h2 h3 ⊢
      refine ⟨h1, ?_, ?_⟩
      · intro e he
        rcases List.mem_cons.mp he with rfl | he
        · omega
        · exact h2 e he
      · rcases h3 with h | ⟨e, he, h⟩
        · left; exact h
        · right; exact ⟨e, by simp [he], h⟩
theorem lastIndex_batch (hash : Bytes → Bytes) (seed : Bytes) (a c len : Nat) (p : Int)
    (parsed : List SignatureEvent)
    (hperm : (parsed.map (fun e => e.signature)).Perm
      ((List.range' a c).map (pseudonym hash seed)))
    (hlen : a + c ≤ len)
    (hinj : ∀ i j, i < len → j < len → pseudonym hash seed i = pseudonym hash seed j → i = j) :
    parsed.foldl (fun last e =>
        let sigNumber := HashIterator.indexOf ⟨seed, chainList hash seed len, p⟩ e.signature
        if sigNumber > last then sigNumber else last) ((a : Int) - 1) = ((a + c : Nat) : Int) - 1 := by
  have hidx : ∀ e ∈ parsed, ∃ i, a ≤ i ∧ i < a + c ∧
      HashIterator.indexOf ⟨seed, chainList hash seed len, p⟩ e.signature = (i : Int) := by
    intro e he
    have hm : e.signature ∈ parsed.map (fun e => e.signature) := List.mem_map.mpr ⟨e, he, rfl⟩
    obtain ⟨i, hi, hie⟩ := List.mem_map.mp (hperm.mem_iff.mp hm)
    rw [List.mem_range'_1] at hi
    refine ⟨i, hi.1, hi.2, ?_⟩
    rw [← hie]
    exact indexOf_chainList hash seed len i p (by omega)
      (fun j hj h => hinj j i hj (by omega) h)
  obtain ⟨h1, h2, h3⟩ := foldl_max_spec
    (fun e : SignatureEvent => HashIterator.indexOf ⟨seed, chainList hash seed len, p⟩ e.signature)
    parsed ((a : Int) - 1)
  simp only [] at h1 h2 h3 ⊢
  have hupper : parsed.foldl (fun last e =>
        if HashIterator.indexOf ⟨seed, chainList hash seed len, p⟩ e.signature > last then
          HashIterator.indexOf ⟨seed, chainList hash seed len, p⟩ e.signature else last)
        ((a : Int) - 1) ≤ ((a + c : Nat) : Int) - 1 := by
    rcases h3 with h | ⟨e, he, h⟩
    · rw [h]; push_cast; omega
    · obtain ⟨i, _, hi2, hi3⟩ := hidx e he
      rw [h, hi3]; push_cast; omega
  by_cases hc : c = 0
  · subst hc
    have : parsed = [] := by
      have := hperm.length_eq
      simp only [List.length_map, List.length_range'] at this
      exact List.eq_nil_of_length_eq_zero this
    subst this
    simp
  · have hm : pseudonym hash seed (a + c - 1) ∈ parsed.map (fun e => e.signature) :=
      hperm.mem_iff.mpr (List.mem_map.mpr ⟨a + c - 1, by rw [List.mem_range'_1]; omega, rfl⟩)
    obtain ⟨e, he, hes⟩ := List.mem_map.mp hm
    have hlower := h2 e he
    have hval : HashIterator.indexOf ⟨seed, chainList hash seed len, p⟩ e.signature =
        ((a + c - 1 : Nat) : Int) := by
      rw [hes]
      exact indexOf_chainList hash seed len (a + c - 1) p (by omega)
        (fun j hj h => hinj j (a + c - 1) hj (by omega) h)
    rw [hval] at hlower
    omega
theorem discoverNext_step {κ : Type} (hash : Bytes → Bytes)
    (aesDecrypt : κ → Bytes → Bytes → Option Bytes)
    (getPastLogs : List JSString → List LogEvent) (key : κ) (fuel : Nat)
    (st : DiscoveryState) (n : Int) (eSigs : List Bytes) (hashes : HashIterator)
    (parsed : List SignatureEvent)
    (hnext : st.hashes.next hash n = .ok (eSigs, hashes))
    (hparsed : promiseAll ((getPastLogs (eSigs.map (fun s => _buf2hex s true))).map
      (fun e => _decodeSignatureEvent aesDecrypt e key)) = .ok parsed) :
    _discoverNext hash aesDecrypt getPastLogs key (fuel + 1) st n =
      if parsed.length ≠ MAX_SIGS_PER_DISCOVERY_ITERATION then
        some (.ok ⟨hashes.reset (parsed.foldl (fun last e =>
            let sigNumber := hashes.indexOf e.signature
            if sigNumber > last then sigNumber else last) st.lastSignatureIndex),
          st.signatureEvents ++ parsed,
          st.queries ++ [eSigs.map (fun s => _buf2hex s true)]⟩)
      else
        _discoverNext hash aesDecrypt getPastLogs key fuel
          ⟨hashes, st.signatureEvents ++ parsed,
            parsed.foldl (fun last e =>
              let sigNumber := hashes.indexOf e.signature
              if sigNumber > last then sigNumber else last) st.lastSignatureIndex,
            st.queries ++ [eSigs.map (fun s => _buf2hex s true)]⟩
          MAX_SIGS_PER_DISCOVERY_ITERATION := by
  simp only [_discoverNext, hnext, hparsed]

theorem discoverNext_batch {κ : Type} (hash : Bytes → Bytes)
    (aesDecrypt : κ → Bytes → Bytes → Option Bytes)
    (getPastLogs : List JSString → List LogEvent) (key : κ) (seed : Bytes)
    (ledger : List LogEvent) (m : Nat)
    (hlogs : ∀ topics, getPastLogs topics =
      ledger.filter (fun e => decide (e.signature ∈ topics)))
    (hinj : ∀ i j, i < 10 * (m / 10 + 1) → j < 10 * (m / 10 + 1) →
      pseudonym hash seed i = pseudonym hash seed j → i = j)
    (hcount : ∀ i, i < 10 * (m / 10 + 1) →
      ledger.countP (fun e => decide (e.signature = pseudonym hash seed i)) =
        if i < m then 1 else 0)
    (k fuel : Nat) (sigs : List SignatureEvent) (queries : List (List JSString))
    (hk : k ≤ m / 10) :
    ∃ parsed : List SignatureEvent,
      (parsed.map (fun e => e.signature)).Perm
        ((List.range' (10 * k) (min 10 (m - 10 * k))).map (pseudonym hash seed)) ∧
      _discoverNext hash aesDecrypt getPastLogs key (fuel + 1)
          ⟨⟨seed, chainList hash seed (10 * k), ((10 * k : Nat) : Int) - 1⟩, sigs,
            ((10 * k : Nat) : Int) - 1, queries⟩
          (MAX_SIGS_PER_DISCOVERY_ITERATION : Nat) =
        if parsed.length ≠ 10 then
          some (.ok ⟨⟨seed, chainList hash seed (10 * (k + 1)),
              ((10 * k + min 10 (m - 10 * k) : Nat) : Int) - 1⟩, sigs ++ parsed,
            queries ++ [(List.range' (10 * k) 10).map (pseudonym hash seed)]⟩)
        else
          _discoverNext hash aesDecrypt getPastLogs key fuel
            ⟨⟨seed, chainList hash seed (10 * (k + 1)), ((10 * (k + 1) : Nat) : Int) - 1⟩,
              sigs ++ parsed, ((10 * k + min 10 (m - 10 * k) : Nat) : Int) - 1,
              queries ++ [(List.range' (10 * k) 10).map (pseudonym hash seed)]⟩
            (MAX_SIGS_PER_DISCOVERY_ITERATION : Nat) := by
  have hnext := next_chainList hash seed (10 * k) (10 * k) MAX_SIGS_PER_DISCOVERY_ITERATION
  have hbatch : (List.map (chain hash seed)
      (List.range' (10 * k) MAX_SIGS_PER_DISCOVERY_ITERATION)).map
        (fun s => _buf2hex s true) = (List.range' (10 * k) 10).map (pseudonym hash seed) := by
    simp [List.map_map, pseudonym, Function.comp, MAX_SIGS_PER_DISCOVERY_ITERATION]
  obtain ⟨parsed, hpa, hsig⟩ := promiseAll_decode aesDecrypt key
    (getPastLogs ((List.map (chain hash seed)
      (List.range' (10 * k) MAX_SIGS_PER_DISCOVERY_ITERATION)).map (fun s => _buf2hex s true)))
  have hpp : (parsed.map (fun e => e.signature)).Perm
      ((List.range' (10 * k) (min 10 (m - 10 * k))).map (pseudonym hash seed)) := by
    rw [hsig, hbatch, hlogs]
    exact filter_batch_perm (fun e : LogEvent => e.signature) (pseudonym hash seed) ledger m
      (10 * (m / 10 + 1)) (10 * k) _ (fun i e => decide (e.signature = pseudonym hash seed i))
      (fun e => by simp) (fun i e => by simp) hinj hcount (by omega)
  refine ⟨parsed, hpp, ?_⟩
  have hlen : max (max (10 * k) 1) (10 * k + MAX_SIGS_PER_DISCOVERY_ITERATION) = 10 * (k + 1) := by
    simp only [MAX_SIGS_PER_DISCOVERY_ITERATION]; omega
  have hptr : ((10 * k : Nat) : Int) - 1 + ((MAX_SIGS_PER_DISCOVERY_ITERATION : Nat) : Int) =
      ((10 * (k + 1) : Nat) : Int) - 1 := by
    simp only [MAX_SIGS_PER_DISCOVERY_ITERATION]; push_cast; omega
  rw [hlen, hptr] at hnext
  have hlast := lastIndex_batch hash seed (10 * k) (min 10 (m - 10 * k)) (10 * (k + 1))
    (((10 * (k + 1) : Nat) : Int) - 1) parsed hpp (by omega)
    (fun i j hi hj h => hinj i j (by omega) (by omega) h)
  rw [discoverNext_step hash aesDecrypt getPastLogs key fuel _ _ _ _ parsed hnext hpa]
  simp only [hlast, hbatch, HashIterator.reset]
  simp only [MAX_SIGS_PER_DISCOVERY_ITERATION]

theorem discoverNext_gap_free {κ : Type} (hash : Bytes → Bytes)
    (aesDecrypt : κ → Bytes → Bytes → Option Bytes)
    (getPastLogs : List JSString → List LogEvent) (key : κ) (seed : Bytes)
    (ledger : List LogEvent) (m : Nat)
    (hlogs : ∀ topics, getPastLogs topics =
      ledger.filter (fun e => decide (e.signature ∈ topics)))
    (hinj : ∀ i j, i < 10 * (m / 10 + 1) → j < 10 * (m / 10 + 1) →
      pseudonym hash seed i = pseudonym hash seed j → i = j)
    (hcount : ∀ i, i < 10 * (m / 10 + 1) →
      ledger.countP (fun e => decide (e.signature = pseudonym hash seed i)) =
        if i < m then 1 else 0) :
    ∀ (j k fuel : Nat) (sigs : List SignatureEvent) (queries : List (List JSString)),
      k + j = m / 10 → j + 1 ≤ fuel →
      (sigs.map (fun e => e.signature)).Perm ((List.range (10 * k)).map (pseudonym hash seed)) →
      ∃ r : DiscoveryResult,
        _discoverNext hash aesDecrypt getPastLogs key fuel
          ⟨⟨seed, chainList hash seed (10 * k), ((10 * k : Nat) : Int) - 1⟩, sigs,
            ((10 * k : Nat) : Int) - 1, queries⟩
          (MAX_SIGS_PER_DISCOVERY_ITERATION : Nat) = some (.ok r) ∧
        (r.signatures.map (fun e => e.signature)).Perm
          ((List.range m).map (pseudonym hash seed)) ∧
        r.hashes.currentIndex = (m : Int) - 1 := by
  have happ : ∀ (k c : Nat) (sigs parsed : List SignatureEvent),
      (sigs.map (fun e => e.signature)).Perm
        ((List.range (10 * k)).map (pseudonym hash seed)) →
      (parsed.map (fun e => e.signature)).Perm
        ((List.range' (10 * k) c).map (pseudonym hash seed)) →
      ((sigs ++ parsed).map (fun e => e.signature)).Perm
        ((List.range (10 * k + c)).map (pseudonym hash seed)) := by
    intro k c sigs parsed h1 h2
    have hr : List.range (10 * k + c) = List.range (10 * k) ++ List.range' (10 * k) c := by
      rw [List.range_eq_range', List.range_eq_range']
      have := List.range'_append_1 0 (10 * k) c
      rw [Nat.zero_add] at this
      rw [this, Nat.add_comm]
    rw [List.map_append, hr, List.map_append]
    exact h1.append h2
  intro j
  induction j with
  | zero =>
    intro k fuel sigs queries hk hfuel hperm
    obtain ⟨fuel', rfl⟩ : ∃ f, fuel = f + 1 := ⟨fuel - 1, by omega⟩
    obtain ⟨parsed, hpp, hstep⟩ := discoverNext_batch hash aesDecrypt getPastLogs key seed ledger
      m hlogs hinj hcount k fuel' sigs queries (by omega)
    have hc : min 10 (m - 10 * k) = m - 10 * k := by omega
    have hlen : parsed.length = m - 10 * k := by
      have := hpp.length_eq
      simpa [hc] using this
    have hne : parsed.length ≠ 10 := by omega
    rw [hstep]
    simp only [hne, ne_eq, not_false_eq_true, if_true]
    refine ⟨_, rfl, ?_, ?_⟩
    · rw [hc] at hpp
      have := happ k (m - 10 * k) sigs parsed hperm hpp
      have hm : 10 * k + (m - 10 * k) = m := by omega
      rw [hm] at this
      exact this
    · simp only [HashIterator.currentIndex, hc]
      have hm : 10 * k + (m - 10 * k) = m := by omega
      rw [hm]
  | succ j ih =>
    intro k fuel sigs queries hk hfuel hperm
    obtain ⟨fuel', rfl⟩ : ∃ f, fuel = f + 1 := ⟨fuel - 1, by omega⟩
    obtain ⟨parsed, hpp, hstep⟩ := discoverNext_batch hash aesDecrypt getPastLogs key seed ledger
      m hlogs hinj hcount k fuel' sigs queries (by omega)
    have hc : min 10 (m - 10 * k) = 10 := by omega
    have hlen : parsed.length = 10 := by
      have := hpp.length_eq
      simpa [hc] using this
    rw [hstep]
    simp only [hlen, ne_eq, not_true_eq_false, if_false, hc]
    have hk1 : 10 * k + 10 = 10 * (k + 1) := by omega
    rw [hk1]
    apply ih (k + 1) fuel' (sigs ++ parsed) _ (by omega) (by omega)
    rw [hc] at hpp
    have := happ k 10 sigs parsed hperm hpp
    rw [hk1] at this
    exact this
/-- C10: discovery completeness on a gap-free chain. For every `m`, if the pseudonyms
the discovery computes are pairwise distinct, the ledger query returns exactly the events
whose topic is in the queried batch, and the ledger holds exactly one signature event for
each of `chain(0..m-1)` and none for a later pseudonym, then `_discoverSignatures`
terminates (`m / 10 + 1` calls of `_discoverNext` suffice) and returns exactly `m` events,
one for each of `chain(0..m-1)`, and a generator whose `currentIndex()` is `m - 1`. -/
theorem C10_discovery_gap_free {κ : Type} (hash : Bytes → Bytes)
    (aesDecrypt : κ → Bytes → Bytes → Option Bytes)
    (getPastLogs : List JSString → List LogEvent) (key : κ) (net : Network)
    (documentHash : Bytes) (ledger : List LogEvent) (m fuel : Nat)
    (hlogs : ∀ topics, getPastLogs topics =
      ledger.filter (fun e => decide (e.signature ∈ topics)))
    (hinj : ∀ i j, i < 10 * (m / 10 + 1) → j < 10 * (m / 10 + 1) →
      pseudonym hash (chainSpecificDocumentHash hash net.chain documentHash) i =
        pseudonym hash (chainSpecificDocumentHash hash net.chain documentHash) j → i = j)
    (hcount : ∀ i, i < 10 * (m / 10 + 1) →
      ledger.countP (fun e => decide (e.signature =
        pseudonym hash (chainSpecificDocumentHash hash net.chain documentHash) i)) =
        if i < m then 1 else 0)
    (hfuel : m / 10 + 1 ≤ fuel) :
    ∃ r : DiscoveryResult,
      _discoverSignatures hash aesDecrypt (some net) getPastLogs fuel documentHash key =
        some (.ok r) ∧
      r.signatures.length = m ∧
      (r.signatures.map (fun e => e.signature)).Perm
        ((List.range m).map
          (pseudonym hash (chainSpecificDocumentHash hash net.chain documentHash))) ∧
      r.hashes.currentIndex = (m : Int) - 1 := by
  obtain ⟨r, h1, h2, h3⟩ := discoverNext_gap_free hash aesDecrypt getPastLogs key
    (chainSpecificDocumentHash hash net.chain documentHash) ledger m hlogs hinj hcount
    (m / 10) 0 fuel [] [] (by omega) hfuel (by simp)
  refine ⟨r, ?_, ?_, h2, h3⟩
  · simp only [_discoverSignatures, HashIterator.new]
    have h0 : chainList hash (chainSpecificDocumentHash hash net.chain documentHash) (10 * 0) = [] :=
      rfl
    have hp : (((10 * 0 : Nat) : Int) - 1) = -1 := rfl
    rw [h0, hp] at h1
    exact h1
  · have := h2.length_eq
    simpa using this

theorem C10_discovery_gap_free_witness :
    (∀ topics, sampleGetPastLogs topics =
      sampleLedger.filter (fun e => decide (e.signature ∈ topics))) ∧
    (∀ i, i < 10 * (2 / 10 + 1) → ∀ j, j < 10 * (2 / 10 + 1) →
      samplePseudonym i = samplePseudonym j → i = j) ∧
    (∀ i, i < 10 * (2 / 10 + 1) →
      sampleLedger.countP (fun e => decide (e.signature = samplePseudonym i)) =
        if i < 2 then 1 else 0) ∧
    ∃ r : DiscoveryResult,
      _discoverSignatures sampleDigest sampleDecrypt (some sampleNetwork) sampleGetPastLogs 1
        [7, 7] 7 = some (.ok r) ∧
      r.signatures.length = 2 ∧
      (r.signatures.map (fun e => e.signature)).Perm ((List.range 2).map samplePseudonym) ∧
      r.hashes.currentIndex = ((2 : Nat) : Int) - 1 :=
  have hinj : ∀ i, i < 10 * (2 / 10 + 1) → ∀ j, j < 10 * (2 / 10 + 1) →
      samplePseudonym i = samplePseudonym j → i = j := by decide
  have hcount : ∀ i, i < 10 * (2 / 10 + 1) →
      sampleLedger.countP (fun e => decide (e.signature = samplePseudonym i)) =
        if i < 2 then 1 else 0 := by decide
  ⟨fun _ => rfl, hinj, hcount,
    C10_discovery_gap_free sampleDigest sampleDecrypt sampleGetPastLogs 7 sampleNetwork [7, 7]
      sampleLedger 2 1 (fun _ => rfl) (fun i j hi hj h => hinj i hi j hj h) hcount (by decide)⟩
/-! ## Hash chain: cursor, cache and batching -/

theorem next_chainList_int (hash : Bytes → Bytes) (seed : Bytes) (len : Nat) (p n : Int) :
    HashIterator.next hash ⟨seed, chainList hash seed len, p⟩ n =
      .ok (slice (chainList hash seed (max (max len 1) (p + n + 1).toNat)) (p + 1) (p + n + 1),
        ⟨seed, chainList hash seed (max (max len 1) (p + n + 1).toNat), p + n⟩) := by
  obtain ⟨l, hl, hl'⟩ : ∃ l : Nat,
      (if len = 0 then chainList hash seed len ++ [hash seed]
        else chainList hash seed len) = chainList hash seed (l + 1) ∧ l + 1 = max len 1 := by
    by_cases h0 : len = 0
    · refine ⟨0, ?_, by omega⟩
      subst h0
      simp [chainList, chain, List.range_succ]
    · refine ⟨len - 1, ?_, by omega⟩
      have : len - 1 + 1 = len := by omega
      simp only [h0, if_false, this]
  unfold HashIterator.next
  simp only [chainList_length]
  simp only [hl, chainList_length, nextLoop_chainList]
  have hlen : l + 1 + (p + n + 1 - ((l + 1 : Nat) : Int)).toNat =
      max (max len 1) (p + n + 1).toNat := by omega
  rw [hlen]

theorem Reachable.exists_len {hash : Bytes → Bytes} {seed : Bytes} {it : HashIterator}
    (h : Reachable hash seed it) :
    it = ⟨seed, chainList hash seed it.hashes.length, it.hashPtr⟩ := by
  obtain ⟨hd, hh⟩ := h.inv
  cases it with
  | mk d hs p =>
    simp only at hd hh ⊢
    rw [hd, ← hh]

theorem ReachableInRange.reachable {hash : Bytes → Bytes} {seed : Bytes} {it : HashIterator}
    (h : ReachableInRange hash seed it) : Reachable hash seed it := by
  induction h with
  | new => exact Reachable.new
  | next it n r it' _ hn ih => exact Reachable.next it n r it' ih hn
  | reset it k _ _ ih => exact Reachable.reset it k ih

/-- C17, as stated, fails: `reset(5)` on a fresh iterator is a reachable state whose
cursor 5 exceeds the cached length (0) minus 1. -/
theorem C17_counterexample :
    Reachable sampleDigest [1, 2] ((HashIterator.new [1, 2]).reset 5) ∧
    ¬ (((HashIterator.new [1, 2]).reset 5).currentIndex ≤
      ((((HashIterator.new [1, 2]).reset 5).hashes.length : Nat) : Int) - 1) :=
  ⟨Reachable.reset _ 5 Reachable.new, by decide⟩

/-- C17, amended: in every state of a hash iterator reachable from construction through
`next(n)` and through `reset(index)` with `index` at most the cached length minus 1, the
cursor is at most the cached length minus 1. -/
theorem C17_cursor_invariant (hash : Bytes → Bytes) (seed : Bytes) (it : HashIterator)
    (hr : ReachableInRange hash seed it) :
    it.currentIndex ≤ (it.hashes.length : Int) - 1 := by
  induction hr with
  | new => simp [HashIterator.new, HashIterator.currentIndex]
  | next it n r it' hprev hnext ih =>
    have hshape := hprev.reachable.exists_len
    rw [hshape, next_chainList_int] at hnext
    simp only [Except.ok.injEq, Prod.mk.injEq] at hnext
    rw [← hnext.2]
    simp only [HashIterator.currentIndex, chainList_length] at ih ⊢
    omega
  | reset it k _ hk _ => simpa [HashIterator.reset, HashIterator.currentIndex] using hk

theorem C17_cursor_invariant_witness :
    ReachableInRange sampleDigest [1, 2] sampleState ∧
    sampleState.currentIndex ≤ (sampleState.hashes.length : Int) - 1 :=
  have hr : ReachableInRange sampleDigest [1, 2] sampleState :=
    ReachableInRange.reset ⟨[1, 2], [[3, 2], [8, 4], [15, 4]], 2⟩ 0
      (ReachableInRange.next (HashIterator.new [1, 2]) 3 [[3, 2], [8, 4], [15, 4]]
        ⟨[1, 2], [[3, 2], [8, 4], [15, 4]], 2⟩ ReachableInRange.new (by decide)) (by decide)
  ⟨hr, C17_cursor_invariant sampleDigest [1, 2] sampleState hr⟩
theorem chainList_append (hash : Bytes → Bytes) (seed : Bytes) (a b : Nat) (h : a ≤ b) :
    ∃ t, chainList hash seed b = chainList hash seed a ++ t := by
  obtain ⟨d, rfl⟩ : ∃ d, b = a + d := ⟨b - a, by omega⟩
  refine ⟨(List.range' a d).map (chain hash seed), ?_⟩
  have hr : List.range (a + d) = List.range a ++ List.range' a d := by
    rw [List.range_eq_range', List.range_eq_range']
    have := List.range'_append_1 0 a d
    rw [Nat.zero_add] at this
    rw [this, Nat.add_comm]
  simp only [chainList, hr, List.map_append]

/-- C18: cache stability. In every reachable state, `reset(index)` changes only the
cursor, which becomes `index`; `next(n)` returns and only appends to the cache, so the cache
before is a prefix of the cache after; every cached entry `i` equals `chain(i)`; and after
rewinding to `k`, a `next(n)` that stays inside the cache returns the cached values
`chain(k+1), ..., chain(k+n)` and leaves the cache unchanged. -/
theorem C18_cache_stability (hash : Bytes → Bytes) (seed : Bytes) (it : HashIterator)
    (hr : Reachable hash seed it) :
    (∀ k : Int, (it.reset k).hashes = it.hashes ∧ (it.reset k).documentHash = it.documentHash ∧
      (it.reset k).currentIndex = k) ∧
    (∀ n : Int, ∃ (r : List Bytes) (it' : HashIterator) (t : List Bytes),
      it.next hash n = .ok (r, it') ∧ it'.hashes = it.hashes ++ t) ∧
    (∀ i : Nat, i < it.hashes.length → it.hashes[i]? = some (chain hash seed i)) ∧
    (∀ (q n : Nat), 1 ≤ n → q + n ≤ it.hashes.length →
      (it.reset ((q : Int) - 1)).next hash (n : Int) =
        .ok ((List.range' q n).map (chain hash seed),
          ⟨it.documentHash, it.hashes, (q : Int) - 1 + n⟩) ∧
      slice it.hashes (q : Int) ((q + n : Nat) : Int) = (List.range' q n).map (chain hash seed)) := by
  have hshape := hr.exists_len
  obtain ⟨hd, hh⟩ := hr.inv
  refine ⟨fun k => ⟨rfl, rfl, rfl⟩, ?_, ?_, ?_⟩
  · intro n
    obtain ⟨t, ht⟩ := chainList_append hash seed it.hashes.length
      (max (max it.hashes.length 1) (it.hashPtr + n + 1).toNat) (by omega)
    have hnext := next_chainList_int hash seed it.hashes.length it.hashPtr n
    rw [← hshape] at hnext
    refine ⟨_, _, t, hnext, ?_⟩
    simp only [ht]
    rw [← hh]
  · intro i hi
    have hget : ∀ len : Nat, i < len → (chainList hash seed len)[i]? = some (chain hash seed i) := by
      intro len hl
      simp [chainList, hl]
    rw [hh]
    exact hget _ hi
  · intro q n hn hq
    constructor
    · have hreset : it.reset ((q : Int) - 1) =
          ⟨seed, chainList hash seed it.hashes.length, (q : Int) - 1⟩ := by
        simp only [HashIterator.reset, hd, ← hh]
      rw [hreset, next_chainList, hd]
      have hmax : max (max it.hashes.length 1) (q + n) = it.hashes.length := by omega
      rw [hmax, ← hh]
    · rw [hh]
      exact slice_chainList hash seed _ q n hq

theorem C18_cache_stability_witness :
    Reachable sampleDigest [1, 2] sampleState ∧
    (∀ k : Int, (sampleState.reset k).hashes = sampleState.hashes ∧
      (sampleState.reset k).documentHash = sampleState.documentHash ∧
      (sampleState.reset k).currentIndex = k) ∧
    (∀ n : Int, ∃ (r : List Bytes) (it' : HashIterator) (t : List Bytes),
      sampleState.next sampleDigest n = .ok (r, it') ∧ it'.hashes = sampleState.hashes ++ t) ∧
    (∀ i : Nat, i < sampleState.hashes.length →
      sampleState.hashes[i]? = some (chain sampleDigest [1, 2] i)) ∧
    (∀ (q n : Nat), 1 ≤ n → q + n ≤ sampleState.hashes.length →
      (sampleState.reset ((q : Int) - 1)).next sampleDigest (n : Int) =
        .ok ((List.range' q n).map (chain sampleDigest [1, 2]),
          ⟨sampleState.documentHash, sampleState.hashes, (q : Int) - 1 + n⟩) ∧
      slice sampleState.hashes (q : Int) ((q + n : Nat) : Int) =
        (List.range' q n).map (chain sampleDigest [1, 2])) :=
  have hr : Reachable sampleDigest [1, 2] sampleState :=
    Reachable.reset _ 0
      (Reachable.next (HashIterator.new [1, 2]) 3 [[3, 2], [8, 4], [15, 4]]
        ⟨[1, 2], [[3, 2], [8, 4], [15, 4]], 2⟩ Reachable.new (by decide))
  ⟨hr, C18_cache_stability sampleDigest [1, 2] sampleState hr⟩

/-- C20: batching independence. For every seed and all `a`, `b` (in particular
`a, b ≥ 1`), `next(a)` then `next(b)` on a fresh iterator return two lists whose
concatenation is the list returned by a single `next(a + b)` on another fresh iterator,
namely `chain(0), ..., chain(a+b-1)`, and both iterators end in the same state, with cursor
`a + b - 1` and the same cache. -/
theorem C20_batching_independence (hash : Bytes → Bytes) (seed : Bytes) (a b : Nat) :
    ∃ (r1 r2 r : List Bytes) (it1 it2 it : HashIterator),
      (HashIterator.new seed).next hash (a : Int) = .ok (r1, it1) ∧
      it1.next hash (b : Int) = .ok (r2, it2) ∧
      (HashIterator.new seed).next hash ((a + b : Nat) : Int) = .ok (r, it) ∧
      r1 ++ r2 = r ∧ r = (List.range (a + b)).map (chain hash seed) ∧
      it2.currentIndex = ((a + b : Nat) : Int) - 1 ∧ it.currentIndex = ((a + b : Nat) : Int) - 1 ∧
      it2.hashes = it.hashes ∧ it2 = it := by
  have hnew : HashIterator.new seed = ⟨seed, chainList hash seed 0, ((0 : Nat) : Int) - 1⟩ := rfl
  have h1 := next_chainList hash seed 0 0 a
  have h2 := next_chainList hash seed (max (max 0 1) (0 + a)) a b
  have h3 := next_chainList hash seed 0 0 (a + b)
  have hp : ((0 : Nat) : Int) - 1 + (a : Int) = (a : Int) - 1 := by omega
  rw [hp] at h1
  have hc : max (max (max (max 0 1) (0 + a)) 1) (a + b) = max (max 0 1) (0 + (a + b)) := by omega
  have hp2 : (a : Int) - 1 + (b : Int) = ((0 : Nat) : Int) - 1 + ((a + b : Nat) : Int) := by
    push_cast; omega
  rw [hc, hp2] at h2
  refine ⟨_, _, _, _, _, _, by rw [hnew]; exact h1, h2, by rw [hnew]; exact h3, ?_, ?_, ?_, ?_,
    rfl, rfl⟩
  · rw [← List.map_append]
    congr 1
    have := List.range'_append_1 0 a b
    rw [Nat.zero_add] at this
    rw [this, Nat.add_comm]
  · rw [List.range_eq_range']
  · simp only [HashIterator.currentIndex]; omega
  · simp only [HashIterator.currentIndex]; omega
/-! ## Network scoping of the chain seed -/

theorem chainIdBytes_eq (n : Nat) :
    uint8ArrayFromString (natToString 10 n) =
      if n < 10 then [n] else uint8ArrayFromString (natToString 10 (n / 10)) ++ [n % 10] := by
  have hd : ∀ d, d < 10 → toUint8 (charToNumber (digitChar d)) = d := by decide
  rw [natToString_eq 10 (by omega)]
  by_cases h : n < 10
  · simp only [h, if_true, uint8ArrayFromString, List.map_cons, List.map_nil, hd n h]
  · simp only [h, if_false, uint8ArrayFromString, List.map_append, List.map_cons, List.map_nil,
      hd (n % 10) (Nat.mod_lt _ (by omega))]

theorem chainIdBytes_value (n : Nat) :
    (uint8ArrayFromString (natToString 10 n)).foldl (fun a d => 10 * a + d) 0 = n := by
  induction n using Nat.strong_induction_on with
  | _ n ih =>
    rw [chainIdBytes_eq]
    by_cases h : n < 10
    · simp [h]
    · simp only [h, if_false, List.foldl_append, List.foldl_cons, List.foldl_nil]
      rw [ih (n / 10) (by omega)]
      omega

theorem chainIdBytes_digits (n : Nat) (hn : 0 < n) :
    uint8ArrayFromString (natToString 10 n) = (Nat.digits 10 n).reverse := by
  induction n using Nat.strong_induction_on with
  | _ n ih =>
    rw [chainIdBytes_eq]
    by_cases h : n < 10
    · simp only [h, if_true]
      rw [Nat.digits_of_lt 10 n (by omega) h]
      rfl
    · simp only [h, if_false]
      rw [ih (n / 10) (by omega) (by omega), Nat.digits_def' (by omega) hn, List.reverse_cons]

/-! ## Printing of Number values -/

theorem ulpAux_spec (fuel : Nat) : ∀ v, v < 9007199254740992 * 2 ^ fuel →
    0 < ulpAux fuel v ∧ (v < 9007199254740992 → ulpAux fuel v = 1) ∧
    (9007199254740992 ≤ v → 2 ≤ ulpAux fuel v ∧ 4503599627370496 ≤ v / ulpAux fuel v) := by
  induction fuel with
  | zero =>
    intro v hv
    simp only [pow_zero, mul_one] at hv
    exact ⟨by simp [ulpAux], fun _ => rfl, fun h => absurd h (by omega)⟩
  | succ f ih =>
    intro v hv
    by_cases hlt : v < 9007199254740992
    · have hu : ulpAux (f + 1) v = 1 := by simp only [ulpAux, hlt, if_true]
      rw [hu]
      exact ⟨by omega, fun _ => rfl, fun h => absurd h (by omega)⟩
    · have hv2 : v / 2 < 9007199254740992 * 2 ^ f := by
        rw [pow_succ] at hv
        omega
      obtain ⟨hpos, h1, h2⟩ := ih (v / 2) hv2
      have hu : ulpAux (f + 1) v = 2 * ulpAux f (v / 2) := by simp only [ulpAux, hlt, if_false]
      rw [hu]
      refine ⟨by omega, fun h => absurd h hlt, fun _ => ⟨by omega, ?_⟩⟩
      rw [← Nat.div_div_eq_div_mul]
      by_cases hh : v / 2 < 9007199254740992
      · rw [h1 hh, Nat.div_one]
        omega
      · exact (h2 (by omega)).2

theorem toNumber_ge (v : Nat) (hv : 9007199254740992 ≤ v) : 9007199254740992 ≤ toNumber v := by
  have hfuel : v < 9007199254740992 * 2 ^ v := by
    have h2 := Nat.lt_two_pow v
    omega
  obtain ⟨hu, hq⟩ := (ulpAux_spec v v hfuel).2.2 hv
  have hmul : 9007199254740992 ≤ v / ulpAux v v * ulpAux v v :=
    calc 9007199254740992 = 4503599627370496 * 2 := by norm_num
      _ ≤ v / ulpAux v v * ulpAux v v := Nat.mul_le_mul hq hu
  unfold toNumber
  simp only [Nat.not_lt.mpr hv, if_false]
  split_ifs
  · exact le_trans hmul (Nat.mul_le_mul_right _ (Nat.le_succ _))
  · exact hmul

theorem toNumber_safe (v x : Nat) (h : toNumber v = x) (hx : x < 9007199254740992) : v = x := by
  by_cases hv : v < 9007199254740992
  · rw [← h]
    unfold toNumber
    rw [if_pos hv]
  · have hge := toNumber_ge v (by omega)
    omega

theorem natToString_length_bound (n : Nat) :
    0 < (natToString 10 n).length ∧ n < 10 ^ (natToString 10 n).length ∧
    (n ≠ 0 → 10 ^ ((natToString 10 n).length - 1) ≤ n) := by
  induction n using Nat.strong_induction_on with
  | _ n ih =>
    rw [natToString_eq 10 (by omega)]
    by_cases h : n < 10
    · simp only [h, if_true, List.length_singleton]
      exact ⟨by omega, by omega, fun h0 => by simp only [Nat.sub_self, pow_zero]; omega⟩
    · simp only [h, if_false, List.length_append, List.length_singleton]
      obtain ⟨hp, hlt, hge⟩ := ih (n / 10) (by omega)
      have hge' := hge (by omega)
      generalize (natToString 10 (n / 10)).length = len at hp hlt hge'
      obtain ⟨m, rfl⟩ : ∃ m, len = m + 1 := ⟨len - 1, by omega⟩
      simp only [Nat.add_sub_cancel] at hge' ⊢
      refine ⟨by omega, ?_, fun _ => ?_⟩
      · rw [pow_succ (10 : Nat) (m + 1)]
        omega
      · rw [pow_succ]
        omega

theorem decimalCandidates_le (x len k : Nat) (hk : k ≤ len) (hx : x < 10 ^ len) :
    ∀ v ∈ decimalCandidates x len k, v ≤ 10 ^ len := by
  have hp : 0 < 10 ^ (len - k) := by positivity
  have hsplit : 10 ^ len = 10 ^ k * 10 ^ (len - k) := by
    rw [← pow_add]
    congr 1
    omega
  have hq : x / 10 ^ (len - k) < 10 ^ k := by
    rw [Nat.div_lt_iff_lt_mul hp, ← hsplit]
    exact hx
  have hlo : x / 10 ^ (len - k) * 10 ^ (len - k) ≤ 10 ^ len :=
    le_trans (Nat.div_mul_le_self _ _) hx.le
  have hhi : x / 10 ^ (len - k) * 10 ^ (len - k) + 10 ^ (len - k) ≤ 10 ^ len := by
    rw [hsplit]
    calc x / 10 ^ (len - k) * 10 ^ (len - k) + 10 ^ (len - k)
        = (x / 10 ^ (len - k) + 1) * 10 ^ (len - k) := by ring
      _ ≤ 10 ^ k * 10 ^ (len - k) := Nat.mul_le_mul_right _ hq
  intro v hv
  unfold decimalCandidates at hv
  simp only at hv
  split_ifs at hv <;>
    simp only [List.mem_cons, List.mem_singleton, List.mem_nil_iff, or_false] at hv <;>
    rcases hv with rfl | rfl <;> assumption

theorem shortestDecimal_cases (x : Nat) :
    shortestDecimal x = x ∨
      (toNumber (shortestDecimal x) = x ∧
        shortestDecimal x ≤ 10 ^ (natToString 10 x).length) := by
  unfold shortestDecimal
  simp only
  cases hf : List.find? (fun v => decide (toNumber v = x))
      ((List.range' 1 (natToString 10 x).length).flatMap
        (decimalCandidates x (natToString 10 x).length)) with
  | none => exact Or.inl rfl
  | some v =>
    right
    simp only [Option.getD_some]
    have hp := List.find?_some hf
    have hm := List.mem_of_find?_eq_some hf
    simp only [decide_eq_true_eq] at hp
    refine ⟨hp, ?_⟩
    rw [List.mem_flatMap] at hm
    obtain ⟨k, hk, hv⟩ := hm
    rw [List.mem_range'_1] at hk
    exact decimalCandidates_le x _ k (by omega) (natToString_length_bound x).2.1 v hv

theorem shortestDecimal_number (x : Nat) (hx : toNumber x = x) :
    toNumber (shortestDecimal x) = x := by
  rcases shortestDecimal_cases x with h | h
  · rw [h]
    exact hx
  · exact h.1

theorem shortestDecimal_safe (x : Nat) (hx : x < 9007199254740992) : shortestDecimal x = x := by
  rcases shortestDecimal_cases x with h | h
  · exact h
  · exact toNumber_safe _ x h.1 hx

theorem shortestDecimal_lt (x : Nat) (hx : x < 1000000000000000000000) :
    shortestDecimal x < 1000000000000000000000 := by
  rcases shortestDecimal_cases x with h | ⟨hn, hle⟩
  · rw [h]
    exact hx
  · have h21 : (10 : Nat) ^ 21 = 1000000000000000000000 := by norm_num
    obtain ⟨hpos, _, hge⟩ := natToString_length_bound x
    have hlen : (natToString 10 x).length ≤ 21 := by
      by_cases h0 : x = 0
      · subst h0
        decide
      · have hlt : 10 ^ ((natToString 10 x).length - 1) < 10 ^ 21 := by
          rw [h21]
          exact lt_of_le_of_lt (hge h0) hx
        have := (Nat.pow_lt_pow_iff_right (by norm_num)).mp hlt
        omega
    have hle21 : shortestDecimal x ≤ 1000000000000000000000 := by
      rw [← h21]
      exact le_trans hle (Nat.pow_le_pow_right (by norm_num) hlen)
    have hne : shortestDecimal x ≠ 1000000000000000000000 := by
      intro he
      rw [he] at hn
      have hd : toNumber 1000000000000000000000 = 1000000000000000000000 := by decide
      omega
    omega

theorem numberToString_plain (x : Nat) (hx : x < 1000000000000000000000) :
    numberToString x = natToString 10 (shortestDecimal x) := by
  unfold numberToString
  simp only [shortestDecimal_lt x hx, if_true]

/-- C16, amended: network scoping of the chain seed for chain ids below `10^21`. The seed is
the hash of the printed chain id, one byte per digit, followed by `D`. For a chain id `N1`
that is a Number below `10^21` the bytes are the decimal digits, most significant first, of
the shortest decimal whose Number value is `N1`, which is `N1` itself below `2^53`. For
every document hash `D` and distinct such chain ids `N1 ≠ N2` the byte strings that are
hashed differ, and hence the chain seeds differ whenever the hash does not collide on these
two inputs. -/
theorem C16_network_scoping (hash : Bytes → Bytes) (D : Bytes) (N1 N2 : Nat)
    (h1 : toNumber N1 = N1) (h2 : toNumber N2 = N2)
    (hb1 : N1 < 1000000000000000000000) (hb2 : N2 < 1000000000000000000000)
    (hne : N1 ≠ N2) :
    chainSpecificDocumentHash hash N1 D =
      hash (uint8ArrayFromString (numberToString N1) ++ D) ∧
    uint8ArrayFromString (numberToString N1) =
      (if shortestDecimal N1 = 0 then [0] else (Nat.digits 10 (shortestDecimal N1)).reverse) ∧
    toNumber (shortestDecimal N1) = N1 ∧
    (N1 < 9007199254740992 → shortestDecimal N1 = N1) ∧
    uint8ArrayFromString (numberToString N1) ++ D ≠
      uint8ArrayFromString (numberToString N2) ++ D ∧
    ((hash (uint8ArrayFromString (numberToString N1) ++ D) =
        hash (uint8ArrayFromString (numberToString N2) ++ D) →
      uint8ArrayFromString (numberToString N1) ++ D =
        uint8ArrayFromString (numberToString N2) ++ D) →
      chainSpecificDocumentHash hash N1 D ≠ chainSpecificDocumentHash hash N2 D) := by
  have hbytes : uint8ArrayFromString (numberToString N1) ++ D ≠
      uint8ArrayFromString (numberToString N2) ++ D := by
    intro h
    have h' := List.append_cancel_right h
    rw [numberToString_plain N1 hb1, numberToString_plain N2 hb2] at h'
    have hv : shortestDecimal N1 = shortestDecimal N2 := by
      rw [← chainIdBytes_value (shortestDecimal N1), ← chainIdBytes_value (shortestDecimal N2),
        h']
    apply hne
    rw [← shortestDecimal_number N1 h1, ← shortestDecimal_number N2 h2, hv]
  refine ⟨rfl, ?_, shortestDecimal_number N1 h1, shortestDecimal_safe N1, hbytes, ?_⟩
  · rw [numberToString_plain N1 hb1]
    by_cases h0 : shortestDecimal N1 = 0
    · rw [h0]
      rfl
    · simp only [h0, if_false]
      exact chainIdBytes_digits _ (by omega)
  · intro hinj h
    exact hbytes (hinj h)

theorem C16_network_scoping_witness :
    toNumber 18446744073709551616 = 18446744073709551616 ∧ toNumber 12 = 12 ∧
    (18446744073709551616 : Nat) ≠ 12 ∧
    uint8ArrayFromString (numberToString 18446744073709551616) =
      [1, 8, 4, 4, 6, 7, 4, 4, 0, 7, 3, 7, 0, 9, 5, 5, 2, 0, 0, 0] ∧
    uint8ArrayFromString (numberToString 12) = [1, 2] ∧
    uint8ArrayFromString (numberToString 18446744073709551616) ++ [2, 7] ≠
      uint8ArrayFromString (numberToString 12) ++ [2, 7] ∧
    chainSpecificDocumentHash sampleDigest 18446744073709551616 [2, 7] ≠
      chainSpecificDocumentHash sampleDigest 12 [2, 7] :=
  have h := C16_network_scoping sampleDigest [2, 7] 18446744073709551616 12 (by decide)
    (by decide) (by decide) (by decide) (by decide)
  ⟨by decide, by decide, by decide, by decide, by decide, h.2.2.2.2.1,
    h.2.2.2.2.2 (by decide)⟩

/-- C16, as stated, fails: the chain ids `10^21` and `10021` are distinct Number values, but
`'' + 10^21` is `1e+21`, whose characters `e` and `+` become the byte `0`, so both ids give
the bytes `1, 0, 0, 2, 1`; the byte strings hashed with the document hash `[2, 7]` are the
same and the chain seeds are equal. Moreover the chain id `2^64` is printed as
`18446744073709552000`, which is not its decimal expansion. -/
theorem C16_counterexample :
    (1000000000000000000000 : Nat) ≠ 10021 ∧
    toNumber 1000000000000000000000 = 1000000000000000000000 ∧ toNumber 10021 = 10021 ∧
    numberToString 1000000000000000000000 = lit "1e+21" ∧
    numberToString 10021 = lit "10021" ∧
    uint8ArrayFromString (numberToString 1000000000000000000000) = [1, 0, 0, 2, 1] ∧
    uint8ArrayFromString (numberToString 10021) = [1, 0, 0, 2, 1] ∧
    _concatBuffers (uint8ArrayFromString (numberToString 1000000000000000000000)) [2, 7] =
      _concatBuffers (uint8ArrayFromString (numberToString 10021)) [2, 7] ∧
    chainSpecificDocumentHash sampleDigest 1000000000000000000000 [2, 7] =
      chainSpecificDocumentHash sampleDigest 10021 [2, 7] ∧
    toNumber 18446744073709551616 = 18446744073709551616 ∧
    numberToString 18446744073709551616 = lit "18446744073709552000" ∧
    natToString 10 18446744073709551616 = lit "18446744073709551616" := by
  decide
/-! ## Signing -/

theorem publishSignature_ok {κ : Type} (env : Env κ) (h : Bytes) (data : SigData)
    (key : Option κ) (r : SignResult)
    (hok : (_publishSignature env [h] data key).1 = .ok r) :
    ∃ (net : Network) (enc : JSString),
      env.network = some net ∧
      _encodeData env.aesEncrypt env.iv data key = .ok enc ∧
      env.sendTransaction ⟨net.contractAddress, env.selectedAddress, 0, _buf2hex h true, enc⟩ =
        .ok r.txHash ∧
      r = ⟨r.txHash, env.selectedAddress, _buf2hex h true⟩ ∧
      (_publishSignature env [h] data key).2 =
        [⟨net.contractAddress, env.selectedAddress, 0, _buf2hex h true, enc⟩] := by
  unfold _publishSignature at hok ⊢
  cases hnet : env.network with
  | none => simp [hnet] at hok
  | some net =>
    simp only [hnet] at hok ⊢
    cases henc : _encodeData env.aesEncrypt env.iv data key with
    | error e => simp [henc] at hok
    | ok enc =>
      simp only [henc] at hok ⊢
      have hidx : (index [h] 0).getD [] = h := rfl
      simp only [hidx] at hok ⊢
      cases hsend : env.sendTransaction
          ⟨net.contractAddress, env.selectedAddress, 0, _buf2hex h true, enc⟩ with
      | error e => simp [hsend] at hok
      | ok tx =>
        simp only [hsend, Except.ok.injEq] at hok ⊢
        subst hok
        exact ⟨net, enc, rfl, rfl, hsend, rfl, rfl⟩

/-- The body of `sign` on a verified document whose iterator has cursor `q - 1`. -/
theorem sign_verified {κ : Type} (env : Env κ) (seed : Bytes) (doc : Document κ)
    (it : HashIterator) (data : SigData) (q : Nat)
    (hc : env.cryptoAvailable = true) (hh : doc.hashes = some it)
    (hr : Reachable env.hash seed it) (hq : it.hashPtr = (q : Int) - 1) :
    doc.sign env data =
      match _publishSignature env [chain env.hash seed q] data doc.encryptionKey with
      | (.error e, sent) =>
        (.error e, ⟨doc.documentHash,
          some ⟨seed, chainList env.hash seed (max (max it.hashes.length 1) (q + 1)),
            (q : Int) - 1⟩, doc.encryptionKey⟩, sent)
      | (.ok result, sent) =>
        (.ok result, ⟨doc.documentHash,
          some ⟨seed, chainList env.hash seed (max (max it.hashes.length 1) (q + 1)),
            (q : Int)⟩, doc.encryptionKey⟩, sent) := by
  have hshape := hr.exists_len
  rw [hq] at hshape
  have hnext := next_chainList env.hash seed it.hashes.length q 1
  rw [← hshape] at hnext
  have h1 : ((1 : Nat) : Int) = 1 := rfl
  rw [h1] at hnext
  have hl : (List.range' q 1).map (chain env.hash seed) = [chain env.hash seed q] := rfl
  rw [hl] at hnext
  unfold Document.sign
  simp only [hc, hh, hnext, not_true_eq_false, if_false]
  have e2 : (q : Int) - 1 + 1 = (q : Int) := by omega
  cases _publishSignature env [chain env.hash seed q] data doc.encryptionKey with
  | mk res sent =>
    cases res with
    | error e => simp only [HashIterator.reset, HashIterator.currentIndex, e2]
    | ok r => simp only [e2]

theorem reachable_chainList (hash : Bytes → Bytes) (seed : Bytes) (len : Nat) (p : Int) :
    Reachable hash seed ⟨seed, chainList hash seed len, p⟩ := by
  cases len with
  | zero => exact Reachable.reset (HashIterator.new seed) p Reachable.new
  | succ l =>
    have hnext := next_chainList hash seed 0 0 (l + 1)
    have hmax : max (max 0 1) (0 + (l + 1)) = l + 1 := by omega
    rw [hmax] at hnext
    exact Reachable.reset _ p (Reachable.next (HashIterator.new seed) _ _ _ Reachable.new hnext)

theorem sign_ok_facts {κ : Type} (env : Env κ) (seed : Bytes) (doc : Document κ)
    (it : HashIterator) (data : SigData) (q : Nat) (r : SignResult)
    (hc : env.cryptoAvailable = true) (hh : doc.hashes = some it)
    (hr : Reachable env.hash seed it) (hq : it.hashPtr = (q : Int) - 1)
    (hok : (doc.sign env data).1 = .ok r) :
    ∃ (net : Network) (enc : JSString),
      env.network = some net ∧
      _encodeData env.aesEncrypt env.iv data doc.encryptionKey = .ok enc ∧
      doc.sign env data =
        (.ok r, ⟨doc.documentHash,
          some ⟨seed, chainList env.hash seed (max (max it.hashes.length 1) (q + 1)), (q : Int)⟩,
          doc.encryptionKey⟩,
          [⟨net.contractAddress, env.selectedAddress, 0, pseudonym env.hash seed q, enc⟩]) ∧
      r.signature = pseudonym env.hash seed q ∧ r.signatory = env.selectedAddress := by
  have hs := sign_verified env seed doc it data q hc hh hr hq
  rw [hs] at hok ⊢
  cases hp : _publishSignature env [chain env.hash seed q] data doc.encryptionKey with
  | mk res sent =>
    cases res with
    | error e => simp [hp] at hok
    | ok r' =>
      simp only [hp, Except.ok.injEq] at hok ⊢
      subst hok
      have h1 : (_publishSignature env [chain env.hash seed q] data doc.encryptionKey).1 =
          .ok r' := by rw [hp]
      obtain ⟨net, enc, hnet, henc, _, hr', hsent⟩ := publishSignature_ok env _ data _ r' h1
      rw [hp] at hsent
      simp only at hsent
      refine ⟨net, enc, hnet, henc, ?_, ?_, ?_⟩
      · rw [hsent]; rfl
      · rw [hr']; rfl
      · rw [hr']

theorem sign_error_facts {κ : Type} (env : Env κ) (seed : Bytes) (doc : Document κ)
    (it : HashIterator) (data : SigData) (q : Nat) (e : JSError)
    (hc : env.cryptoAvailable = true) (hh : doc.hashes = some it)
    (hr : Reachable env.hash seed it) (hq : it.hashPtr = (q : Int) - 1)
    (hfail : (_publishSignature env [chain env.hash seed q] data doc.encryptionKey).1 =
      .error e) :
    doc.sign env data =
      (.error e, ⟨doc.documentHash,
        some ⟨seed, chainList env.hash seed (max (max it.hashes.length 1) (q + 1)),
          (q : Int) - 1⟩, doc.encryptionKey⟩,
        (_publishSignature env [chain env.hash seed q] data doc.encryptionKey).2) := by
  have hs := sign_verified env seed doc it data q hc hh hr hq
  rw [hs]
  cases hp : _publishSignature env [chain env.hash seed q] data doc.encryptionKey with
  | mk res sent =>
    rw [hp] at hfail
    simp only at hfail
    subst hfail
    rfl

theorem sign_crypto_of_ok {κ : Type} (env : Env κ) (doc : Document κ) (data : SigData)
    (r : SignResult) (hok : (doc.sign env data).1 = .ok r) : env.cryptoAvailable = true := by
  by_contra hc
  simp [Document.sign, hc] at hok

theorem sign_hashes_none {κ : Type} (env : Env κ) (doc : Document κ) (data : SigData)
    (hh : doc.hashes = none) : (doc.sign env data).2.1 = doc := by
  unfold Document.sign
  cases env.cryptoAvailable <;> simp [hh]

theorem verify_error_doc {κ : Type} (env : Env κ) (fuel : Nat) (doc : Document κ)
    (e : JSError) (doc' : Document κ) (hv : doc.verify env fuel = some (.error e, doc')) :
    doc' = doc := by
  unfold Document.verify at hv
  cases hca : env.cryptoAvailable with
  | false =>
    simp only [hca, Bool.false_eq_true, not_false_eq_true, if_true, Option.some.injEq,
      Prod.mk.injEq] at hv
    exact hv.2.symm
  | true =>
    simp only [hca, not_true_eq_false, if_false] at hv
    cases hn : env.network with
    | none =>
      simp only [hn, Option.some.injEq, Prod.mk.injEq] at hv
      exact hv.2.symm
    | some net =>
      cases hd : doc.documentHash with
      | none =>
        simp only [hn, hd, Option.some.injEq, Prod.mk.injEq] at hv
        exact hv.2.symm
      | some h =>
        simp only [hn, hd] at hv
        cases hdisc : _discoverSignatures env.hash env.aesDecrypt (some net) env.getPastLogs
            fuel h doc.encryptionKey with
        | none => simp [hdisc] at hv
        | some res =>
          cases res with
          | error e' =>
            simp only [hdisc, Option.some.injEq, Prod.mk.injEq] at hv
            exact hv.2.symm
          | ok r => simp [hdisc] at hv

theorem NeverVerified.hashes_none {κ : Type} {doc : Document κ} (h : NeverVerified doc) :
    doc.hashes = none := by
  induction h with
  | new hash => rfl
  | setDocumentHash env doc hash _ ih =>
    simp only [Document.setDocumentHash]
    cases env.importKey hash <;> exact ih
  | sign env doc data _ ih =>
    rw [sign_hashes_none env doc data ih]
    exact ih
  | verifyFailed env fuel doc e doc' _ hv ih =>
    rw [verify_error_doc env fuel doc e doc' hv]
    exact ih

/-- C13: on every document on which `verify()` has never completed, `hashes` is
undefined and, with the crypto capability present, `sign(data)` fails with the error
`Must verify before signing` for every `data`, requests no transaction and leaves the
document unchanged. -/
theorem C13_sign_before_verify {κ : Type} (env : Env κ) (doc : Document κ) (data : SigData)
    (hc : env.cryptoAvailable = true) (hn : NeverVerified doc) :
    doc.hashes = none ∧
    doc.sign env data = (.error (.error (lit "Must verify before signing")), doc, []) := by
  have hh := hn.hashes_none
  refine ⟨hh, ?_⟩
  unfold Document.sign
  rw [hh]
  simp only [hc, not_true_eq_false, if_false]

theorem C13_sign_before_verify_witness :
    sampleEnv.cryptoAvailable = true ∧ NeverVerified sampleDocument ∧
    sampleDocument.hashes = none ∧
    sampleDocument.sign sampleEnv samplePayload =
      (.error (.error (lit "Must verify before signing")), sampleDocument, []) :=
  ⟨rfl, NeverVerified.setDocumentHash sampleEnv _ [7, 7] (NeverVerified.new (some [7, 7])),
    C13_sign_before_verify sampleEnv sampleDocument samplePayload rfl
      (NeverVerified.setDocumentHash sampleEnv _ [7, 7] (NeverVerified.new (some [7, 7])))⟩

/-- C14: sign is atomic on failure. On a verified document with generator cursor `c`, if
publishing the pseudonym `chain(c+1)` fails with an error, for whatever reason, `sign()`
fails with that error, the document is unchanged except for the generator, whose cursor is
again `c`, and a following `sign()` that succeeds publishes the same pseudonym
`chain(c+1)`. -/
theorem C14_sign_atomic_on_failure {κ : Type} (env : Env κ) (seed : Bytes) (doc : Document κ)
    (it : HashIterator) (data : SigData) (e : JSError)
    (hc : env.cryptoAvailable = true) (hh : doc.hashes = some it)
    (hr : Reachable env.hash seed it) (hp : -1 ≤ it.currentIndex)
    (hfail : (_publishSignature env [chain env.hash seed (it.currentIndex + 1).toNat] data
      doc.encryptionKey).1 = .error e) :
    (doc.sign env data).1 = .error e ∧
    ∃ it' : HashIterator,
      (doc.sign env data).2.1 = ⟨doc.documentHash, some it', doc.encryptionKey⟩ ∧
      it'.currentIndex = it.currentIndex ∧
      ∀ (env' : Env κ) (data' : SigData) (r : SignResult),
        env'.hash = env.hash → ((doc.sign env data).2.1.sign env' data').1 = .ok r →
        r.signature = pseudonym env.hash seed (it.currentIndex + 1).toNat ∧
        ((doc.sign env data).2.1.sign env' data').2.2.map (fun t => t.signature) =
          [pseudonym env.hash seed (it.currentIndex + 1).toNat] := by
  simp only [HashIterator.currentIndex] at hp hfail ⊢
  obtain ⟨q, hq⟩ : ∃ q : Nat, it.hashPtr = (q : Int) - 1 := ⟨(it.hashPtr + 1).toNat, by omega⟩
  have hqn : (it.hashPtr + 1).toNat = q := by omega
  rw [hqn] at hfail ⊢
  have hs := sign_error_facts env seed doc it data q e hc hh hr hq hfail
  rw [hs]
  refine ⟨rfl, _, rfl, hq.symm, ?_⟩
  intro env' data' r hhash hok
  have hc' := sign_crypto_of_ok env' _ data' r hok
  have hr' : Reachable env'.hash seed
      ⟨seed, chainList env.hash seed (max (max it.hashes.length 1) (q + 1)), (q : Int) - 1⟩ := by
    rw [hhash]; exact reachable_chainList env.hash seed _ _
  obtain ⟨net, enc, _, _, hsign, hsig, _⟩ := sign_ok_facts env' seed _ _ data' q r hc' rfl hr' rfl hok
  rw [hhash] at hsig hsign
  refine ⟨hsig, ?_⟩
  rw [hsign]
  simp only [List.map_cons, List.map_nil]

theorem C14_sign_atomic_on_failure_witness :
    sampleEnv.cryptoAvailable = true ∧
    sampleVerifiedDocument.hashes =
      some ⟨sampleSeed, chainList sampleDigest sampleSeed 10, 1⟩ ∧
    (_publishSignature sampleEnv [chain sampleEnv.hash sampleSeed 2] sampleHexPayload
      sampleVerifiedDocument.encryptionKey).1 =
        .error (.typeError (lit "data.slice is not a function")) ∧
    (sampleVerifiedDocument.sign sampleEnv sampleHexPayload).1 =
      .error (.typeError (lit "data.slice is not a function")) ∧
    ∃ it' : HashIterator,
      (sampleVerifiedDocument.sign sampleEnv sampleHexPayload).2.1 =
        ⟨sampleVerifiedDocument.documentHash, some it', sampleVerifiedDocument.encryptionKey⟩ ∧
      it'.currentIndex = 1 ∧
      ∀ (env' : Env Nat) (data' : SigData) (r : SignResult),
        env'.hash = sampleEnv.hash →
        ((sampleVerifiedDocument.sign sampleEnv sampleHexPayload).2.1.sign env' data').1 = .ok r →
        r.signature = pseudonym sampleEnv.hash sampleSeed 2 ∧
        ((sampleVerifiedDocument.sign sampleEnv sampleHexPayload).2.1.sign env' data').2.2.map
          (fun t => t.signature) = [pseudonym sampleEnv.hash sampleSeed 2] :=
  ⟨rfl, rfl, by decide,
    C14_sign_atomic_on_failure sampleEnv sampleSeed sampleVerifiedDocument
      ⟨sampleSeed, chainList sampleDigest sampleSeed 10, 1⟩ sampleHexPayload
      (.typeError (lit "data.slice is not a function")) rfl rfl
      (reachable_chainList sampleDigest sampleSeed 10 1) (by decide) (by decide)⟩
theorem signAll_ok {κ : Type} (env : Env κ) (seed : Bytes) (hc : env.cryptoAvailable = true) :
    ∀ (datas : List SigData) (doc : Document κ) (len q : Nat),
      doc.hashes = some ⟨seed, chainList env.hash seed len, (q : Int) - 1⟩ →
      (∀ x ∈ (signAll env doc datas).1, ∃ r : SignResult, x = .ok r) →
      (signAll env doc datas).2.2.map (fun t => t.signature) =
        (List.range' q datas.length).map (pseudonym env.hash seed) ∧
      (signAll env doc datas).1.map (fun x => x.map (fun r => r.signature)) =
        (List.range' q datas.length).map (fun i => .ok (pseudonym env.hash seed i)) ∧
      ∃ len' : Nat, (signAll env doc datas).2.1 =
        ⟨doc.documentHash,
          some ⟨seed, chainList env.hash seed len', (q : Int) - 1 + (datas.length : Int)⟩,
          doc.encryptionKey⟩ := by
  intro datas
  induction datas with
  | nil =>
    intro doc len q hh _
    refine ⟨rfl, rfl, len, ?_⟩
    cases doc with
    | mk d h k =>
      simp only at hh
      simp [signAll, hh]
  | cons data rest ih =>
    intro doc len q hh hall
    obtain ⟨r, hr⟩ := hall (doc.sign env data).1 (by simp [signAll])
    obtain ⟨net, enc, _, _, hsign, hsig, _⟩ := sign_ok_facts env seed doc
      ⟨seed, chainList env.hash seed len, (q : Int) - 1⟩ data q r hc hh
      (reachable_chainList env.hash seed len _) rfl hr
    have hq1 : (q : Int) = ((q + 1 : Nat) : Int) - 1 := by push_cast; omega
    rw [hq1] at hsign
    have hrest : ∀ x ∈ (signAll env (doc.sign env data).2.1 rest).1,
        ∃ r : SignResult, x = .ok r := by
      intro x hx
      exact hall x (by simp only [signAll, List.mem_cons]; right; exact hx)
    obtain ⟨h1, h2, len', h3⟩ := ih (doc.sign env data).2.1 _ (q + 1) (by rw [hsign]) hrest
    simp only [signAll, List.length_cons, List.range'_succ, List.map_cons, List.map_append]
    refine ⟨?_, ?_, len', ?_⟩
    · rw [h1, hsign]; rfl
    · rw [h2, hsign]
      simp only [Except.map, hsig]
    · rw [h3, hsign]
      simp only []
      congr 3
      push_cast; omega

/-- C15: sign consumes cursor+1. On a verified document with generator cursor `c`, a
successful `sign(data)` requests one transaction carrying the `0x`-prefixed hex of
`chain(c+1)` together with the encoded payload, returns that same hex as the `signature`
of its result and leaves the cursor at `c + 1`; and `k` successive successful signs publish
`chain(c+1), ..., chain(c+k)` in order, with no gap and no repeat, and leave the cursor at
`c + k`. -/
theorem C15_sign_consumes_next {κ : Type} (env : Env κ) (seed : Bytes) (doc : Document κ)
    (it : HashIterator) (hc : env.cryptoAvailable = true) (hh : doc.hashes = some it)
    (hr : Reachable env.hash seed it) (hp : -1 ≤ it.currentIndex) :
    (∀ (data : SigData) (r : SignResult), (doc.sign env data).1 = .ok r →
      ∃ (net : Network) (enc : JSString) (it' : HashIterator),
        env.network = some net ∧
        _encodeData env.aesEncrypt env.iv data doc.encryptionKey = .ok enc ∧
        (doc.sign env data).2.2 =
          [⟨net.contractAddress, env.selectedAddress, 0,
            pseudonym env.hash seed (it.currentIndex + 1).toNat, enc⟩] ∧
        r.signature = pseudonym env.hash seed (it.currentIndex + 1).toNat ∧
        (doc.sign env data).2.1 = ⟨doc.documentHash, some it', doc.encryptionKey⟩ ∧
        it'.currentIndex = it.currentIndex + 1) ∧
    (∀ datas : List SigData,
      (∀ x ∈ (signAll env doc datas).1, ∃ r : SignResult, x = .ok r) →
      (signAll env doc datas).2.2.map (fun t => t.signature) =
        (List.range' (it.currentIndex + 1).toNat datas.length).map (pseudonym env.hash seed) ∧
      (signAll env doc datas).1.map (fun x => x.map (fun r => r.signature)) =
        (List.range' (it.currentIndex + 1).toNat datas.length).map
          (fun i => .ok (pseudonym env.hash seed i)) ∧
      ∃ it' : HashIterator,
        (signAll env doc datas).2.1 = ⟨doc.documentHash, some it', doc.encryptionKey⟩ ∧
        it'.currentIndex = it.currentIndex + (datas.length : Int)) := by
  simp only [HashIterator.currentIndex] at hp ⊢
  obtain ⟨q, hq⟩ : ∃ q : Nat, it.hashPtr = (q : Int) - 1 := ⟨(it.hashPtr + 1).toNat, by omega⟩
  have hqn : (it.hashPtr + 1).toNat = q := by omega
  rw [hqn]
  constructor
  · intro data r hok
    obtain ⟨net, enc, hnet, henc, hsign, hsig, _⟩ :=
      sign_ok_facts env seed doc it data q r hc hh hr hq hok
    refine ⟨net, enc,
      ⟨seed, chainList env.hash seed (max (max it.hashes.length 1) (q + 1)), (q : Int)⟩,
      hnet, henc, ?_, hsig, ?_, ?_⟩
    · rw [hsign]
    · rw [hsign]
    · simp only []; omega
  · intro datas hall
    have hshape := hr.exists_len
    rw [hq] at hshape
    rw [hshape] at hh
    obtain ⟨h1, h2, len', h3⟩ := signAll_ok env seed hc datas doc it.hashes.length q hh hall
    refine ⟨h1, h2, ⟨seed, chainList env.hash seed len', (q : Int) - 1 + (datas.length : Int)⟩,
      h3, ?_⟩
    simp only []; omega

theorem C15_sign_consumes_next_witness :
    sampleEnv.cryptoAvailable = true ∧
    sampleVerifiedDocument.hashes =
      some ⟨sampleSeed, chainList sampleDigest sampleSeed 10, 1⟩ ∧
    (sampleVerifiedDocument.sign sampleEnv samplePayload).1 =
      .ok ⟨lit "0xfeed", some (lit "0xa11ce"), samplePseudonym 2⟩ ∧
    (∀ x ∈ (signAll sampleEnv sampleVerifiedDocument [samplePayload, samplePayload]).1,
      ∃ r : SignResult, x = .ok r) ∧
    (∃ (net : Network) (enc : JSString) (it' : HashIterator),
      sampleEnv.network = some net ∧
      _encodeData sampleEnv.aesEncrypt sampleEnv.iv samplePayload
        sampleVerifiedDocument.encryptionKey = .ok enc ∧
      (sampleVerifiedDocument.sign sampleEnv samplePayload).2.2 =
        [⟨net.contractAddress, sampleEnv.selectedAddress, 0,
          pseudonym sampleEnv.hash sampleSeed 2, enc⟩] ∧
      (⟨lit "0xfeed", some (lit "0xa11ce"), samplePseudonym 2⟩ : SignResult).signature =
        pseudonym sampleEnv.hash sampleSeed 2 ∧
      (sampleVerifiedDocument.sign sampleEnv samplePayload).2.1 =
        ⟨sampleVerifiedDocument.documentHash, some it', sampleVerifiedDocument.encryptionKey⟩ ∧
      it'.currentIndex = 1 + 1) ∧
    (signAll sampleEnv sampleVerifiedDocument [samplePayload, samplePayload]).2.2.map
        (fun t => t.signature) =
      (List.range' 2 2).map (pseudonym sampleEnv.hash sampleSeed) :=
  have h := C15_sign_consumes_next sampleEnv sampleSeed sampleVerifiedDocument
    ⟨sampleSeed, chainList sampleDigest sampleSeed 10, 1⟩ rfl rfl
    (reachable_chainList sampleDigest sampleSeed 10 1) (by decide)
  have hall : ∀ x ∈ (signAll sampleEnv sampleVerifiedDocument [samplePayload, samplePayload]).1,
      ∃ r : SignResult, x = .ok r := by
    intro x hx
    have hl : (signAll sampleEnv sampleVerifiedDocument [samplePayload, samplePayload]).1 =
        [.ok ⟨lit "0xfeed", some (lit "0xa11ce"), samplePseudonym 2⟩,
          .ok ⟨lit "0xfeed", some (lit "0xa11ce"), samplePseudonym 3⟩] := by decide
    rw [hl] at hx
    simp only [List.mem_cons, List.mem_singleton, List.not_mem_nil, or_false] at hx
    rcases hx with rfl | rfl
    · exact ⟨_, rfl⟩
    · exact ⟨_, rfl⟩
  ⟨rfl, rfl, by decide, hall, h.1 samplePayload _ (by decide), (h.2 _ hall).1⟩
/-! ## Document identity -/

/-- C19, as stated, fails: on a document whose hash has been established as `[7, 7]`,
the public operation `setDocumentHash([8, 8])` changes `documentHash`. -/
theorem C19_counterexample :
    sampleDocument.documentHash = some [7, 7] ∧
    (sampleDocument.setDocumentHash sampleEnv [8, 8]).2.documentHash = some [8, 8] ∧
    (sampleDocument.setDocumentHash sampleEnv [8, 8]).2.documentHash ≠
      sampleDocument.documentHash := by
  decide

/-- C19, amended: `verify` and `sign` never change `documentHash`, whatever their
outcome; `setDocumentHash(hash)` stores its argument as the new `documentHash`
unconditionally, also when a hash was set before and also when the key import fails. -/
theorem C19_document_hash_frame {κ : Type} (env : Env κ) (doc : Document κ) (data : SigData)
    (fuel : Nat) (hash : Bytes) :
    (doc.sign env data).2.1.documentHash = doc.documentHash ∧
    (match doc.verify env fuel with
      | none => True
      | some r => r.2.documentHash = doc.documentHash) ∧
    (doc.setDocumentHash env hash).2.documentHash = some hash := by
  refine ⟨?_, ?_, ?_⟩
  · unfold Document.sign
    cases hca : env.cryptoAvailable with
    | false => simp
    | true =>
      simp only [not_true_eq_false, if_false]
      cases doc.hashes with
      | none => rfl
      | some it =>
        simp only
        cases it.next env.hash 1 with
        | error e => rfl
        | ok p =>
          cases p with
          | mk sig it1 =>
            simp only
            cases _publishSignature env sig data doc.encryptionKey with
            | mk res sent => cases res <;> rfl
  · unfold Document.verify
    cases hca : env.cryptoAvailable with
    | false => simp
    | true =>
      simp only [not_true_eq_false, if_false]
      cases env.network with
      | none => simp
      | some net =>
        cases hd : doc.documentHash with
        | none => simp [hd]
        | some h =>
          simp only
          cases _discoverSignatures env.hash env.aesDecrypt (some net) env.getPastLogs fuel h
              doc.encryptionKey with
          | none => trivial
          | some res => cases res <;> simp [hd]
  · unfold Document.setDocumentHash
    cases env.importKey hash <;> rfl
/-! ## Discovery: batching and cursor -/

theorem promiseAll_append {α : Type} (l1 l2 : List (Except JSError α)) (p1 p2 : List α)
    (h1 : promiseAll l1 = .ok p1) (h2 : promiseAll l2 = .ok p2) :
    promiseAll (l1 ++ l2) = .ok (p1 ++ p2) := by
  induction l1 generalizing p1 with
  | nil =>
    simp only [promiseAll, Except.ok.injEq] at h1
    subst h1
    simpa using h2
  | cons x r ih =>
    cases x with
    | error e => simp [promiseAll] at h1
    | ok a =>
      simp only [promiseAll, List.cons_append] at h1 ⊢
      cases hr : promiseAll r with
      | error e => simp [hr] at h1
      | ok pr =>
        simp only [hr, Except.ok.injEq] at h1
        subst h1
        have hih := ih pr hr
        show (match promiseAll (r ++ l2) with
          | Except.error e => Except.error e
          | Except.ok as => Except.ok (a :: as)) = Except.ok (a :: pr ++ p2)
        rw [hih]
        rfl

theorem promiseAll_length {κ : Type} (aesDecrypt : κ → Bytes → Bytes → Option Bytes)
    (key : κ) (events : List LogEvent) (parsed : List SignatureEvent)
    (h : promiseAll (events.map (fun e => _decodeSignatureEvent aesDecrypt e key)) = .ok parsed) :
    parsed.length = events.length ∧
    parsed.map (fun e => e.signature) = events.map (fun e => e.signature) := by
  obtain ⟨parsed', h1, h2⟩ := promiseAll_decode aesDecrypt key events
  rw [h1, Except.ok.injEq] at h
  subst h
  refine ⟨?_, h2⟩
  have := congrArg List.length h2
  simpa using this

/-- One call of `_discoverNext` from the state before batch `k`, for any ledger. -/
theorem discoverNext_batch_any {κ : Type} (hash : Bytes → Bytes)
    (aesDecrypt : κ → Bytes → Bytes → Option Bytes)
    (getPastLogs : List JSString → List LogEvent) (key : κ) (seed : Bytes)
    (k fuel : Nat) (sigs : List SignatureEvent) (last : Int) (queries : List (List JSString)) :
    ∃ parsed : List SignatureEvent,
      promiseAll ((getPastLogs (batch hash seed k)).map
        (fun e => _decodeSignatureEvent aesDecrypt e key)) = .ok parsed ∧
      _discoverNext hash aesDecrypt getPastLogs key (fuel + 1)
          ⟨⟨seed, chainList hash seed (10 * k), ((10 * k : Nat) : Int) - 1⟩, sigs, last, queries⟩
          (MAX_SIGS_PER_DISCOVERY_ITERATION : Nat) =
        if parsed.length ≠ 10 then
          some (.ok ⟨⟨seed, chainList hash seed (10 * (k + 1)),
              parsed.foldl (fun last e =>
                let sigNumber := HashIterator.indexOf
                  ⟨seed, chainList hash seed (10 * (k + 1)), ((10 * (k + 1) : Nat) : Int) - 1⟩
                  e.signature
                if sigNumber > last then sigNumber else last) last⟩,
            sigs ++ parsed, queries ++ [batch hash seed k]⟩)
        else
          _discoverNext hash aesDecrypt getPastLogs key fuel
            ⟨⟨seed, chainList hash seed (10 * (k + 1)), ((10 * (k + 1) : Nat) : Int) - 1⟩,
              sigs ++ parsed,
              parsed.foldl (fun last e =>
                let sigNumber := HashIterator.indexOf
                  ⟨seed, chainList hash seed (10 * (k + 1)), ((10 * (k + 1) : Nat) : Int) - 1⟩
                  e.signature
                if sigNumber > last then sigNumber else last) last,
              queries ++ [batch hash seed k]⟩
            (MAX_SIGS_PER_DISCOVERY_ITERATION : Nat) := by
  have hnext := next_chainList hash seed (10 * k) (10 * k) MAX_SIGS_PER_DISCOVERY_ITERATION
  have hbatch : (List.map (chain hash seed)
      (List.range' (10 * k) MAX_SIGS_PER_DISCOVERY_ITERATION)).map
        (fun s => _buf2hex s true) = batch hash seed k := by
    simp [List.map_map, batch, pseudonym, Function.comp, MAX_SIGS_PER_DISCOVERY_ITERATION]
  obtain ⟨parsed, hpa, _⟩ := promiseAll_decode aesDecrypt key
    (getPastLogs ((List.map (chain hash seed)
      (List.range' (10 * k) MAX_SIGS_PER_DISCOVERY_ITERATION)).map (fun s => _buf2hex s true)))
  refine ⟨parsed, by rw [← hbatch]; exact hpa, ?_⟩
  have hlen : max (max (10 * k) 1) (10 * k + MAX_SIGS_PER_DISCOVERY_ITERATION) = 10 * (k + 1) := by
    simp only [MAX_SIGS_PER_DISCOVERY_ITERATION]; omega
  have hptr : ((10 * k : Nat) : Int) - 1 + ((MAX_SIGS_PER_DISCOVERY_ITERATION : Nat) : Int) =
      ((10 * (k + 1) : Nat) : Int) - 1 := by
    simp only [MAX_SIGS_PER_DISCOVERY_ITERATION]; push_cast; omega
  rw [hlen, hptr] at hnext
  rw [discoverNext_step hash aesDecrypt getPastLogs key fuel _ _ _ _ parsed hnext hpa]
  simp only [hbatch, HashIterator.reset]
  simp only [MAX_SIGS_PER_DISCOVERY_ITERATION]
theorem discoverNext_batches {κ : Type} (hash : Bytes → Bytes)
    (aesDecrypt : κ → Bytes → Bytes → Option Bytes)
    (getPastLogs : List JSString → List LogEvent) (key : κ) (seed : Bytes) (K : Nat)
    (hfull : ∀ i, i < K → (getPastLogs (batch hash seed i)).length = 10)
    (hlast : (getPastLogs (batch hash seed K)).length ≠ 10) :
    ∀ (j k fuel : Nat) (sigs : List SignatureEvent) (last : Int) (queries : List (List JSString)),
      k + j = K → j + 1 ≤ fuel →
      ∃ (r : DiscoveryResult) (parsedAll : List SignatureEvent),
        _discoverNext hash aesDecrypt getPastLogs key fuel
          ⟨⟨seed, chainList hash seed (10 * k), ((10 * k : Nat) : Int) - 1⟩, sigs, last, queries⟩
          (MAX_SIGS_PER_DISCOVERY_ITERATION : Nat) = some (.ok r) ∧
        r.queries = queries ++ (List.range' k (j + 1)).map (batch hash seed) ∧
        promiseAll (((List.range' k (j + 1)).flatMap
          (fun i => getPastLogs (batch hash seed i))).map
            (fun e => _decodeSignatureEvent aesDecrypt e key)) = .ok parsedAll ∧
        r.signatures = sigs ++ parsedAll := by
  intro j
  induction j with
  | zero =>
    intro k fuel sigs last queries hk hfuel
    obtain ⟨fuel', rfl⟩ : ∃ f, fuel = f + 1 := ⟨fuel - 1, by omega⟩
    obtain ⟨parsed, hpa, hstep⟩ := discoverNext_batch_any hash aesDecrypt getPastLogs key seed
      k fuel' sigs last queries
    have hk' : k = K := by omega
    have hne : parsed.length ≠ 10 := by
      rw [(promiseAll_length aesDecrypt key _ parsed hpa).1, hk']; exact hlast
    rw [hstep]
    simp only [hne, ne_eq, not_false_eq_true, if_true]
    refine ⟨_, parsed, rfl, ?_, ?_, rfl⟩
    · simp
    · simpa using hpa
  | succ j ih =>
    intro k fuel sigs last queries hk hfuel
    obtain ⟨fuel', rfl⟩ : ∃ f, fuel = f + 1 := ⟨fuel - 1, by omega⟩
    obtain ⟨parsed, hpa, hstep⟩ := discoverNext_batch_any hash aesDecrypt getPastLogs key seed
      k fuel' sigs last queries
    have hlen : parsed.length = 10 := by
      rw [(promiseAll_length aesDecrypt key _ parsed hpa).1]; exact hfull k (by omega)
    rw [hstep]
    simp only [hlen, ne_eq, not_true_eq_false, if_false]
    obtain ⟨r, rest, h1, h2, h3, h4⟩ := ih (k + 1) fuel' (sigs ++ parsed) _
      (queries ++ [batch hash seed k]) (by omega) (by omega)
    refine ⟨r, parsed ++ rest, h1, ?_, ?_, ?_⟩
    · rw [h2, List.range'_succ k (j + 1), List.map_cons, List.append_assoc]
      rfl
    · rw [List.range'_succ k (j + 1), List.flatMap_cons, List.map_append]
      exact promiseAll_append _ _ _ _ hpa h3
    · rw [h4, List.append_assoc]

/-- C11: discovery batching and termination. For every ledger whose responses to the
batches `0, ..., K-1` have exactly 10 events and whose response to batch `K` has strictly
fewer than 10 (so `K` is the first batch with fewer than 10 among responses of at most 10),
`_discoverSignatures` terminates (`K + 1` calls of `_discoverNext` suffice), queries exactly
the batches `k = 0, ..., K` in order, batch `k` being the 10 pseudonyms
`chain(10k), ..., chain(10k+9)`, and returns as signatures the decoded responses
concatenated in batch order, ledger order preserved inside each batch. -/
theorem C11_discovery_batching {κ : Type} (hash : Bytes → Bytes)
    (aesDecrypt : κ → Bytes → Bytes → Option Bytes)
    (getPastLogs : List JSString → List LogEvent) (key : κ) (net : Network)
    (documentHash : Bytes) (K fuel : Nat)
    (hfull : ∀ i, i < K → (getPastLogs (batch hash
      (chainSpecificDocumentHash hash net.chain documentHash) i)).length = 10)
    (hlast : (getPastLogs (batch hash
      (chainSpecificDocumentHash hash net.chain documentHash) K)).length < 10)
    (hfuel : K + 1 ≤ fuel) :
    ∃ r : DiscoveryResult,
      _discoverSignatures hash aesDecrypt (some net) getPastLogs fuel documentHash key =
        some (.ok r) ∧
      r.queries = (List.range (K + 1)).map
        (batch hash (chainSpecificDocumentHash hash net.chain documentHash)) ∧
      (∀ k, k ≤ K → r.queries[k]? = some ((List.range' (10 * k) 10).map
        (pseudonym hash (chainSpecificDocumentHash hash net.chain documentHash)))) ∧
      promiseAll (((List.range (K + 1)).flatMap
        (fun i => getPastLogs (batch hash
          (chainSpecificDocumentHash hash net.chain documentHash) i))).map
            (fun e => _decodeSignatureEvent aesDecrypt e key)) = .ok r.signatures ∧
      r.queries.length = K + 1 ∧
      r.signatures.length = 10 * K + (getPastLogs (batch hash
        (chainSpecificDocumentHash hash net.chain documentHash) K)).length := by
  obtain ⟨r, parsedAll, h1, h2, h3, h4⟩ := discoverNext_batches hash aesDecrypt getPastLogs key
    (chainSpecificDocumentHash hash net.chain documentHash) K hfull (by omega)
    K 0 fuel [] (-1) [] (by omega) hfuel
  have h0 : chainList hash (chainSpecificDocumentHash hash net.chain documentHash) (10 * 0) = [] :=
    rfl
  have hp : (((10 * 0 : Nat) : Int) - 1) = -1 := rfl
  rw [h0, hp] at h1
  simp only [List.nil_append] at h2 h4
  rw [← List.range_eq_range'] at h2 h3
  subst h4
  have hlen : ((List.range (K + 1)).flatMap
      (fun i => getPastLogs (batch hash
        (chainSpecificDocumentHash hash net.chain documentHash) i))).length =
      10 * K + (getPastLogs (batch hash
        (chainSpecificDocumentHash hash net.chain documentHash) K)).length := by
    rw [List.range_succ, List.flatMap_append]
    simp only [List.flatMap_cons, List.flatMap_nil, List.append_nil, List.length_append]
    congr 1
    have hgen : ∀ n, n ≤ K → ((List.range n).flatMap
        (fun i => getPastLogs (batch hash
          (chainSpecificDocumentHash hash net.chain documentHash) i))).length = 10 * n := by
      intro n
      induction n with
      | zero => intro _; rfl
      | succ n ihn =>
        intro hn
        rw [List.range_succ, List.flatMap_append]
        simp only [List.flatMap_cons, List.flatMap_nil, List.append_nil, List.length_append]
        rw [ihn (by omega), hfull n (by omega)]
        omega
    exact hgen K (le_refl _)
  refine ⟨r, by simp only [_discoverSignatures, HashIterator.new]; exact h1, h2, ?_, h3, ?_, ?_⟩
  · intro k hk
    rw [h2]
    simp only [List.getElem?_map, List.getElem?_range (by omega : k < K + 1), Option.map_some']
    rfl
  · rw [h2]; simp
  · rw [(promiseAll_length aesDecrypt key _ _ h3).1, hlen]

theorem C11_discovery_batching_witness :
    (∀ i, i < 1 → (sampleGetPastLogs13 (batch sampleDigest
      (chainSpecificDocumentHash sampleDigest sampleNetwork.chain [7, 7]) i)).length = 10) ∧
    (sampleGetPastLogs13 (batch sampleDigest
      (chainSpecificDocumentHash sampleDigest sampleNetwork.chain [7, 7]) 1)).length = 3 ∧
    ∃ r : DiscoveryResult,
      _discoverSignatures sampleDigest sampleDecrypt (some sampleNetwork) sampleGetPastLogs13 2
        [7, 7] 7 = some (.ok r) ∧
      r.queries.length = 1 + 1 ∧
      r.signatures.length = 10 * 1 + 3 :=
  have hfull : ∀ i, i < 1 → (sampleGetPastLogs13 (batch sampleDigest
      (chainSpecificDocumentHash sampleDigest sampleNetwork.chain [7, 7]) i)).length = 10 := by
    decide
  have hlast : (sampleGetPastLogs13 (batch sampleDigest
      (chainSpecificDocumentHash sampleDigest sampleNetwork.chain [7, 7]) 1)).length = 3 := by
    decide
  have h := C11_discovery_batching sampleDigest sampleDecrypt sampleGetPastLogs13 7
    sampleNetwork [7, 7] 1 2 hfull (by rw [hlast]; decide) (by decide)
  ⟨hfull, hlast, h.elim (fun r hr => ⟨r, hr.1, hr.2.2.2.2.1, by rw [hr.2.2.2.2.2, hlast]⟩)⟩
theorem indexOf_map_range'_mem (f : Nat → JSString) (s : JSString) (k : Nat) :
    ∀ a : Nat, s ∈ (List.range' a k).map f →
      ∃ j, a ≤ j ∧ j < a + k ∧ ((List.range' a k).map f).indexOf s = j - a ∧ s = f j := by
  induction k with
  | zero =>
    intro a h
    simp at h
  | succ k ih =>
    intro a h
    rw [List.range'_succ, List.map_cons] at h ⊢
    by_cases hs : f a = s
    · refine ⟨a, le_refl _, by omega, ?_, hs.symm⟩
      have hb : (f a == s) = true := by simpa using hs
      rw [List.indexOf_cons, hb]
      simp
    · have hb : (f a == s) = false := by simpa using hs
      have hmem : s ∈ (List.range' (a + 1) k).map f := by
        rcases List.mem_cons.mp h with h | h
        · exact absurd h.symm hs
        · exact h
      obtain ⟨j, hj1, hj2, hidx, hsj⟩ := ih (a + 1) hmem
      refine ⟨j, by omega, by omega, ?_, hsj⟩
      rw [List.indexOf_cons, hb, hidx]
      simp only [cond_false]
      omega

/-- JavaScript `indexOf` on the cached chain: `-1`, or an index of the cache at which the
searched pseudonym stands. -/
theorem indexOf_chainList_cases (hash : Bytes → Bytes) (seed : Bytes) (len : Nat) (p : Int)
    (s : JSString) :
    HashIterator.indexOf ⟨seed, chainList hash seed len, p⟩ s = -1 ∨
    ∃ j, j < len ∧ HashIterator.indexOf ⟨seed, chainList hash seed len, p⟩ s = (j : Int) ∧
      s = pseudonym hash seed j := by
  have hmap : (chainList hash seed len).map (fun h => _buf2hex h true) =
      (List.range' 0 len).map (fun j => _buf2hex (chain hash seed j) true) := by
    simp [chainList, List.range_eq_range']
  by_cases hmem : s ∈ (List.range' 0 len).map (fun j => _buf2hex (chain hash seed j) true)
  · right
    obtain ⟨j, _, hj, hidx, hsj⟩ := indexOf_map_range'_mem
      (fun j => _buf2hex (chain hash seed j) true) s len 0 hmem
    refine ⟨j, by omega, ?_, hsj⟩
    simp only [HashIterator.indexOf, hmap, hmem, if_true]
    rw [hidx]
    simp
  · left
    simp only [HashIterator.indexOf, hmap, hmem, if_false]

theorem lastIndex_any (hash : Bytes → Bytes) (seed : Bytes) (len B : Nat) (p last : Int)
    (parsed : List SignatureEvent) (hlen : len ≤ B) (hl : -1 ≤ last)
    (hmem : ∀ e ∈ parsed, ∀ i, i < B → e.signature = pseudonym hash seed i → i < len)
    (hinj : ∀ i j, i < B → j < B → pseudonym hash seed i = pseudonym hash seed j → i = j) :
    last ≤ parsed.foldl (fun last e =>
        let sigNumber := HashIterator.indexOf ⟨seed, chainList hash seed len, p⟩ e.signature
        if sigNumber > last then sigNumber else last) last ∧
    (∀ e ∈ parsed, ∀ i, i < B → e.signature = pseudonym hash seed i →
      (i : Int) ≤ parsed.foldl (fun last e =>
        let sigNumber := HashIterator.indexOf ⟨seed, chainList hash seed len, p⟩ e.signature
        if sigNumber > last then sigNumber else last) last) ∧
    (parsed.foldl (fun last e =>
        let sigNumber := HashIterator.indexOf ⟨seed, chainList hash seed len, p⟩ e.signature
        if sigNumber > last then sigNumber else last) last = last ∨
      ∃ e ∈ parsed, ∃ i, i < len ∧ e.signature = pseudonym hash seed i ∧
        parsed.foldl (fun last e =>
        let sigNumber := HashIterator.indexOf ⟨seed, chainList hash seed len, p⟩ e.signature
        if sigNumber > last then sigNumber else last) last = (i : Int)) := by
  have hidx : ∀ e ∈ parsed, ∀ i, i < B → e.signature = pseudonym hash seed i →
      HashIterator.indexOf ⟨seed, chainList hash seed len, p⟩ e.signature = (i : Int) := by
    intro e he i hi hes
    have hil := hmem e he i hi hes
    rw [hes]
    exact indexOf_chainList hash seed len i p hil (fun j hj h => hinj j i (by omega) hi h)
  obtain ⟨h1, h2, h3⟩ := foldl_max_spec
    (fun e : SignatureEvent => HashIterator.indexOf ⟨seed, chainList hash seed len, p⟩ e.signature)
    parsed last
  simp only [] at h1 h2 h3 ⊢
  refine ⟨h1, ?_, ?_⟩
  · intro e he i hi hes
    rw [← hidx e he i hi hes]
    exact h2 e he
  · rcases h3 with h | ⟨e, he, h⟩
    · left
      exact h
    · rcases indexOf_chainList_cases hash seed len p e.signature with hc | ⟨j, hj, hc, hes⟩
      · left
        rw [hc] at h
        rw [h] at h1 ⊢
        omega
      · right
        exact ⟨e, he, j, hj, hes, by rw [h, hc]⟩

theorem discoverNext_cursor {κ : Type} (hash : Bytes → Bytes)
    (aesDecrypt : κ → Bytes → Bytes → Option Bytes)
    (getPastLogs : List JSString → List LogEvent) (key : κ) (seed : Bytes) (K B : Nat)
    (hfull : ∀ i, i < K → (getPastLogs (batch hash seed i)).length = 10)
    (hlast : (getPastLogs (batch hash seed K)).length ≠ 10)
    (hB : 10 * (K + 1) ≤ B)
    (hinj : ∀ i j, i < B → j < B → pseudonym hash seed i = pseudonym hash seed j → i = j)
    (hgen : ∀ k, k ≤ K → ∀ e ∈ getPastLogs (batch hash seed k), ∀ i, i < B →
      e.signature = pseudonym hash seed i → i < 10 * (k + 1)) :
    ∀ (j k fuel : Nat) (sigs : List SignatureEvent) (last : Int) (queries : List (List JSString)),
      k + j = K → j + 1 ≤ fuel →
      -1 ≤ last →
      (last ≠ -1 → last < ((10 * k : Nat) : Int) ∧
        ∃ e ∈ sigs, e.signature = pseudonym hash seed last.toNat) →
      (∀ e ∈ sigs, ∀ i, i < B → e.signature = pseudonym hash seed i → (i : Int) ≤ last) →
      ∃ (r : DiscoveryResult) (c : Int),
        _discoverNext hash aesDecrypt getPastLogs key fuel
          ⟨⟨seed, chainList hash seed (10 * k), ((10 * k : Nat) : Int) - 1⟩, sigs, last, queries⟩
          (MAX_SIGS_PER_DISCOVERY_ITERATION : Nat) = some (.ok r) ∧
        r.hashes = ⟨seed, chainList hash seed (10 * (K + 1)), c⟩ ∧
        -1 ≤ c ∧
        (c ≠ -1 → c < ((10 * (K + 1) : Nat) : Int) ∧
          ∃ e ∈ r.signatures, e.signature = pseudonym hash seed c.toNat) ∧
        (∀ e ∈ r.signatures, ∀ i, i < B → e.signature = pseudonym hash seed i →
          (i : Int) ≤ c) := by
  -- the effect of one batch on the invariant
  have hbatchInv : ∀ (k : Nat) (sigs parsed : List SignatureEvent) (last : Int), k ≤ K →
      promiseAll ((getPastLogs (batch hash seed k)).map
        (fun e => _decodeSignatureEvent aesDecrypt e key)) = .ok parsed →
      -1 ≤ last →
      (last ≠ -1 → last < ((10 * k : Nat) : Int) ∧
        ∃ e ∈ sigs, e.signature = pseudonym hash seed last.toNat) →
      (∀ e ∈ sigs, ∀ i, i < B → e.signature = pseudonym hash seed i → (i : Int) ≤ last) →
      -1 ≤ parsed.foldl (fun last e =>
          let sigNumber := HashIterator.indexOf
            ⟨seed, chainList hash seed (10 * (k + 1)), ((10 * (k + 1) : Nat) : Int) - 1⟩ e.signature
          if sigNumber > last then sigNumber else last) last ∧
      (parsed.foldl (fun last e =>
          let sigNumber := HashIterator.indexOf
            ⟨seed, chainList hash seed (10 * (k + 1)), ((10 * (k + 1) : Nat) : Int) - 1⟩ e.signature
          if sigNumber > last then sigNumber else last) last ≠ -1 →
        parsed.foldl (fun last e =>
          let sigNumber := HashIterator.indexOf
            ⟨seed, chainList hash seed (10 * (k + 1)), ((10 * (k + 1) : Nat) : Int) - 1⟩ e.signature
          if sigNumber > last then sigNumber else last) last < ((10 * (k + 1) : Nat) : Int) ∧
        ∃ e ∈ sigs ++ parsed, e.signature = pseudonym hash seed
          (parsed.foldl (fun last e =>
          let sigNumber := HashIterator.indexOf
            ⟨seed, chainList hash seed (10 * (k + 1)), ((10 * (k + 1) : Nat) : Int) - 1⟩ e.signature
          if sigNumber > last then sigNumber else last) last).toNat) ∧
      (∀ e ∈ sigs ++ parsed, ∀ i, i < B → e.signature = pseudonym hash seed i →
        (i : Int) ≤ parsed.foldl (fun last e =>
          let sigNumber := HashIterator.indexOf
            ⟨seed, chainList hash seed (10 * (k + 1)), ((10 * (k + 1) : Nat) : Int) - 1⟩ e.signature
          if sigNumber > last then sigNumber else last) last) := by
    intro k sigs parsed last hk hpa hl1 hl2 hl3
    have hparsed : ∀ e ∈ parsed, ∀ i, i < B → e.signature = pseudonym hash seed i →
        i < 10 * (k + 1) := by
      intro e he i hi hes
      have hm : e.signature ∈ parsed.map (fun e => e.signature) := List.mem_map.mpr ⟨e, he, rfl⟩
      rw [(promiseAll_length aesDecrypt key _ parsed hpa).2] at hm
      obtain ⟨ev, hev, hevs⟩ := List.mem_map.mp hm
      exact hgen k hk ev hev i hi (by rw [hevs, hes])
    obtain ⟨f1, f2, f3⟩ := lastIndex_any hash seed (10 * (k + 1)) B
      (((10 * (k + 1) : Nat) : Int) - 1) last parsed (by omega) hl1 hparsed hinj
    refine ⟨by omega, ?_, ?_⟩
    · intro hne
      rcases f3 with h | ⟨e, he, i, hi, hes, h⟩
      · rw [h] at hne ⊢
        obtain ⟨hlt, e, he, hes⟩ := hl2 hne
        exact ⟨by push_cast at hlt ⊢; omega, e, List.mem_append.mpr (Or.inl he), hes⟩
      · rw [h]
        exact ⟨by exact_mod_cast hi, e, List.mem_append.mpr (Or.inr he), by simpa using hes⟩
    · intro e he i hi hes
      rcases List.mem_append.mp he with he | he
      · have := hl3 e he i hi hes
        omega
      · exact f2 e he i hi hes
  intro j
  induction j with
  | zero =>
    intro k fuel sigs last queries hk hfuel hl1 hl2 hl3
    obtain ⟨fuel', rfl⟩ : ∃ f, fuel = f + 1 := ⟨fuel - 1, by omega⟩
    obtain ⟨parsed, hpa, hstep⟩ := discoverNext_batch_any hash aesDecrypt getPastLogs key seed
      k fuel' sigs last queries
    have hk' : k = K := by omega
    subst hk'
    have hne : parsed.length ≠ 10 := by
      rw [(promiseAll_length aesDecrypt key _ parsed hpa).1]; exact hlast
    obtain ⟨g1, g2, g3⟩ := hbatchInv k sigs parsed last (le_refl _) hpa hl1 hl2 hl3
    rw [hstep]
    simp only [hne, ne_eq, not_false_eq_true, if_true]
    exact ⟨_, _, rfl, rfl, g1, g2, g3⟩
  | succ j ih =>
    intro k fuel sigs last queries hk hfuel hl1 hl2 hl3
    obtain ⟨fuel', rfl⟩ : ∃ f, fuel = f + 1 := ⟨fuel - 1, by omega⟩
    obtain ⟨parsed, hpa, hstep⟩ := discoverNext_batch_any hash aesDecrypt getPastLogs key seed
      k fuel' sigs last queries
    have hlen : parsed.length = 10 := by
      rw [(promiseAll_length aesDecrypt key _ parsed hpa).1]; exact hfull k (by omega)
    obtain ⟨g1, g2, g3⟩ := hbatchInv k sigs parsed last (by omega) hpa hl1 hl2 hl3
    rw [hstep]
    simp only [hlen, ne_eq, not_true_eq_false, if_false]
    exact ih (k + 1) fuel' (sigs ++ parsed) _ (queries ++ [batch hash seed k]) (by omega)
      (by omega) g1 g2 g3
/-- C12, amended: discovery cursor. Discovery terminates on a ledger when some batch `K` is the
first whose response does not have exactly 10 events. Let `B` bound the chain indices
considered, with the first `B` pseudonyms pairwise distinct and all computed pseudonyms
among them, and let no event returned to a batch `k` carry one of these pseudonyms that
was not yet computed then (index `10 (k + 1)` or more). Then the returned generator's
`currentIndex()` is the highest chain index `i` below `B` such that some returned event
carries the pseudonym `chain(i)`, or `-1` when no returned event carries one of these
pseudonyms; consequently `next(1)` on that generator returns the pseudonym one past the
last used one. -/
theorem C12_discovery_cursor {κ : Type} (hash : Bytes → Bytes)
    (aesDecrypt : κ → Bytes → Bytes → Option Bytes)
    (getPastLogs : List JSString → List LogEvent) (key : κ) (net : Network)
    (documentHash : Bytes) (K fuel B : Nat)
    (hfull : ∀ i, i < K → (getPastLogs (batch hash
      (chainSpecificDocumentHash hash net.chain documentHash) i)).length = 10)
    (hlast : (getPastLogs (batch hash
      (chainSpecificDocumentHash hash net.chain documentHash) K)).length ≠ 10)
    (hB : 10 * (K + 1) ≤ B)
    (hinj : ∀ i j, i < B → j < B →
      pseudonym hash (chainSpecificDocumentHash hash net.chain documentHash) i =
        pseudonym hash (chainSpecificDocumentHash hash net.chain documentHash) j → i = j)
    (hgen : ∀ k, k ≤ K → ∀ e ∈ getPastLogs (batch hash
      (chainSpecificDocumentHash hash net.chain documentHash) k), ∀ i, i < B →
      e.signature = pseudonym hash (chainSpecificDocumentHash hash net.chain documentHash) i →
      i < 10 * (k + 1))
    (hfuel : K + 1 ≤ fuel) :
    ∃ r : DiscoveryResult,
      _discoverSignatures hash aesDecrypt (some net) getPastLogs fuel documentHash key =
        some (.ok r) ∧
      -1 ≤ r.hashes.currentIndex ∧ r.hashes.currentIndex < (B : Int) ∧
      (r.hashes.currentIndex = -1 ↔ ∀ e ∈ r.signatures, ∀ i, i < B → e.signature ≠
        pseudonym hash (chainSpecificDocumentHash hash net.chain documentHash) i) ∧
      (r.hashes.currentIndex ≠ -1 → ∃ e ∈ r.signatures, e.signature =
        pseudonym hash (chainSpecificDocumentHash hash net.chain documentHash)
          r.hashes.currentIndex.toNat) ∧
      (∀ e ∈ r.signatures, ∀ i, i < B → e.signature =
        pseudonym hash (chainSpecificDocumentHash hash net.chain documentHash) i →
        (i : Int) ≤ r.hashes.currentIndex) ∧
      ∃ it' : HashIterator, r.hashes.next hash 1 =
        .ok ([chain hash (chainSpecificDocumentHash hash net.chain documentHash)
          (r.hashes.currentIndex + 1).toNat], it') := by
  obtain ⟨r, c, h1, h2, h3, h4, h5⟩ := discoverNext_cursor hash aesDecrypt getPastLogs key
    (chainSpecificDocumentHash hash net.chain documentHash) K B hfull hlast hB hinj hgen
    K 0 fuel [] (-1) [] (by omega) hfuel (le_refl _) (fun h => absurd rfl h)
    (fun e he => absurd he (List.not_mem_nil e))
  have h0 : chainList hash (chainSpecificDocumentHash hash net.chain documentHash) (10 * 0) = [] :=
    rfl
  have hp : (((10 * 0 : Nat) : Int) - 1) = -1 := rfl
  rw [h0, hp] at h1
  refine ⟨r, by simp only [_discoverSignatures, HashIterator.new]; exact h1, ?_, ?_, ?_, ?_, ?_,
    ?_⟩
  · rw [h2]; exact h3
  · rw [h2]
    simp only [HashIterator.currentIndex]
    by_cases hc : c = -1
    · omega
    · have := (h4 hc).1
      omega
  · rw [h2]
    simp only [HashIterator.currentIndex]
    constructor
    · intro hc e he i hi hes
      have := h5 e he i hi hes
      omega
    · intro hs
      by_contra hne
      obtain ⟨hlt, e, he, hes⟩ := h4 hne
      exact hs e he c.toNat (by omega) hes
  · rw [h2]
    intro hne
    exact (h4 hne).2
  · intro e he i hi hes
    rw [h2]
    exact h5 e he i hi hes
  · rw [h2]
    simp only [HashIterator.currentIndex]
    obtain ⟨q, hq⟩ : ∃ q : Nat, c = (q : Int) - 1 := ⟨(c + 1).toNat, by omega⟩
    have hqn : (c + 1).toNat = q := by omega
    rw [hqn, hq]
    have hnext := next_chainList hash (chainSpecificDocumentHash hash net.chain documentHash)
      (10 * (K + 1)) q 1
    exact ⟨_, hnext⟩

theorem C12_discovery_cursor_witness :
    (sampleGetPastLogsAll (batch sampleDigest
      (chainSpecificDocumentHash sampleDigest sampleNetwork.chain [7, 7]) 0)).length ≠ 10 ∧
    (∀ i, i < 20 → ∀ j, j < 20 → samplePseudonym i = samplePseudonym j → i = j) ∧
    (∀ e ∈ sampleLedger, ∀ i, i < 20 → e.signature = samplePseudonym i → i < 10 * (0 + 1)) ∧
    ∃ r : DiscoveryResult,
      _discoverSignatures sampleDigest sampleDecrypt (some sampleNetwork) sampleGetPastLogsAll 1
        [7, 7] 7 = some (.ok r) ∧
      -1 ≤ r.hashes.currentIndex ∧ r.hashes.currentIndex < ((20 : Nat) : Int) ∧
      (r.hashes.currentIndex = -1 ↔ ∀ e ∈ r.signatures, ∀ i, i < 20 → e.signature ≠
        pseudonym sampleDigest
          (chainSpecificDocumentHash sampleDigest sampleNetwork.chain [7, 7]) i) ∧
      (r.hashes.currentIndex ≠ -1 → ∃ e ∈ r.signatures, e.signature =
        pseudonym sampleDigest (chainSpecificDocumentHash sampleDigest sampleNetwork.chain [7, 7])
          r.hashes.currentIndex.toNat) ∧
      (∀ e ∈ r.signatures, ∀ i, i < 20 → e.signature =
        pseudonym sampleDigest (chainSpecificDocumentHash sampleDigest sampleNetwork.chain [7, 7])
          i → (i : Int) ≤ r.hashes.currentIndex) ∧
      ∃ it' : HashIterator, r.hashes.next sampleDigest 1 =
        .ok ([chain sampleDigest (chainSpecificDocumentHash sampleDigest sampleNetwork.chain
          [7, 7]) (r.hashes.currentIndex + 1).toNat], it') :=
  have hlast : (sampleGetPastLogsAll (batch sampleDigest
      (chainSpecificDocumentHash sampleDigest sampleNetwork.chain [7, 7]) 0)).length ≠ 10 := by
    decide
  have hinj : ∀ i, i < 20 → ∀ j, j < 20 → samplePseudonym i = samplePseudonym j → i = j := by
    decide
  have hgen : ∀ e ∈ sampleLedger, ∀ i, i < 20 → e.signature = samplePseudonym i →
      i < 10 * (0 + 1) := by decide
  ⟨hlast, hinj, hgen,
    C12_discovery_cursor sampleDigest sampleDecrypt sampleGetPastLogsAll 7 sampleNetwork [7, 7]
      0 1 20 (fun i hi => absurd hi (Nat.not_lt_zero i)) hlast (by decide)
      (fun i j hi hj h => hinj i hi j hj h) (fun k _ e he i hi h => Nat.lt_of_lt_of_le (hgen e he i hi h)
        (Nat.mul_le_mul_left 10 (Nat.succ_le_succ (Nat.zero_le k))))
      (by decide)⟩

/-- C12, as stated, fails: take a ledger that answers the first batch, the pseudonyms `chain(0)` to
`chain(9)` of the sample chain, with one event carrying `chain(15)`. Discovery terminates
with that event returned and the cursor at `-1`, since `indexOf` searches only the ten
pseudonyms computed so far, although `15` is a chain index whose pseudonym a returned
event carries, and no lower index has that pseudonym. -/
theorem C12_counterexample :
    (sampleGetPastLogs15 (batch sampleDigest
      (chainSpecificDocumentHash sampleDigest sampleNetwork.chain [7, 7]) 0)).length ≠ 10 ∧
    (_discoverSignatures sampleDigest sampleDecrypt (some sampleNetwork) sampleGetPastLogs15 1
        [7, 7] 7).map (Except.map (fun r =>
          (r.hashes.currentIndex, r.signatures.map (fun e => e.signature)))) =
      some (.ok (-1, [pseudonym sampleDigest
        (chainSpecificDocumentHash sampleDigest sampleNetwork.chain [7, 7]) 15])) ∧
    (∀ i, i < 15 → pseudonym sampleDigest
        (chainSpecificDocumentHash sampleDigest sampleNetwork.chain [7, 7]) i ≠
      pseudonym sampleDigest
        (chainSpecificDocumentHash sampleDigest sampleNetwork.chain [7, 7]) 15) := by
  decide
end OpenSig
